import Mathlib

/-!
Shallow embedding of the `timetable_ai` package (student scheduler, faculty
optimizer, validator, dual timetable manager) together with proofs about the
properties its specification states.

Modelling conventions:
* Python dicts with optional fields become structures with `Option` fields;
  a missing key is `none`.
* Python dicts built from entity lists (`{x['id']: x for x in xs}`) are
  modelled by `pyDict`, which mirrors CPython insert/overwrite semantics
  (first-insertion position, last value wins).
* Python truthiness (`if x:` on an int / string / list / Option) is made
  explicit at each use site.
* Python's stable `sorted(...)` is modelled with `List.insertionSort`, which
  is also stable; a stable sort under a total preorder is a unique function,
  so this is extensionally the same function as CPython's sort.
* The CP-SAT solver is external; it is modelled by a solver status plus a
  boolean valuation of the decision variables, and the hard constraints the
  scheduler posts are reified as the predicate `SatisfiesHard`.
* Fallible code (uncaught `KeyError`) is modelled with `Except String`.
-/

/-! ## Data model (master data records) -/

structure Course where
  course_code : String
  name : Option String := none
  credit_hours : Option Int := none
  hours_per_week : Option Int := none
  sessions_per_week : Option Int := none
  components : Option (List (String × Int)) := none
  lab_required : Bool := false
  student_groups : List String := []
  possible_faculty : List String := []
  course_track : Option String := none
  program : Option String := none
  teaching_practice_required : Bool := false
  deriving DecidableEq

structure Room where
  room_id : String
  type : Option String := none
  capacity : Option Int := none
  available_slots : List String := []
  deriving DecidableEq

structure Faculty where
  faculty_id : String
  expertise : List String := []
  available_slots : List String := []
  max_hours_per_week : Option Int := none
  deriving DecidableEq

inductive CourseChoices where
  | asList (courses : List String)
  | asDict (tracks : List (String × List String))
  deriving DecidableEq

structure CreditRequirements where
  min : Option Int := none
  max : Option Int := none
  major_min : Option Int := none
  minor_min : Option Int := none
  skill_min : Option Int := none
  deriving DecidableEq

structure StudentGroup where
  group_id : String
  students : List String := []
  course_choices : CourseChoices := .asDict []
  credit_requirements : Option CreditRequirements := none
  deriving DecidableEq

structure MasterData where
  time_slots : List String
  courses : List Course
  rooms : List Room
  faculty : List Faculty
  student_groups : List StudentGroup
  teaching_practice_windows : List (String × List String) := []
  deriving DecidableEq

/-- A placement entry as it appears in `assignments[slot]` lists; the
scheduler emits it with `faculty_id := none`, the faculty optimizer
overwrites `faculty_id`. -/
structure Placement where
  course_code : String
  course_name : Option String := none
  room_id : String
  course_track : Option String := none
  credit_hours : Option Int := none
  components : Option (List (String × Int)) := none
  faculty_id : Option String := none
  deriving DecidableEq

/-- Decision-variable key `(course_code, slot, room_id)`. -/
abbrev VarKey := String × String × String

/-! ## Python dict / truthiness helpers -/

/-- CPython `d[k] = v`: overwrite in place if the key exists, else append. -/
def pyDictInsert {β : Type} (m : List (String × β)) (k : String) (v : β) :
    List (String × β) :=
  if m.any (fun p => p.1 == k) then
    m.map (fun p => if p.1 == k then (p.1, v) else p)
  else m ++ [(k, v)]

/-- CPython `{key(x): x for x in l}`. -/
def pyDict {β : Type} (key : β → String) (l : List β) : List (String × β) :=
  l.foldl (fun m x => pyDictInsert m (key x) x) []

/-- CPython `d.get(k)` on a dict whose keys are unique (as `pyDict` ensures). -/
def pyGet? {β : Type} (m : List (String × β)) (k : String) : Option β :=
  (m.find? (fun p => p.1 == k)).map Prod.snd

/-- CPython `a or b` on two optional ints (`None` and `0` are falsy). -/
def pyOrInt (a b : Option Int) : Option Int :=
  match a with
  | some v => if v = 0 then b else some v
  | none => b

/-- Truthiness of an optional int (`None` and `0` are falsy). -/
def pyTruthyInt : Option Int → Bool
  | some v => v != 0
  | none => false

/-- CPython `components.get(name, 0)` on the components mapping. -/
def componentGet (m : List (String × Int)) (k : String) : Int :=
  match m.find? (fun p => p.1 == k) with
  | some p => p.2
  | none => 0

/-! ## Required sessions (scheduler and validator versions) -/

/-- `StudentScheduler._sessions_required` from `student_scheduler.py`:
`sessions_per_week` if the key is present; else `max(1, sum(components))` if
the components mapping is truthy; else `max(1, int(credit_hours or
hours_per_week))` when that value is truthy; else `1`.
(`int(...)` is the identity on the integer-valued inputs modelled here.) -/
def sessionsRequired (c : Course) : Int :=
  match c.sessions_per_week with
  | some n => n
  | none =>
    let components := c.components.getD []
    if components ≠ [] then max 1 ((components.map Prod.snd).sum)
    else
      match pyOrInt c.credit_hours c.hours_per_week with
      | some ch => if ch ≠ 0 then max 1 ch else 1
      | none => 1

/-- `_required_sessions` from `validator.py`: identical source text to the
scheduler's rule except that its final fallback is `return None`. -/
def requiredSessions (c : Course) : Option Int :=
  match c.sessions_per_week with
  | some n => some n
  | none =>
    let components := c.components.getD []
    if components ≠ [] then some (max 1 ((components.map Prod.snd).sum))
    else
      match pyOrInt c.credit_hours c.hours_per_week with
      | some ch => if ch ≠ 0 then some (max 1 ch) else none
      | none => none

/-! ## Student scheduler: variables and result construction -/

/-- Lab requirement from `StudentScheduler.build_vars`: `lab_required`, or the
`practicum` plus `lab` component counts are positive. -/
def requiresLab (c : Course) : Bool :=
  let components := c.components.getD []
  c.lab_required ||
    (componentGet components "practicum" + componentGet components "lab" > 0)

/-- CPython `r.get('type', 'theory')`. -/
def roomType (r : Room) : String := r.type.getD "theory"

/-- The decision-variable keys created by `StudentScheduler.build_vars`, in
creation order: every (course, slot, room) triple except that rooms whose
type is not `"lab"` are skipped for lab-requiring courses. -/
def buildVars (data : MasterData) : List VarKey :=
  data.courses.flatMap (fun c =>
    data.time_slots.flatMap (fun s =>
      (data.rooms.filter (fun r => !(requiresLab c && roomType r != "lab"))).map
        (fun r => (c.course_code, s, r.room_id))))

/-- Keep the first occurrence of each element (the key order of a CPython
dict that is inserted into repeatedly). -/
def dedupFirst {α : Type} [DecidableEq α] (l : List α) : List α :=
  l.foldl (fun acc a => if a ∈ acc then acc else acc ++ [a]) []

/-- The key list of the scheduler's `self.vars` dict. -/
def varKeys (data : MasterData) : List VarKey := dedupFirst (buildVars data)

/-- The variables the solver set to 1, in `self.vars` iteration order. -/
def trueVars (data : MasterData) (val : VarKey → Bool) : List VarKey :=
  (varKeys data).filter (fun k => val k)

/-- CPython `{s: i for i, s in enumerate(self.slots)}` (later duplicate slots
overwrite the stored index, keeping the first-insertion position). -/
def slotOrderAux : List String → Nat → List (String × Nat) → List (String × Nat)
  | [], _, m => m
  | s :: rest, i, m => slotOrderAux rest (i + 1) (pyDictInsert m s i)

def slotOrder (slots : List String) : List (String × Nat) :=
  slotOrderAux slots 0 []

/-- CPython `slot_order.get(x, len(self.slots))`. -/
def slotIdx (slots : List String) (s : String) : Nat :=
  (pyGet? (slotOrder slots) s).getD slots.length

/-- The scheduler's `self.course_map` (also the validator's `courses` dict). -/
def courseMap (data : MasterData) : List (String × Course) :=
  pyDict (fun c => c.course_code) data.courses

def defaultCourse : Course := { course_code := "" }

/-- One emitted placement record for a true variable, with the denormalised
course metadata copied from `self.course_map.get(code, {})`. -/
def mkPlacement (data : MasterData) (k : VarKey) : Placement :=
  let c := (pyGet? (courseMap data) k.1).getD defaultCourse
  { course_code := k.1, course_name := c.name, room_id := k.2.2,
    course_track := c.course_track, credit_hours := c.credit_hours,
    components := c.components, faculty_id := none }

/-- The slot keys of the `assignments` defaultdict, in first-append order. -/
def slotKeysOf (tv : List VarKey) : List String :=
  dedupFirst (tv.map (fun k => k.2.1))

/-- The raw `assignments[s]` list (append order = variable iteration order). -/
def entriesAt (data : MasterData) (tv : List VarKey) (s : String) :
    List Placement :=
  (tv.filter (fun k => k.2.1 == s)).map (mkPlacement data)

/-- Comparison used by `sorted(assignments[slot], key=course_code)`. -/
def placeLE (a b : Placement) : Prop := a.course_code ≤ b.course_code

instance : DecidableRel placeLE := fun a b =>
  (inferInstance : Decidable (a.course_code ≤ b.course_code))

instance : IsTotal Placement placeLE :=
  ⟨fun a b => le_total a.course_code b.course_code⟩

instance : IsTrans Placement placeLE :=
  ⟨fun _ _ _ h1 h2 => le_trans h1 h2⟩

/-- The scheduler's `ordered_assignments`: slot keys sorted by master slot
index, placements in each slot sorted (stably) by course code. -/
def orderedAssignments (data : MasterData) (val : VarKey → Bool) :
    List (String × List Placement) :=
  let tv := trueVars data val
  let sortedKeys :=
    (slotKeysOf tv).insertionSort
      (fun a b => slotIdx data.time_slots a ≤ slotIdx data.time_slots b)
  sortedKeys.map (fun s => (s, (entriesAt data tv s).insertionSort placeLE))

/-- CPython `student_tt[stu][s] = code` on a `defaultdict(dict)`. -/
def sttInsert (stt : List (String × List (String × String)))
    (stu s code : String) : List (String × List (String × String)) :=
  pyDictInsert stt stu (pyDictInsert ((pyGet? stt stu).getD []) s code)

/-- `course -> student_groups` lookup used when building student timetables
(`course_groups.get(code, [])`). -/
def courseGroupsOf (data : MasterData) (code : String) : List String :=
  ((pyGet? (courseMap data) code).map (fun c => c.student_groups)).getD []

/-- The scheduler's per-student timetables, built from the ordered
assignments. -/
def studentTimetables (data : MasterData)
    (ordered : List (String × List Placement)) :
    List (String × List (String × String)) :=
  ordered.foldl (fun stt sp =>
    sp.2.foldl (fun stt a =>
      (courseGroupsOf data a.course_code).foldl (fun stt g =>
        match data.student_groups.find? (fun x => x.group_id == g) with
        | some gobj =>
          gobj.students.foldl (fun stt stu => sttInsert stt stu sp.1 a.course_code) stt
        | none => stt) stt) stt) []

structure SolveResult where
  assignments : List (String × List Placement)
  student_timetables : List (String × List (String × String))
  deriving DecidableEq

/-- Solver statuses of CP-SAT that matter to `StudentScheduler.solve`. -/
inductive CpStatus where
  | optimal | feasible | infeasible | unknown | modelInvalid
  deriving DecidableEq

def buildResult (data : MasterData) (val : VarKey → Bool) : SolveResult :=
  let ordered := orderedAssignments data val
  { assignments := ordered,
    student_timetables := studentTimetables data ordered }

/-- `StudentScheduler.solve`, with the external solver abstracted into the
status it returns and the valuation of the decision variables. -/
def solveOutcome (data : MasterData) (status : CpStatus)
    (val : VarKey → Bool) : Option SolveResult × Option String :=
  if status = .optimal ∨ status = .feasible then
    (some (buildResult data val), none)
  else (none, some "No feasible student timetable found.")

/-! ## Faculty optimizer -/

/-- The optimizer's (and validator's) `faculty` dict keyed by id. -/
def facultyMap (data : MasterData) : List (String × Faculty) :=
  pyDict (fun f => f.faculty_id) data.faculty

/-- CPython `fobj.get('max_hours_per_week', 40)`. -/
def maxHoursOf (f : Faculty) : Int := f.max_hours_per_week.getD 40

/-- `load[fid]` (every relevant id is initialised to 0 by the optimizer). -/
def loadOf (load : List (String × Int)) (fid : String) : Int :=
  (pyGet? load fid).getD 0

/-- CPython `load[fid] += 1`. -/
def loadBump (load : List (String × Int)) (fid : String) : List (String × Int) :=
  pyDictInsert load fid (loadOf load fid + 1)

/-- CPython `s in faculty_tt[fid]`. -/
def hasSlot (ftt : List (String × List (String × String)))
    (fid s : String) : Bool :=
  ((pyGet? ftt fid).getD []).any (fun p => p.1 == s)

/-- CPython `faculty_tt[fid][s] = code`. -/
def fttSet (ftt : List (String × List (String × String)))
    (fid s code : String) : List (String × List (String × String)) :=
  pyDictInsert ftt fid (pyDictInsert ((pyGet? ftt fid).getD []) s code)

/-- Truthiness of an optional string (`None` and `""` are falsy). -/
def pyTruthyStr : Option String → Bool
  | some v => v != ""
  | none => false

/-- Candidate list for a placement: the course's `possible_faculty` in
declared order, then each faculty (in master dict order) whose expertise
contains the course code and who is not already listed. -/
def candidateList (facDict : List (String × Faculty)) (course_obj : Course)
    (code : String) : List String :=
  facDict.foldl (fun cands p =>
    if code ∈ p.2.expertise ∧ p.1 ∉ cands then cands ++ [p.1] else cands)
    course_obj.possible_faculty

/-- The candidate scan of `FacultyOptimizer.assign_faculty`: availability,
no double-booking, under the hour cap, then keep the least-loaded candidate
(strict improvement only, so ties keep the earlier candidate).
`self.faculty[fid]` is a raw dict indexing, so an unknown candidate id is a
`KeyError`, modelled as `.error fid`. -/
def pickLoop (facDict : List (String × Faculty)) (load : List (String × Int))
    (ftt : List (String × List (String × String))) (s : String) :
    List String → Option String → Option Int → Except String (Option String)
  | [], chosen, _ => .ok chosen
  | fid :: rest, chosen, bestLoad =>
    match pyGet? facDict fid with
    | none => .error fid
    | some fobj =>
      if s ∉ fobj.available_slots then
        pickLoop facDict load ftt s rest chosen bestLoad
      else if hasSlot ftt fid s then
        pickLoop facDict load ftt s rest chosen bestLoad
      else if maxHoursOf fobj ≤ loadOf load fid then
        pickLoop facDict load ftt s rest chosen bestLoad
      else
        match bestLoad with
        | none => pickLoop facDict load ftt s rest (some fid) (some (loadOf load fid))
        | some b =>
          if loadOf load fid < b then
            pickLoop facDict load ftt s rest (some fid) (some (loadOf load fid))
          else pickLoop facDict load ftt s rest chosen bestLoad

/-- The fallback scan: the first faculty in master dict order that is
available, not double-booked and under its cap. -/
def fallbackPick (facDict : List (String × Faculty))
    (load : List (String × Int))
    (ftt : List (String × List (String × String))) (s : String) :
    Option String :=
  (facDict.find? (fun p =>
    decide (s ∈ p.2.available_slots) && !(hasSlot ftt p.1 s) &&
      decide (loadOf load p.1 < maxHoursOf p.2))).map Prod.fst

/-- Faculty choice for one placement: candidate scan, then fallback scan if
no candidate was chosen. -/
def chooseFaculty (facDict : List (String × Faculty))
    (coursesDict : List (String × Course)) (load : List (String × Int))
    (ftt : List (String × List (String × String))) (s code : String) :
    Except String (Option String) :=
  let course_obj := (pyGet? coursesDict code).getD defaultCourse
  let cands := candidateList facDict course_obj code
  match pickLoop facDict load ftt s cands none none with
  | .error e => .error e
  | .ok (some f) => .ok (some f)
  | .ok none => .ok (fallbackPick facDict load ftt s)

structure OptState where
  load : List (String × Int)
  ftt : List (String × List (String × String))
  deriving DecidableEq

/-- Book-keeping after a choice: only a truthy id updates the load counter
and the faculty timetable (`if chosen:`). -/
def bookChoice (st : OptState) (chosen : Option String) (s code : String) :
    OptState :=
  match chosen with
  | some f =>
    if f ≠ "" then
      { load := loadBump st.load f, ftt := fttSet st.ftt f s code }
    else st
  | none => st

/-- The inner loop over one slot's placements. -/
def assignPlacements (facDict : List (String × Faculty))
    (coursesDict : List (String × Course)) (s : String) :
    List Placement → OptState → List Placement →
      Except String (List Placement × OptState)
  | [], st, acc => .ok (acc, st)
  | a :: rest, st, acc =>
    match chooseFaculty facDict coursesDict st.load st.ftt s a.course_code with
    | .error e => .error e
    | .ok chosen =>
      assignPlacements facDict coursesDict s rest
        (bookChoice st chosen s a.course_code)
        (acc ++ [{ a with faculty_id := chosen }])

/-- The outer loop over the baseline's slots, in input order. -/
def assignSlots (facDict : List (String × Faculty))
    (coursesDict : List (String × Course)) :
    List (String × List Placement) → OptState →
      List (String × List Placement) →
      Except String (List (String × List Placement) × OptState)
  | [], st, acc => .ok (acc, st)
  | (s, assigns) :: rest, st, acc =>
    match assignPlacements facDict coursesDict s assigns st [] with
    | .error e => .error e
    | .ok (ps, st') => assignSlots facDict coursesDict rest st' (acc ++ [(s, ps)])

/-- `FacultyOptimizer.assign_faculty`. -/
def assignFaculty (data : MasterData)
    (baseline : List (String × List Placement)) :
    Except String
      (List (String × List Placement) × List (String × List (String × String))) :=
  let facDict := facultyMap data
  let st0 : OptState :=
    { load := facDict.map (fun p => (p.1, (0 : Int))),
      ftt := facDict.map (fun p => (p.1, [])) }
  match assignSlots facDict (courseMap data) baseline st0 [] with
  | .error e => .error e
  | .ok (out, st) => .ok (out, st.ftt)

/-! ## Validator

The Python validator appends human-readable f-strings to one list; each
append site is modelled by one constructor of `Violation`, and
`validateTimetable` produces the violations in the exact program order of
`validate_timetable`. -/

inductive Violation where
  | slotNotInMaster (s : String)
  | roomNotFound (rid s : String)
  | roomNotAvailable (rid s code : String)
  | roomDoubleBooked (rid s first code : String)
  | roomCapacity (rid : String) (cap : Int) (code : String) (needs : Int)
  | noFacultyAssigned (code s : String)
  | facultyNotInMaster (fid s : String)
  | facultyNotAvailable (fid s code : String)
  | facultyDoubleBooked (fid s first code : String)
  | facultyOverload (fid : String) (load maxHours : Int)
  | groupMultipleClasses (g s first code : String)
  | sessionMismatch (code : String) (req sched : Int)
  | groupTotalBelow (g : String) (total lo : Int)
  | groupTotalAbove (g : String) (total hi : Int)
  | groupMajorBelow (g : String) (got lo : Int)
  | groupMinorBelow (g : String) (got lo : Int)
  | groupSkillBelow (g : String) (got lo : Int)
  | groupOutsideChoices (g course : String)
  | teachingPracticeOutside (code g s : String)
  deriving DecidableEq

/-- A timetable as the validator consumes it: slot keyed lists of placements. -/
abbrev Timetable := List (String × List Placement)

def roomMap (data : MasterData) : List (String × Room) :=
  pyDict (fun r => r.room_id) data.rooms

def groupMap (data : MasterData) : List (String × StudentGroup) :=
  pyDict (fun g => g.group_id) data.student_groups

/-- CPython `group_sizes.get(gid, 0)` where
`group_sizes = {g['group_id']: len(g.get('students', []))}`. -/
def groupSize (data : MasterData) (gid : String) : Int :=
  ((pyGet? (groupMap data) gid).map (fun g => (g.students.length : Int))).getD 0

/-- `course_credits` of the validator:
`cobj.get('credit_hours', cobj.get('sessions_per_week', cobj.get('hours_per_week', 1)))`
(presence-based defaults, unlike the truthiness-based session rule), with
`.get(course, 0)` at the use site. -/
def courseCreditOf (data : MasterData) (course : String) : Int :=
  ((pyGet? (courseMap data) course).map (fun c =>
    c.credit_hours.getD (c.sessions_per_week.getD (c.hours_per_week.getD 1)))).getD 0

/-- CPython `(course_tracks.get(course) or 'elective').lower()`. -/
def courseTrackOf (data : MasterData) (course : String) : String :=
  (match (pyGet? (courseMap data) course).bind (fun c => c.course_track) with
   | some v => if v ≠ "" then v else "elective"
   | none => "elective").toLower

/-- Slot-existence loop: `for s in timetable: if s not in slots: ...`. -/
def slotExistenceChecks (tt : Timetable) (slots : List String) :
    List Violation :=
  (tt.map Prod.fst).filterMap (fun s =>
    if s ∈ slots then none else some (.slotNotInMaster s))

/-- The number of students a course needs seated: the sum of the student
counts of its groups (`total_students` in the capacity check). -/
def roomNeeds (data : MasterData) (code : String) : Int :=
  ((((pyGet? (courseMap data) code).map (fun c => c.student_groups)).getD
    []).map (fun gid => groupSize data gid)).sum

/-- Room checks for one assignment; `seen` is the slot's `seen_rooms` dict.
An unknown room appends the not-found message and `continue`s past the
remaining room checks. -/
def roomChecksAssign (data : MasterData) (s : String)
    (seen : List (String × String)) (a : Placement) : List Violation :=
  match pyGet? (roomMap data) a.room_id with
  | none => [.roomNotFound a.room_id s]
  | some room =>
    (if s ∈ room.available_slots then []
     else [.roomNotAvailable a.room_id s a.course_code]) ++
    (match pyGet? seen a.room_id with
     | some first => [.roomDoubleBooked a.room_id s first a.course_code]
     | none => []) ++
    (match room.capacity with
     | some cap =>
       if roomNeeds data a.course_code > cap then
         [.roomCapacity a.room_id cap a.course_code (roomNeeds data a.course_code)]
       else []
     | none => [])

/-- The `seen_rooms` dict after one assignment (`seen_rooms[rid] = code` only
runs for a known room seen for the first time in the slot). -/
def roomSeenNext (data : MasterData) (seen : List (String × String))
    (a : Placement) : List (String × String) :=
  match pyGet? (roomMap data) a.room_id with
  | none => seen
  | some _ =>
    match pyGet? seen a.room_id with
    | some _ => seen
    | none => seen ++ [(a.room_id, a.course_code)]

def roomChecksList (data : MasterData) (s : String) :
    List Placement → List (String × String) → List Violation
  | [], _ => []
  | a :: rest, seen =>
    roomChecksAssign data s seen a ++
      roomChecksList data s rest (roomSeenNext data seen a)

/-- The room double-book / availability / capacity loop over all slots
(`seen_rooms` is reset for each slot). -/
def roomPhase (data : MasterData) (tt : Timetable) : List Violation :=
  tt.flatMap (fun sp => roomChecksList data sp.1 sp.2 [])

/-- Faculty checks for one assignment; `seen` is the slot's `seen_fac` dict.
A falsy faculty id or an unknown id `continue`s past the remaining faculty
checks. -/
def facChecksAssign (data : MasterData) (s : String)
    (seen : List (String × String)) (a : Placement) : List Violation :=
  match a.faculty_id with
  | none => [.noFacultyAssigned a.course_code s]
  | some fid =>
    if fid = "" then [.noFacultyAssigned a.course_code s]
    else
      match pyGet? (facultyMap data) fid with
      | none => [.facultyNotInMaster fid s]
      | some fobj =>
        (if s ∈ fobj.available_slots then []
         else [.facultyNotAvailable fid s a.course_code]) ++
        (match pyGet? seen fid with
         | some first => [.facultyDoubleBooked fid s first a.course_code]
         | none => [])

/-- The `seen_fac` dict after one assignment. -/
def facSeenNext (data : MasterData) (seen : List (String × String))
    (a : Placement) : List (String × String) :=
  match a.faculty_id with
  | none => seen
  | some fid =>
    if fid = "" then seen
    else
      match pyGet? (facultyMap data) fid with
      | none => seen
      | some _ =>
        match pyGet? seen fid with
        | some _ => seen
        | none => seen ++ [(fid, a.course_code)]

/-- The `faculty_load` defaultdict after one assignment (`faculty_load[fid]
+= 1` runs for every truthy, master-listed faculty id). -/
def facLoadNext (data : MasterData) (loadD : List (String × Int))
    (a : Placement) : List (String × Int) :=
  match a.faculty_id with
  | none => loadD
  | some fid =>
    if fid = "" then loadD
    else
      match pyGet? (facultyMap data) fid with
      | none => loadD
      | some _ => loadBump loadD fid

def facChecksList (data : MasterData) (s : String) :
    List Placement → List (String × String) → List Violation
  | [], _ => []
  | a :: rest, seen =>
    facChecksAssign data s seen a ++
      facChecksList data s rest (facSeenNext data seen a)

def facLoadList (data : MasterData) :
    List Placement → List (String × Int) → List (String × Int)
  | [], loadD => loadD
  | a :: rest, loadD => facLoadList data rest (facLoadNext data loadD a)

/-- Faculty availability / double-book loop (`seen_fac` reset per slot). -/
def facPhaseViol (data : MasterData) (tt : Timetable) : List Violation :=
  tt.flatMap (fun sp => facChecksList data sp.1 sp.2 [])

/-- The `faculty_load` dict accumulated over the whole timetable. -/
def facLoadDict (data : MasterData) (tt : Timetable) : List (String × Int) :=
  tt.foldl (fun loadD sp => facLoadList data sp.2 loadD) []

/-- The weekly-load loop: `if max_hours and load > max_hours`. -/
def loadPhase (data : MasterData) (loadD : List (String × Int)) :
    List Violation :=
  loadD.filterMap (fun p =>
    match (match pyGet? (facultyMap data) p.1 with
           | some f => f.max_hours_per_week
           | none => none) with
    | some m => if m ≠ 0 ∧ p.2 > m then some (.facultyOverload p.1 p.2 m) else none
    | none => none)

/-- CPython `group_course_assignments[g].add(code)` (a per-group set,
determinised here to insertion order; downstream only membership and sums
over it are observed). -/
def gcaAdd (gca : List (String × List String)) (g code : String) :
    List (String × List String) :=
  let cur := (pyGet? gca g).getD []
  pyDictInsert gca g (if code ∈ cur then cur else cur ++ [code])

/-- CPython `group_seen[g] = code` on first sight. -/
def gseenNext (gseen : List (String × String)) (g code : String) :
    List (String × String) :=
  match pyGet? gseen g with
  | some _ => gseen
  | none => gseen ++ [(g, code)]

/-- The group-conflict emissions for one assignment's group list; `gseen` is
the slot's `group_seen` dict. -/
def groupViolGroups (s code : String) :
    List String → List (String × String) → List Violation
  | [], _ => []
  | g :: rest, gseen =>
    (match pyGet? gseen g with
     | some first => [.groupMultipleClasses g s first code]
     | none => []) ++
      groupViolGroups s code rest (gseenNext gseen g code)

def gseenNextGroups (code : String) :
    List String → List (String × String) → List (String × String)
  | [], gseen => gseen
  | g :: rest, gseen => gseenNextGroups code rest (gseenNext gseen g code)

def gcaAddGroups (code : String) :
    List String → List (String × List String) → List (String × List String)
  | [], gca => gca
  | g :: rest, gca => gcaAddGroups code rest (gcaAdd gca g code)

def groupChecksList (data : MasterData) (s : String) :
    List Placement → List (String × String) → List Violation
  | [], _ => []
  | a :: rest, gseen =>
    groupViolGroups s a.course_code (courseGroupsOf data a.course_code) gseen ++
      groupChecksList data s rest
        (gseenNextGroups a.course_code (courseGroupsOf data a.course_code) gseen)

/-- The group-conflict loop (`group_seen` reset per slot). -/
def groupPhaseViol (data : MasterData) (tt : Timetable) : List Violation :=
  tt.flatMap (fun sp => groupChecksList data sp.1 sp.2 [])

/-- The `group_course_assignments` dict of per-group assigned-course sets,
accumulated over the whole timetable. -/
def gcaDict (data : MasterData) (tt : Timetable) : List (String × List String) :=
  tt.foldl (fun gca sp =>
    sp.2.foldl (fun gca a =>
      gcaAddGroups a.course_code (courseGroupsOf data a.course_code) gca) gca) []

/-- The `scheduled` defaultdict of per-course placement counts. -/
def scheduledCounts (tt : Timetable) : List (String × Int) :=
  tt.foldl (fun m sp =>
    sp.2.foldl (fun m a =>
      pyDictInsert m a.course_code ((pyGet? m a.course_code).getD 0 + 1)) m) []

/-- The sessions-count loop over `courses.items()`; courses whose required
sessions are `None` are skipped. -/
def sessionsPhase (data : MasterData) (tt : Timetable) : List Violation :=
  let scheduled := scheduledCounts tt
  (courseMap data).filterMap (fun p =>
    match requiredSessions p.2 with
    | some req =>
      if (pyGet? scheduled p.1).getD 0 ≠ req then
        some (.sessionMismatch p.1 req ((pyGet? scheduled p.1).getD 0))
      else none
    | none => none)

def totalsBump (m : List (String × Int)) (k : String) (v : Int) :
    List (String × Int) :=
  pyDictInsert m k ((pyGet? m k).getD 0 + v)

def totalsGet (m : List (String × Int)) (k : String) : Int :=
  (pyGet? m k).getD 0

/-- `track_overrides` for one group: dict-shaped `course_choices` map each
listed course to the lowercased track label (later entries overwrite). -/
def trackOverrides (choices : CourseChoices) : List (String × String) :=
  match choices with
  | .asDict tracks =>
    tracks.foldl (fun m p =>
      p.2.foldl (fun m course => pyDictInsert m course p.1.toLower) m) []
  | .asList _ => []

/-- The `allowed` set of declared choices (membership and emptiness are the
only observations; determinised to first-occurrence order). -/
def allowedChoices (choices : CourseChoices) : List String :=
  match choices with
  | .asDict tracks => dedupFirst (tracks.flatMap (fun p => p.2))
  | .asList l => dedupFirst l

/-- Track attribution for one assigned course:
`track_overrides.get(course)` if truthy, else
`(course_tracks.get(course) or 'elective').lower()`. -/
def trackFor (data : MasterData) (overrides : List (String × String))
    (course : String) : String :=
  match pyGet? overrides course with
  | some t => if t ≠ "" then t else courseTrackOf data course
  | none => courseTrackOf data course

/-- The per-group credit totals keyed by track (plus `'total'`). -/
def creditTotals (data : MasterData) (overrides : List (String × String))
    (assigned : List String) : List (String × Int) :=
  assigned.foldl (fun m course =>
    let credit := courseCreditOf data course
    totalsBump (totalsBump m "total" credit) (trackFor data overrides course) credit) []

/-- The credit / track compliance checks for one group. -/
def creditChecksGroup (data : MasterData) (gca : List (String × List String))
    (gid : String) (group : StudentGroup) : List Violation :=
  match group.credit_requirements with
  | none => []
  | some reqs =>
    let assigned := (pyGet? gca gid).getD []
    let overrides := trackOverrides group.course_choices
    let allowed := allowedChoices group.course_choices
    let totals := creditTotals data overrides assigned
    let v1 : List Violation :=
      if pyTruthyInt reqs.min ∧ totalsGet totals "total" < reqs.min.getD 0 then
        [.groupTotalBelow gid (totalsGet totals "total") (reqs.min.getD 0)] else []
    let v2 : List Violation :=
      if pyTruthyInt reqs.max ∧ totalsGet totals "total" > reqs.max.getD 0 then
        [.groupTotalAbove gid (totalsGet totals "total") (reqs.max.getD 0)] else []
    let v3 : List Violation :=
      if pyTruthyInt reqs.major_min ∧ totalsGet totals "major" < reqs.major_min.getD 0 then
        [.groupMajorBelow gid (totalsGet totals "major") (reqs.major_min.getD 0)] else []
    let v4 : List Violation :=
      if pyTruthyInt reqs.minor_min ∧ totalsGet totals "minor" < reqs.minor_min.getD 0 then
        [.groupMinorBelow gid (totalsGet totals "minor") (reqs.minor_min.getD 0)] else []
    let v5 : List Violation :=
      if pyTruthyInt reqs.skill_min ∧ totalsGet totals "skill" < reqs.skill_min.getD 0 then
        [.groupSkillBelow gid (totalsGet totals "skill") (reqs.skill_min.getD 0)] else []
    let v6 : List Violation :=
      if allowed ≠ [] then
        assigned.filterMap (fun course =>
          if course ∉ allowed then some (.groupOutsideChoices gid course) else none)
      else []
    v1 ++ v2 ++ v3 ++ v4 ++ v5 ++ v6

/-- The credit-compliance loop over `groups.items()`. -/
def creditPhase (data : MasterData) (gca : List (String × List String)) :
    List Violation :=
  (groupMap data).flatMap (fun p => creditChecksGroup data gca p.1 p.2)

/-- CPython `a or b` where the operands are optional slot sets (an empty
set is falsy). -/
def pyOrList (a b : Option (List String)) : Option (List String) :=
  match a with
  | some l => if l ≠ [] then some l else b
  | none => b

/-- The teaching-practice window checks for one assignment. -/
def practiceChecksAssign (data : MasterData) (s : String) (a : Placement) :
    List Violation :=
  let code := a.course_code
  let course_info := (pyGet? (courseMap data) code).getD defaultCourse
  if ¬ course_info.teaching_practice_required then []
  else
    course_info.student_groups.filterMap (fun gid =>
      let byProgram : Option (List String) :=
        match course_info.program with
        | some p => pyGet? data.teaching_practice_windows p
        | none => none
      match pyOrList (pyGet? data.teaching_practice_windows gid) byProgram with
      | none => none
      | some ws =>
        if s ∉ ws then some (.teachingPracticeOutside code gid s) else none)

/-- The teaching-practice phase (skipped when the windows mapping is falsy). -/
def practicePhase (data : MasterData) (tt : Timetable) : List Violation :=
  if data.teaching_practice_windows = [] then []
  else tt.flatMap (fun sp => sp.2.flatMap (fun a => practiceChecksAssign data sp.1 a))

/-- `validate_timetable`: all phases in program order. -/
def validateTimetable (tt : Timetable) (data : MasterData) : List Violation :=
  slotExistenceChecks tt data.time_slots ++
    roomPhase data tt ++
    facPhaseViol data tt ++
    loadPhase data (facLoadDict data tt) ++
    groupPhaseViol data tt ++
    sessionsPhase data tt ++
    creditPhase data (gcaDict data tt) ++
    practicePhase data tt

/-! ## Manager -/

structure GenResult where
  assignments : Timetable
  student_timetables : List (String × List (String × String))
  faculty_timetables : List (String × List (String × String))
  violations : List Violation
  deriving DecidableEq

/-- `DualTimetableManager.generate`: scheduler, then faculty optimizer, then
validator. A scheduler error is wrapped and returned; an uncaught exception
inside the optimizer propagates (`Except.error`). -/
def generate (data : MasterData) (status : CpStatus) (val : VarKey → Bool) :
    Except String (Option GenResult × Option String) :=
  let so := solveOutcome data status val
  match so.2 with
  | some err => .ok (none, some ("StudentScheduler error: " ++ err))
  | none =>
    let baseline := so.1.getD { assignments := [], student_timetables := [] }
    match assignFaculty data baseline.assignments with
    | .error e => .error e
    | .ok (assigned, ftt) =>
      .ok (some
        { assignments := assigned,
          student_timetables := baseline.student_timetables,
          faculty_timetables := ftt,
          violations := validateTimetable assigned data }, none)

/-! ## The scheduler's hard constraints, as a predicate on valuations -/

/-- `group_courses` of `add_hard_constraints`. -/
def groupCourses (data : MasterData) (g : StudentGroup) : List String :=
  (data.courses.filter (fun c => g.group_id ∈ c.student_groups)).map
    (fun c => c.course_code)

/-- Number of decision variables set to 1 among those satisfying `p`. -/
def countTrue (data : MasterData) (val : VarKey → Bool) (p : VarKey → Bool) :
    Nat :=
  (trueVars data val).countP p

/-- CPython `slot.split('_')[0]`. -/
def slotDay (s : String) : String := (s.splitOn "_").headD ""

/-- CPython `int(slot.split('_')[1])` (no value when the slot id does not
have that shape; the source would raise there). -/
def slotHour? (s : String) : Option Int :=
  ((s.splitOn "_")[1]?).bind String.toInt?

/-- The conjunction of the hard constraints `add_hard_constraints` posts:
session counts, room availability and occupancy, group non-overlap, and
same-course adjacent-slot exclusion. A solver valuation returned with an
`OPTIMAL`/`FEASIBLE` status satisfies exactly this predicate. -/
def SatisfiesHard (data : MasterData) (val : VarKey → Bool) : Prop :=
  (∀ c ∈ data.courses,
      (countTrue data val (fun k => k.1 == c.course_code) : Int) =
        sessionsRequired c) ∧
  (∀ r ∈ data.rooms, ∀ s ∈ data.time_slots,
      (s ∈ r.available_slots →
        countTrue data val (fun k => k.2.1 == s && k.2.2 == r.room_id) ≤ 1) ∧
      (s ∉ r.available_slots →
        ∀ k ∈ varKeys data, k.2.1 = s → k.2.2 = r.room_id → val k = false)) ∧
  (∀ g ∈ data.student_groups, ∀ s ∈ data.time_slots,
      countTrue data val
        (fun k => decide (k.1 ∈ groupCourses data g) && k.2.1 == s) ≤ 1) ∧
  (∀ k1 ∈ varKeys data, ∀ k2 ∈ varKeys data, k1.1 = k2.1 →
      slotDay k1.2.1 = slotDay k2.2.1 →
      (slotHour? k1.2.1).isSome →
      slotHour? k2.2.1 = (slotHour? k1.2.1).map (fun t => t + 1) →
      countTrue data val (fun k =>
        k.1 == k1.1 && slotDay k.2.1 == slotDay k1.2.1 &&
          (slotHour? k.2.1 == slotHour? k1.2.1 ||
            slotHour? k.2.1 == slotHour? k2.2.1)) ≤ 1)

/-! ## Concrete inputs used by counterexamples and witnesses -/

/-- A minimal master data set: one course, one room, one faculty, one slot,
where the course's `possible_faculty` names an id absent from the master
faculty list. -/
def dataGhost : MasterData :=
  { time_slots := ["Mon_09"],
    courses := [{ course_code := "C1", sessions_per_week := some 1,
                  possible_faculty := ["GHOST"] }],
    rooms := [{ room_id := "R1", available_slots := ["Mon_09"] }],
    faculty := [{ faculty_id := "F1", available_slots := ["Mon_09"] }],
    student_groups := [] }

def baselineGhost : Timetable :=
  [("Mon_09", [{ course_code := "C1", room_id := "R1" }])]

/-- Master data for the lab-room scenario: a practicum course and two rooms
of which only one is a lab. -/
def dataLab : MasterData :=
  { time_slots := ["Mon_09", "Tue_09"],
    courses := [{ course_code := "C2", sessions_per_week := some 1,
                  components := some [("practicum", 2)] }],
    rooms := [{ room_id := "R1", available_slots := ["Mon_09", "Tue_09"] },
              { room_id := "R2", type := some "lab",
                available_slots := ["Mon_09", "Tue_09"] }],
    faculty := [{ faculty_id := "F1", expertise := ["C2"],
                  available_slots := ["Mon_09", "Tue_09"] }],
    student_groups := [] }

/-- The candidates surviving the three filters of the candidate scan:
available in the slot, not already teaching in it, strictly under the hour
cap. -/
def survivors (facDict : List (String × Faculty)) (load : List (String × Int))
    (ftt : List (String × List (String × String))) (s : String)
    (cands : List String) : List String :=
  cands.filter (fun fid =>
    match pyGet? facDict fid with
    | some fobj =>
      decide (s ∈ fobj.available_slots) && !(hasSlot ftt fid s) &&
        decide (loadOf load fid < maxHoursOf fobj)
    | none => false)

/-- The selection rule the spec states for the candidate scan: the first
list element whose current load is minimal (lowest load, ties broken by
list order). -/
def pickSpec (load : List (String × Int)) (l : List String) : Option String :=
  l.find? (fun g => l.all (fun g2 => loadOf load g ≤ loadOf load g2))

/-- Master data for the faculty-choice scenario: two experts with distinct
current loads. -/
def dataPick : MasterData :=
  { time_slots := ["Mon_09"],
    courses := [{ course_code := "C1", sessions_per_week := some 1 }],
    rooms := [{ room_id := "R1", available_slots := ["Mon_09"] }],
    faculty := [{ faculty_id := "F1", expertise := ["C1"],
                  available_slots := ["Mon_09"] },
                { faculty_id := "F2", expertise := ["C1"],
                  available_slots := ["Mon_09"] }],
    student_groups := [] }

/-- Constructor index of a violation (used to reason about which loop of the
validator can emit which violation). -/
def vKind : Violation → Nat
  | .slotNotInMaster _ => 0
  | .roomNotFound _ _ => 1
  | .roomNotAvailable _ _ _ => 2
  | .roomDoubleBooked _ _ _ _ => 3
  | .roomCapacity _ _ _ _ => 4
  | .noFacultyAssigned _ _ => 5
  | .facultyNotInMaster _ _ => 6
  | .facultyNotAvailable _ _ _ => 7
  | .facultyDoubleBooked _ _ _ _ => 8
  | .facultyOverload _ _ _ => 9
  | .groupMultipleClasses _ _ _ _ => 10
  | .sessionMismatch _ _ _ => 11
  | .groupTotalBelow _ _ _ => 12
  | .groupTotalAbove _ _ _ => 13
  | .groupMajorBelow _ _ _ => 14
  | .groupMinorBelow _ _ _ => 15
  | .groupSkillBelow _ _ _ => 16
  | .groupOutsideChoices _ _ => 17
  | .teachingPracticeOutside _ _ _ => 18

/-- Master data whose room list is empty, so any referenced room is not in
the master list. -/
def dataC9 : MasterData :=
  { time_slots := ["Mon_09"],
    courses := [{ course_code := "C1", sessions_per_week := some 1 }],
    rooms := [],
    faculty := [{ faculty_id := "F1", available_slots := ["Mon_09"] }],
    student_groups := [] }

/-- A timetable that double-books the unknown room `RX` at `Mon_09`. -/
def ttC9 : Timetable :=
  [("Mon_09", [{ course_code := "C1", room_id := "RX" },
               { course_code := "C2", room_id := "RX" }])]

/-- Master data where room `R1` and faculty `F1` are master-listed but never
available, the room seats 1 and the course needs 2. -/
def dataW9 : MasterData :=
  { time_slots := ["Mon_09"],
    courses := [{ course_code := "C1", sessions_per_week := some 1,
                  student_groups := ["G1"] }],
    rooms := [{ room_id := "R1", capacity := some 1, available_slots := [] }],
    faculty := [{ faculty_id := "F1", available_slots := [] }],
    student_groups := [{ group_id := "G1", students := ["s1", "s2"] }] }

/-- A timetable that books `R1` and `F1` twice in the same slot. -/
def ttW9 : Timetable :=
  [("Mon_09", [{ course_code := "C1", room_id := "R1",
                 faculty_id := some "F1" },
               { course_code := "C2", room_id := "R1",
                 faculty_id := some "F1" }])]

/-- Master data whose only faculty has the empty string as id (falsy in the
optimizer's `if chosen:` book-keeping guard). -/
def dataEmptyId : MasterData :=
  { time_slots := ["Mon_09"],
    courses := [{ course_code := "C1", sessions_per_week := some 2,
                  possible_faculty := [""] }],
    rooms := [{ room_id := "R1", available_slots := ["Mon_09"] },
              { room_id := "R2", available_slots := ["Mon_09"] }],
    faculty := [{ faculty_id := "", available_slots := ["Mon_09"] }],
    student_groups := [] }

def baselineEmptyId : Timetable :=
  [("Mon_09", [{ course_code := "C1", room_id := "R1" },
               { course_code := "C1", room_id := "R2" }])]

def baselineLab : Timetable :=
  [("Mon_09", [{ course_code := "C2", room_id := "R2" }])]

/-- Master data where the only room seats 1 but the course's group has two
students: the CP model has no capacity constraint, so the unique feasible
valuation passes the solver yet fails the validator's capacity check. -/
def dataCap : MasterData :=
  { time_slots := ["Mon_09"],
    courses := [{ course_code := "C1", sessions_per_week := some 1,
                  student_groups := ["G1"] }],
    rooms := [{ room_id := "R1", capacity := some 1,
                available_slots := ["Mon_09"] }],
    faculty := [{ faculty_id := "F1", expertise := ["C1"],
                  available_slots := ["Mon_09"] }],
    student_groups := [{ group_id := "G1", students := ["s1", "s2"] }] }

/-- The valuation that sets exactly the variable (C1, Mon_09, R1). -/
def valCap : VarKey → Bool := fun k => k == ("C1", "Mon_09", "R1")

-- ### Theorems ###

/-! ### Shared helper lemmas -/

theorem mem_foldl_dedup {α : Type} [DecidableEq α] (l acc : List α) (x : α) :
    x ∈ l.foldl (fun acc a => if a ∈ acc then acc else acc ++ [a]) acc ↔
      x ∈ acc ∨ x ∈ l := by
  induction l generalizing acc with
  | nil => simp
  | cons a l ih =>
    simp only [List.foldl_cons]
    by_cases h : a ∈ acc
    · rw [if_pos h, ih]
      constructor
      · rintro (hx | hx)
        · exact Or.inl hx
        · exact Or.inr (List.mem_cons_of_mem _ hx)
      · rintro (hx | hx)
        · exact Or.inl hx
        · rcases List.mem_cons.mp hx with rfl | hx
          · exact Or.inl h
          · exact Or.inr hx
    · rw [if_neg h, ih]
      simp only [List.mem_append, List.mem_singleton, List.mem_cons]
      tauto

theorem mem_dedupFirst {α : Type} [DecidableEq α] (l : List α) (x : α) :
    x ∈ dedupFirst l ↔ x ∈ l := by
  unfold dedupFirst
  rw [mem_foldl_dedup]
  simp

theorem nodup_foldl_dedup {α : Type} [DecidableEq α] (l : List α) :
    ∀ acc : List α, acc.Nodup →
      (l.foldl (fun acc a => if a ∈ acc then acc else acc ++ [a]) acc).Nodup := by
  induction l with
  | nil => intro acc h; simpa using h
  | cons a l ih =>
    intro acc h
    simp only [List.foldl_cons]
    by_cases ha : a ∈ acc
    · rw [if_pos ha]; exact ih acc h
    · rw [if_neg ha]
      refine ih _ ?_
      rw [List.nodup_append]
      exact ⟨h, List.nodup_singleton a,
        fun b hb hb2 => ha (by rwa [List.mem_singleton.mp hb2] at hb)⟩

theorem nodup_dedupFirst {α : Type} [DecidableEq α] (l : List α) :
    (dedupFirst l).Nodup :=
  nodup_foldl_dedup l [] List.nodup_nil

theorem mem_buildVars (data : MasterData) (k : VarKey) :
    k ∈ buildVars data ↔
      ∃ c ∈ data.courses, ∃ s ∈ data.time_slots, ∃ r ∈ data.rooms,
        (requiresLab c = true → roomType r = "lab") ∧
        k = (c.course_code, s, r.room_id) := by
  simp only [buildVars, List.mem_flatMap, List.mem_map, List.mem_filter]
  constructor
  · rintro ⟨c, hc, s, hs, r, ⟨hr, hcond⟩, rfl⟩
    refine ⟨c, hc, s, hs, r, hr, ?_, rfl⟩
    intro hlab
    by_contra hne
    simp [hlab, hne] at hcond
  · rintro ⟨c, hc, s, hs, r, hr, hcond, rfl⟩
    refine ⟨c, hc, s, hs, r, ⟨hr, ?_⟩, rfl⟩
    by_cases hlab : requiresLab c
    · simp [hlab, hcond hlab]
    · simp [hlab]

theorem mem_varKeys (data : MasterData) (k : VarKey) :
    k ∈ varKeys data ↔ k ∈ buildVars data :=
  mem_dedupFirst _ _

theorem trueVars_subset_varKeys (data : MasterData) (val : VarKey → Bool)
    {k : VarKey} (h : k ∈ trueVars data val) : k ∈ varKeys data :=
  (List.mem_filter.mp h).1

/-- Unfolding membership in a slot's emitted (sorted) placement list back to
a true decision variable of that slot. -/
theorem mem_orderedAssignments (data : MasterData) (val : VarKey → Bool)
    {sp : String × List Placement} {p : Placement}
    (hsp : sp ∈ orderedAssignments data val) (hp : p ∈ sp.2) :
    ∃ k ∈ trueVars data val, k.2.1 = sp.1 ∧ p = mkPlacement data k := by
  simp only [orderedAssignments] at hsp
  rcases List.mem_map.mp hsp with ⟨s, hs, rfl⟩
  have hp' := (List.mem_insertionSort placeLE).mp hp
  rcases List.mem_map.mp hp' with ⟨k, hk, rfl⟩
  have hk1 := List.mem_filter.mp hk
  exact ⟨k, hk1.1, by simpa using hk1.2, rfl⟩

/-- C4: a lab-requiring course never receives a decision variable in a
non-lab room, and hence every placement the scheduler emits for it names a
lab room. -/
theorem lab_courses_only_in_lab_rooms (data : MasterData) (c : Course)
    (hc : c ∈ data.courses) (hlab : requiresLab c = true)
    (hcodes : (data.courses.map (fun x => x.course_code)).Nodup)
    (hrooms : (data.rooms.map (fun x => x.room_id)).Nodup) :
    (∀ k ∈ varKeys data, k.1 = c.course_code →
       ∀ r ∈ data.rooms, r.room_id = k.2.2 → roomType r = "lab") ∧
    (∀ val : VarKey → Bool, ∀ sp ∈ orderedAssignments data val, ∀ p ∈ sp.2,
       p.course_code = c.course_code →
       ∀ r ∈ data.rooms, r.room_id = p.room_id → roomType r = "lab") := by
  have main : ∀ k ∈ varKeys data, k.1 = c.course_code →
      ∀ r ∈ data.rooms, r.room_id = k.2.2 → roomType r = "lab" := by
    intro k hk hcode r hr hrid
    rcases (mem_buildVars data k).mp ((mem_varKeys data k).mp hk) with
      ⟨c', hc', s, _, r', hr', hcond, rfl⟩
    have hceq : c' = c :=
      List.inj_on_of_nodup_map hcodes hc' hc (by simpa using hcode)
    subst hceq
    have hreq : r = r' :=
      List.inj_on_of_nodup_map hrooms hr hr' (by simpa using hrid)
    subst hreq
    exact hcond hlab
  refine ⟨main, ?_⟩
  intro val sp hsp p hp hcode r hr hrid
  rcases mem_orderedAssignments data val hsp hp with ⟨k, hk, _, rfl⟩
  have hk' := trueVars_subset_varKeys data val hk
  exact main k hk' (by simpa [mkPlacement] using hcode) r hr
    (by simpa [mkPlacement] using hrid)

/-- C4 (witness): the lab theorem applied to a concrete practicum course
with one theory room and one lab room. -/
theorem lab_courses_only_in_lab_rooms_witness :
    ((dataLab.courses.headD defaultCourse) ∈ dataLab.courses ∧
      requiresLab (dataLab.courses.headD defaultCourse) = true) ∧
    (∀ k ∈ varKeys dataLab,
       k.1 = (dataLab.courses.headD defaultCourse).course_code →
       ∀ r ∈ dataLab.rooms, r.room_id = k.2.2 → roomType r = "lab") :=
  ⟨⟨by decide, by decide⟩,
    (lab_courses_only_in_lab_rooms dataLab (dataLab.courses.headD defaultCourse)
      (by decide) (by decide) (by decide) (by decide)).1⟩


/-- C8 (code evaluation at the failing input): when a scheduled course's
`possible_faculty` lists an id that is not in the master faculty list, the
candidate scan's raw `self.faculty[fid]` indexing raises a `KeyError`
instead of returning normally with a null assignment. -/
theorem assign_faculty_keyerror_on_unknown_possible_faculty :
    assignFaculty dataGhost baselineGhost = .error "GHOST" := by
  rfl

/-- C5: when the solver status is neither OPTIMAL nor FEASIBLE, `solve`
returns a null result with exactly the error string
`"No feasible student timetable found."`, and `generate` wraps it into
`"StudentScheduler error: No feasible student timetable found."` with a
null result. -/
theorem infeasible_status_propagates (data : MasterData) (status : CpStatus)
    (val : VarKey → Bool) (h1 : status ≠ .optimal) (h2 : status ≠ .feasible) :
    solveOutcome data status val =
      (none, some "No feasible student timetable found.") ∧
    generate data status val =
      .ok (none, some "StudentScheduler error: No feasible student timetable found.") := by
  have hs : ¬ (status = .optimal ∨ status = .feasible) := by
    rintro (h | h) <;> [exact h1 h; exact h2 h]
  refine ⟨?_, ?_⟩
  · simp [solveOutcome, hs]
  · simp only [generate, solveOutcome, if_neg hs]
    rfl

/-- C5 (witness): the propagation theorem applied to the `INFEASIBLE`
status on a concrete data set. -/
theorem infeasible_status_propagates_witness :
    solveOutcome dataGhost .infeasible (fun _ => false) =
      (none, some "No feasible student timetable found.") ∧
    generate dataGhost .infeasible (fun _ => false) =
      .ok (none, some "StudentScheduler error: No feasible student timetable found.") :=
  infeasible_status_propagates dataGhost .infeasible (fun _ => false)
    (by intro h; cases h) (by intro h; cases h)


/-- C1 (counterexample): on a course record carrying none of
`sessions_per_week` / `components` / `credit_hours` / `hours_per_week`, the
scheduler's rule yields `1` while the validator's rule yields no value at
all, so the two computations do not return the same value. -/
theorem sessions_rules_differ_on_bare_course :
    sessionsRequired { course_code := "C0" } = 1 ∧
      requiredSessions { course_code := "C0" } ≠
        some (sessionsRequired { course_code := "C0" }) := by
  constructor
  · rfl
  · intro h
    simp [requiredSessions, pyOrInt] at h

/-- C1 (amended): the scheduler's and validator's required-sessions
computations agree whenever the validator's rule produces a value (cases
(a)-(c) of the rule); in the remaining case the scheduler returns `1` while
the validator returns no value (and therefore skips its session-count
check). -/
theorem sessions_rules_agree_when_validator_defined (c : Course) :
    requiredSessions c = some (sessionsRequired c) ∨
      (requiredSessions c = none ∧ sessionsRequired c = 1) := by
  unfold requiredSessions sessionsRequired
  cases hs : c.sessions_per_week with
  | some n => left; rfl
  | none =>
    by_cases hc : c.components.getD [] ≠ []
    · left; simp [hc]
    · simp only [hc, if_neg, ite_not]
      cases hp : pyOrInt c.credit_hours c.hours_per_week with
      | some ch =>
        by_cases hch : ch = 0
        · right; simp [hch, hc]
        · left; simp [hch, hc]
      | none => right; simp [hc]

/-! ### Dict and slot-index lemmas -/

theorem find?_map_update {β : Type} (m : List (String × β)) (k : String)
    (v : β) (s : String) (h : s ≠ k) :
    (m.map (fun p => if p.1 == k then (p.1, v) else p)).find?
        (fun p => p.1 == s) =
      m.find? (fun p => p.1 == s) := by
  induction m with
  | nil => rfl
  | cons p m ih =>
    simp only [List.map_cons]
    by_cases hp : p.1 = s
    · have hk : (p.1 == k) = false := by simp [hp, h]
      have e1 : (if (p.1 == k) = true then (p.1, v) else p) = p := by simp [hk]
      rw [e1, List.find?_cons_of_pos _ (by simp [hp]),
        List.find?_cons_of_pos _ (by simp [hp])]
    · rw [List.find?_cons_of_neg _ (by cases hcond : (p.1 == k) <;> simp [hcond, hp]),
        List.find?_cons_of_neg _ (by simp [hp])]
      exact ih

theorem pyGet?_pyDictInsert_ne {β : Type} (m : List (String × β)) (k : String)
    (v : β) (s : String) (h : s ≠ k) :
    pyGet? (pyDictInsert m k v) s = pyGet? m s := by
  unfold pyDictInsert pyGet?
  by_cases hk : m.any (fun p => p.1 == k)
  · rw [if_pos hk, find?_map_update m k v s h]
  · rw [if_neg hk, List.find?_append]
    have : ([(k, v)].find? (fun p => p.1 == s)) = none := by
      simp [List.find?_cons, Ne.symm h]
    simp [this]

theorem pyGet?_append_single {β : Type} (m : List (String × β)) (k : String)
    (v : β) (hm : ∀ p ∈ m, p.1 ≠ k) :
    pyGet? (m ++ [(k, v)]) k = some v := by
  unfold pyGet?
  rw [List.find?_append]
  have h1 : m.find? (fun p => p.1 == k) = none := by
    rw [List.find?_eq_none]
    intro p hp
    simp [hm p hp]
  simp [h1, List.find?_cons]

theorem pyDictInsert_fresh {β : Type} (m : List (String × β)) (k : String)
    (v : β) (hm : ∀ p ∈ m, p.1 ≠ k) :
    pyDictInsert m k v = m ++ [(k, v)] := by
  unfold pyDictInsert
  have : m.any (fun p => p.1 == k) = false := by
    simp only [List.any_eq_false]
    intro p hp
    simp [hm p hp]
  rw [this]
  simp

theorem slotOrderAux_lookup_notin :
    ∀ (slots : List String) (i : Nat) (m : List (String × Nat)) (s : String),
      s ∉ slots → pyGet? (slotOrderAux slots i m) s = pyGet? m s := by
  intro slots
  induction slots with
  | nil => intro i m s _; rfl
  | cons a rest ih =>
    intro i m s h
    simp only [slotOrderAux]
    rw [ih _ _ _ (fun hr => h (List.mem_cons_of_mem _ hr))]
    exact pyGet?_pyDictInsert_ne m a i s
      (fun he => h (he ▸ List.mem_cons_self a rest))

theorem slotOrderAux_lookup_mem :
    ∀ (slots : List String) (i : Nat) (m : List (String × Nat)) (s : String),
      slots.Nodup → (∀ p ∈ m, p.1 ∉ slots) → s ∈ slots →
      pyGet? (slotOrderAux slots i m) s = some (i + List.indexOf s slots) := by
  intro slots
  induction slots with
  | nil => intro _ _ s _ _ hs; cases hs
  | cons a rest ih =>
    intro i m s hnd hm hs
    simp only [slotOrderAux]
    have hins : pyDictInsert m a i = m ++ [(a, i)] :=
      pyDictInsert_fresh m a i
        (fun p hp he => hm p hp (he ▸ List.mem_cons_self a rest))
    rw [hins]
    by_cases hsa : s = a
    · subst hsa
      have hnotr : s ∉ rest := (List.nodup_cons.mp hnd).1
      rw [slotOrderAux_lookup_notin rest _ _ s hnotr]
      rw [pyGet?_append_single m s i
        (fun p hp he => hm p hp (he ▸ List.mem_cons_self s rest))]
      have : List.indexOf s (s :: rest) = 0 := by
        simp [List.indexOf_cons]
      rw [this]
      simp
    · have hsr : s ∈ rest := by
        rcases List.mem_cons.mp hs with rfl | hh
        · exact absurd rfl hsa
        · exact hh
      rw [ih (i + 1) (m ++ [(a, i)]) s (List.nodup_cons.mp hnd).2 ?_ hsr]
      · have hba : (a == s) = false := by simp [Ne.symm hsa]
        rw [List.indexOf_cons, hba]
        simp only [cond_false]
        congr 1
        omega
      · intro p hp
        rcases List.mem_append.mp hp with hh | hh
        · exact fun hr => hm p hh (List.mem_cons_of_mem _ hr)
        · have : p = (a, i) := List.mem_singleton.mp hh
          subst this
          exact (List.nodup_cons.mp hnd).1

theorem slotIdx_mem (slots : List String) (hnd : slots.Nodup) (s : String)
    (hs : s ∈ slots) : slotIdx slots s = List.indexOf s slots := by
  unfold slotIdx slotOrder
  rw [slotOrderAux_lookup_mem slots 0 [] s hnd (by simp) hs]
  simp

theorem slots_pairwise_strict (slots : List String) (hnd : slots.Nodup) :
    slots.Pairwise (fun a b => slotIdx slots a < slotIdx slots b) := by
  rw [List.pairwise_iff_getElem]
  intro i j hi hj hij
  rw [slotIdx_mem slots hnd _ (List.getElem_mem hi),
    slotIdx_mem slots hnd _ (List.getElem_mem hj),
    List.indexOf_getElem hnd i hi, List.indexOf_getElem hnd j hj]
  exact hij

theorem slotIdx_inj (slots : List String) (hnd : slots.Nodup) {a b : String}
    (ha : a ∈ slots) (hb : b ∈ slots)
    (h : slotIdx slots a = slotIdx slots b) : a = b := by
  rw [slotIdx_mem slots hnd a ha, slotIdx_mem slots hnd b hb] at h
  exact (List.indexOf_inj ha hb).mp h

/-- Sorting distinct keys by their master-slot index yields exactly the
master slot list filtered to those keys. -/
theorem insertionSort_slotIdx_eq_filter (slots keys : List String)
    (hnd : slots.Nodup) (hknd : keys.Nodup) (hsub : ∀ s ∈ keys, s ∈ slots) :
    keys.insertionSort (fun a b => slotIdx slots a ≤ slotIdx slots b) =
      slots.filter (fun s => decide (s ∈ keys)) := by
  set r := fun a b : String => slotIdx slots a ≤ slotIdx slots b with hrdef
  haveI : IsAntisymm String (fun a b => slotIdx slots a < slotIdx slots b) :=
    ⟨fun a b h1 h2 => absurd (h1.trans h2) (lt_irrefl _)⟩
  have hperm1 : (keys.insertionSort r).Perm keys := List.perm_insertionSort r keys
  have hperm2 : keys.Perm (slots.filter fun s => decide (s ∈ keys)) := by
    rw [List.perm_ext_iff_of_nodup hknd (hnd.filter _)]
    intro a
    simp only [List.mem_filter, decide_eq_true_eq]
    exact ⟨fun h => ⟨hsub a h, h⟩, fun h => h.2⟩
  have hsorted1 :
      (keys.insertionSort r).Pairwise
        (fun a b => slotIdx slots a < slotIdx slots b) := by
    haveI : IsTotal String r := ⟨fun a b => Nat.le_total _ _⟩
    haveI : IsTrans String r := ⟨fun _ _ _ h1 h2 => Nat.le_trans h1 h2⟩
    have h1 : (keys.insertionSort r).Pairwise r := List.sorted_insertionSort r keys
    have h2 : (keys.insertionSort r).Nodup := hperm1.nodup_iff.mpr hknd
    refine (h1.and h2).imp_of_mem ?_
    intro a b ha hb hab
    have has : a ∈ slots := hsub a (hperm1.subset ha)
    have hbs : b ∈ slots := hsub b (hperm1.subset hb)
    rcases lt_or_eq_of_le hab.1 with h | h
    · exact h
    · exact absurd (slotIdx_inj slots hnd has hbs h) hab.2
  have hsorted2 :
      (slots.filter fun s => decide (s ∈ keys)).Pairwise
        (fun a b => slotIdx slots a < slotIdx slots b) :=
    (slots_pairwise_strict slots hnd).sublist (List.filter_sublist slots)
  exact List.eq_of_perm_of_sorted (hperm1.trans hperm2) hsorted1 hsorted2

theorem mem_slotKeysOf (tv : List VarKey) (s : String) :
    s ∈ slotKeysOf tv ↔ ∃ k ∈ tv, k.2.1 = s := by
  unfold slotKeysOf
  rw [mem_dedupFirst]
  simp [List.mem_map]

/-! ### Optimizer shape lemmas -/

theorem assignPlacements_ok_shape (f : List (String × Faculty))
    (cd : List (String × Course)) (s : String) :
    ∀ (ps : List Placement) (st : OptState) (acc out : List Placement)
      (st' : OptState),
      assignPlacements f cd s ps st acc = .ok (out, st') →
      ∃ tail, out = acc ++ tail ∧
        List.Forall₂ (fun a b => ∃ ch, b = { a with faculty_id := ch }) ps tail := by
  intro ps
  induction ps with
  | nil =>
    intro st acc out st' h
    simp only [assignPlacements] at h
    injection h with h
    injection h with h1 h2
    exact ⟨[], by simp [h1], List.Forall₂.nil⟩
  | cons a rest ih =>
    intro st acc out st' h
    simp only [assignPlacements] at h
    split at h
    · exact absurd h (by simp)
    · rename_i chosen heq
      rcases ih _ _ _ _ h with ⟨tail, ho, hfa⟩
      exact ⟨{ a with faculty_id := chosen } :: tail, by simp [ho],
        List.Forall₂.cons ⟨chosen, rfl⟩ hfa⟩

theorem assignSlots_ok_shape (f : List (String × Faculty))
    (cd : List (String × Course)) :
    ∀ (bl : Timetable) (st : OptState) (acc out : Timetable) (st' : OptState),
      assignSlots f cd bl st acc = .ok (out, st') →
      ∃ tail, out = acc ++ tail ∧
        List.Forall₂ (fun sp sq => sq.1 = sp.1 ∧
          List.Forall₂ (fun a b => ∃ ch, b = { a with faculty_id := ch })
            sp.2 sq.2) bl tail := by
  intro bl
  induction bl with
  | nil =>
    intro st acc out st' h
    simp only [assignSlots] at h
    injection h with h
    injection h with h1 h2
    exact ⟨[], by simp [h1], List.Forall₂.nil⟩
  | cons sp rest ih =>
    intro st acc out st' h
    simp only [assignSlots] at h
    split at h
    · exact absurd h (by simp)
    · rename_i ps st2 heq
      rcases ih _ _ _ _ h with ⟨tail, ho, hfa⟩
      rcases assignPlacements_ok_shape f cd sp.1 sp.2 st [] ps st2 heq with
        ⟨tail2, hps, hfa2⟩
      exact ⟨(sp.1, ps) :: tail, by simp [ho], List.Forall₂.cons
        ⟨rfl, by simpa [hps] using hfa2⟩ hfa⟩

theorem assignFaculty_ok_shape (data : MasterData) (bl out : Timetable)
    (ftt : List (String × List (String × String)))
    (h : assignFaculty data bl = .ok (out, ftt)) :
    List.Forall₂ (fun sp sq => sq.1 = sp.1 ∧
      List.Forall₂ (fun a b => ∃ ch, b = { a with faculty_id := ch })
        sp.2 sq.2) bl out := by
  simp only [assignFaculty] at h
  split at h
  · exact absurd h (by simp)
  · rename_i o st heq
    injection h with h
    injection h with h1 h2
    rcases assignSlots_ok_shape _ _ bl _ [] o st heq with ⟨tail, ho, hfa⟩
    subst h1
    simpa [ho] using hfa

theorem forall₂_fst_eq
    {P : (String × List Placement) → (String × List Placement) → Prop}
    (hP : ∀ sp sq, P sp sq → sq.1 = sp.1) :
    ∀ {l l' : Timetable}, List.Forall₂ P l l' →
      l'.map Prod.fst = l.map Prod.fst := by
  intro l l' h
  induction h with
  | nil => rfl
  | cons hab _ ih => simp [ih, hP _ _ hab]

theorem forall₂_codes_eq :
    ∀ {l l' : List Placement},
      List.Forall₂ (fun a b => ∃ ch, b = { a with faculty_id := ch }) l l' →
      l'.map (fun p => p.course_code) = l.map (fun p => p.course_code) := by
  intro l l' h
  induction h with
  | nil => rfl
  | cons hab _ ih =>
    rcases hab with ⟨ch, rfl⟩
    simp [ih]

theorem pairwise_of_codes_eq {l l' : List Placement}
    (h : l'.map (fun p => p.course_code) = l.map (fun p => p.course_code))
    (hp : l.Pairwise placeLE) : l'.Pairwise placeLE := by
  have h1 : (l.map fun p => p.course_code).Pairwise (· ≤ ·) := by
    rw [List.pairwise_map]
    exact hp
  rw [← h, List.pairwise_map] at h1
  exact h1

theorem forall₂_mem_exists {α β : Type} {R : α → β → Prop} :
    ∀ {l : List α} {l' : List β}, List.Forall₂ R l l' →
      ∀ b ∈ l', ∃ a ∈ l, R a b := by
  intro l l' h
  induction h with
  | nil => intro b hb; cases hb
  | cons hab htail ih =>
    intro b hb
    rcases List.mem_cons.mp hb with rfl | hb
    · exact ⟨_, List.mem_cons_self _ _, hab⟩
    · rcases ih b hb with ⟨a, ha, hr⟩
      exact ⟨a, List.mem_cons_of_mem _ ha, hr⟩

/-- C6: the scheduler emits slot keys in master `time_slots` order restricted
to occupied slots, sorts each slot's placements ascending by `course_code`,
and a successful run of the faculty optimizer preserves both orders into the
manager's result. -/
theorem assignments_ordering (data : MasterData) (val : VarKey → Bool)
    (res : Timetable) (ftt : List (String × List (String × String)))
    (hnd : data.time_slots.Nodup) :
    ((orderedAssignments data val).map Prod.fst =
       data.time_slots.filter
         (fun s => (trueVars data val).any (fun k => k.2.1 == s))) ∧
    (∀ sp ∈ orderedAssignments data val, sp.2.Pairwise placeLE) ∧
    (assignFaculty data (orderedAssignments data val) = .ok (res, ftt) →
       res.map Prod.fst = (orderedAssignments data val).map Prod.fst ∧
       ∀ sp ∈ res, sp.2.Pairwise placeLE) := by
  have hsub : ∀ s ∈ slotKeysOf (trueVars data val), s ∈ data.time_slots := by
    intro s hs
    rcases (mem_slotKeysOf _ _).mp hs with ⟨k, hk, hks⟩
    rcases (mem_buildVars data k).mp
      ((mem_varKeys data k).mp (trueVars_subset_varKeys data val hk)) with
      ⟨c, _, s', hs', r, _, _, rfl⟩
    simpa using hks ▸ hs'
  have part2 : ∀ sp ∈ orderedAssignments data val, sp.2.Pairwise placeLE := by
    intro sp hsp
    simp only [orderedAssignments] at hsp
    rcases List.mem_map.mp hsp with ⟨s, _, rfl⟩
    exact List.sorted_insertionSort placeLE _
  refine ⟨?_, part2, ?_⟩
  · simp only [orderedAssignments, List.map_map]
    have hcomp : (Prod.fst ∘ fun s =>
        (s, (entriesAt data (trueVars data val) s).insertionSort placeLE)) =
          id := rfl
    rw [hcomp, List.map_id]
    have hkeys := insertionSort_slotIdx_eq_filter data.time_slots
      (slotKeysOf (trueVars data val)) hnd
      (by unfold slotKeysOf; exact nodup_dedupFirst _) hsub
    rw [hkeys]
    apply List.filter_congr
    intro s _
    by_cases hmem : s ∈ slotKeysOf (trueVars data val)
    · rcases (mem_slotKeysOf _ _).mp hmem with ⟨k, hk, hks⟩
      have hany : (trueVars data val).any (fun k => k.2.1 == s) = true :=
        List.any_eq_true.mpr ⟨k, hk, by simp [hks]⟩
      simp [hmem, hany]
    · have hany : (trueVars data val).any (fun k => k.2.1 == s) = false := by
        rw [List.any_eq_false]
        intro k hk
        simp only [beq_iff_eq]
        intro hks
        exact hmem ((mem_slotKeysOf _ _).mpr ⟨k, hk, hks⟩)
      simp [hmem, hany]
  · intro h
    have hsh := assignFaculty_ok_shape data _ res ftt h
    refine ⟨forall₂_fst_eq (fun _ _ hpq => hpq.1) hsh, ?_⟩
    intro sq hsq
    rcases forall₂_mem_exists hsh sq hsq with ⟨sp, hsp, _, hinner⟩
    exact pairwise_of_codes_eq (forall₂_codes_eq hinner) (part2 sp hsp)

/-- C6 (witness): the ordering theorem applied to a concrete data set and
valuation. -/
theorem assignments_ordering_witness :
    dataLab.time_slots.Nodup ∧
    (((orderedAssignments dataLab (fun _ => false)).map Prod.fst =
       dataLab.time_slots.filter
         (fun s => (trueVars dataLab (fun _ => false)).any (fun k => k.2.1 == s))) ∧
    (∀ sp ∈ orderedAssignments dataLab (fun _ => false), sp.2.Pairwise placeLE) ∧
    (assignFaculty dataLab (orderedAssignments dataLab (fun _ => false)) =
        .ok ([], [("F1", [])]) →
       ([] : Timetable).map Prod.fst =
         (orderedAssignments dataLab (fun _ => false)).map Prod.fst ∧
       ∀ sp ∈ ([] : Timetable), sp.2.Pairwise placeLE)) :=
  ⟨by decide,
    assignments_ordering dataLab (fun _ => false) [] [("F1", [])] (by decide)⟩

/-! ### Faculty-choice characterization (C7) -/

theorem find?_congr_mem {α : Type} (p q : α → Bool) :
    ∀ l : List α, (∀ a ∈ l, p a = q a) → l.find? p = l.find? q := by
  intro l
  induction l with
  | nil => intro _; rfl
  | cons a l ih =>
    intro h
    cases hpa : p a with
    | true =>
      rw [List.find?_cons_of_pos _ hpa,
        List.find?_cons_of_pos _ (by rw [← h a (List.mem_cons_self a l)]; exact hpa)]
    | false =>
      rw [List.find?_cons_of_neg _ (by simp [hpa]),
        List.find?_cons_of_neg _ (by simp [← h a (List.mem_cons_self a l), hpa]),
        ih (fun b hb => h b (List.mem_cons_of_mem _ hb))]

theorem pickSpec_cons_of_exists_lt (load : List (String × Int)) (f : String)
    (l : List String) (hx : ∃ x ∈ l, loadOf load x < loadOf load f) :
    pickSpec load (f :: l) = pickSpec load l := by
  rcases hx with ⟨x, hxl, hxlt⟩
  unfold pickSpec
  rw [List.find?_cons_of_neg _ (by
    rw [Bool.not_eq_true, List.all_eq_false]
    exact ⟨x, List.mem_cons_of_mem _ hxl, by simp; omega⟩)]
  apply find?_congr_mem
  intro g hg
  rw [List.all_cons]
  cases hall : l.all (fun g2 => decide (loadOf load g ≤ loadOf load g2)) with
  | true =>
    have hgx : loadOf load g ≤ loadOf load x := by
      have := List.all_eq_true.mp hall x hxl
      simpa using this
    have hgf : decide (loadOf load g ≤ loadOf load f) = true := by
      simp
      omega
    rw [hgf, Bool.true_and]
  | false => simp

theorem pickSpec_cons_cons_of_le (load : List (String × Int)) (f fid : String)
    (L : List String) (hle : loadOf load f ≤ loadOf load fid) :
    pickSpec load (f :: fid :: L) = pickSpec load (f :: L) := by
  unfold pickSpec
  by_cases hpf : ∀ y ∈ f :: L, loadOf load f ≤ loadOf load y
  · rw [List.find?_cons_of_pos _ (by
      simp only [List.all_eq_true]
      intro g2 hg2
      rcases List.mem_cons.mp hg2 with rfl | hg2
      · simp
      · rcases List.mem_cons.mp hg2 with rfl | hg2
        · simpa using hle
        · simpa using hpf g2 (List.mem_cons_of_mem _ hg2)),
      List.find?_cons_of_pos _ (by
        simp only [List.all_eq_true]
        intro g2 hg2
        simpa using hpf g2 hg2)]
  · push_neg at hpf
    rcases hpf with ⟨y, hy, hylt⟩
    have hyL : y ∈ L := by
      rcases List.mem_cons.mp hy with rfl | h
      · omega
      · exact h
    have hheadfail : ∀ M : List String, y ∈ M →
        ∀ g : String, loadOf load y < loadOf load g →
        (M.all (fun g2 => decide (loadOf load g ≤ loadOf load g2))) = false := by
      intro M hyM g hlt
      rw [List.all_eq_false]
      exact ⟨y, hyM, by simp; omega⟩
    rw [List.find?_cons_of_neg _ (by
      rw [Bool.not_eq_true,
        hheadfail _ (List.mem_cons_of_mem _ (List.mem_cons_of_mem _ hyL)) f (by omega)]),
      List.find?_cons_of_neg _ (by
      rw [Bool.not_eq_true,
        hheadfail _ (List.mem_cons_of_mem _ (List.mem_cons_of_mem _ hyL)) fid (by omega)]),
      List.find?_cons_of_neg _ (by
      rw [Bool.not_eq_true,
        hheadfail _ (List.mem_cons_of_mem _ hyL) f (by omega)])]
    apply find?_congr_mem
    intro g hg
    rw [List.all_cons, List.all_cons, List.all_cons]
    by_cases hgf : loadOf load g ≤ loadOf load f
    · have hgfid : decide (loadOf load g ≤ loadOf load fid) = true := by
        simp
        omega
      rw [hgfid]
      simp
    · have : decide (loadOf load g ≤ loadOf load f) = false := by simp [hgf]
      rw [this]
      simp

theorem exists_min_load (load : List (String × Int)) :
    ∀ l : List String, l ≠ [] →
      ∃ g ∈ l, ∀ g2 ∈ l, loadOf load g ≤ loadOf load g2 := by
  intro l
  induction l with
  | nil => intro h; exact absurd rfl h
  | cons a l ih =>
    intro _
    by_cases hl : l = []
    · subst hl
      refine ⟨a, List.mem_cons_self a [], ?_⟩
      intro g2 hg2
      rcases List.mem_cons.mp hg2 with rfl | h
      · exact le_refl _
      · cases h
    · rcases ih hl with ⟨g, hg, hgmin⟩
      by_cases hag : loadOf load a ≤ loadOf load g
      · refine ⟨a, List.mem_cons_self a l, ?_⟩
        intro g2 hg2
        rcases List.mem_cons.mp hg2 with rfl | h
        · exact le_refl _
        · exact le_trans hag (hgmin g2 h)
      · refine ⟨g, List.mem_cons_of_mem _ hg, ?_⟩
        intro g2 hg2
        rcases List.mem_cons.mp hg2 with rfl | h
        · omega
        · exact hgmin g2 h

theorem pickSpec_isSome_of_ne_nil (load : List (String × Int))
    (l : List String) (h : l ≠ []) : (pickSpec load l).isSome = true := by
  rcases exists_min_load load l h with ⟨g, hg, hgmin⟩
  rw [pickSpec, List.find?_isSome]
  exact ⟨g, hg, by
    simp only [List.all_eq_true]
    intro g2 hg2
    simpa using hgmin g2 hg2⟩

theorem pickLoop_ok_characterization (facDict : List (String × Faculty))
    (load : List (String × Int))
    (ftt : List (String × List (String × String))) (s : String) :
    ∀ (cands : List String) (chosen : Option String) (bestLoad : Option Int)
      (r : Option String),
      ((chosen = none ∧ bestLoad = none) ∨
        (∃ f, chosen = some f ∧ bestLoad = some (loadOf load f))) →
      pickLoop facDict load ftt s cands chosen bestLoad = .ok r →
      r = (match chosen with
           | none => pickSpec load (survivors facDict load ftt s cands)
           | some f => pickSpec load (f :: survivors facDict load ftt s cands)) := by
  intro cands
  induction cands with
  | nil =>
    intro chosen bestLoad r hinv h
    simp only [pickLoop] at h
    injection h with h
    subst h
    rcases hinv with ⟨rfl, _⟩ | ⟨f, rfl, _⟩
    · rfl
    · show some f = pickSpec load [f]
      unfold pickSpec
      rw [List.find?_cons_of_pos _ (by simp)]
  | cons fid rest ih =>
    intro chosen bestLoad r hinv h
    simp only [pickLoop] at h
    split at h
    · cases h
    · rename_i fobj hlk
      by_cases h1 : s ∈ fobj.available_slots
      case neg =>
        rw [if_pos h1] at h
        have heq := ih chosen bestLoad r hinv h
        have hs : survivors facDict load ftt s (fid :: rest) =
            survivors facDict load ftt s rest := by
          simp only [survivors, List.filter_cons, hlk]
          simp [h1]
        rw [hs]
        exact heq
      case pos =>
        rw [if_neg (by simpa using h1)] at h
        by_cases h2 : hasSlot ftt fid s = true
        · rw [if_pos h2] at h
          have heq := ih chosen bestLoad r hinv h
          have hs : survivors facDict load ftt s (fid :: rest) =
              survivors facDict load ftt s rest := by
            simp only [survivors, List.filter_cons, hlk]
            simp [h2]
          rw [hs]
          exact heq
        · rw [if_neg h2] at h
          by_cases h3 : maxHoursOf fobj ≤ loadOf load fid
          · rw [if_pos h3] at h
            have heq := ih chosen bestLoad r hinv h
            have hs : survivors facDict load ftt s (fid :: rest) =
                survivors facDict load ftt s rest := by
              simp only [survivors, List.filter_cons, hlk]
              have : decide (loadOf load fid < maxHoursOf fobj) = false := by
                simp
                omega
              simp [this]
            rw [hs]
            exact heq
          · rw [if_neg h3] at h
            have hs : survivors facDict load ftt s (fid :: rest) =
                fid :: survivors facDict load ftt s rest := by
              simp only [survivors, List.filter_cons, hlk]
              have hlt : decide (loadOf load fid < maxHoursOf fobj) = true := by
                simp
                omega
              simp [h1, h2, hlt]
            rcases hinv with ⟨rfl, rfl⟩ | ⟨f, rfl, rfl⟩
            · have heq := ih (some fid) (some (loadOf load fid)) r
                (Or.inr ⟨fid, rfl, rfl⟩) h
              rw [hs]
              exact heq
            · have h' : (if loadOf load fid < loadOf load f then
                  pickLoop facDict load ftt s rest (some fid)
                    (some (loadOf load fid))
                else
                  pickLoop facDict load ftt s rest (some f)
                    (some (loadOf load f))) = .ok r := h
              by_cases h4 : loadOf load fid < loadOf load f
              · rw [if_pos h4] at h'
                have heq := ih (some fid) (some (loadOf load fid)) r
                  (Or.inr ⟨fid, rfl, rfl⟩) h'
                rw [hs]
                show r = pickSpec load (f :: fid :: survivors facDict load ftt s rest)
                rw [pickSpec_cons_of_exists_lt load f _
                  ⟨fid, List.mem_cons_self _ _, h4⟩]
                exact heq
              · rw [if_neg h4] at h'
                have heq := ih (some f) (some (loadOf load f)) r
                  (Or.inr ⟨f, rfl, rfl⟩) h'
                rw [hs]
                show r = pickSpec load (f :: fid :: survivors facDict load ftt s rest)
                rw [pickSpec_cons_cons_of_le load f fid _ (by omega)]
                exact heq

/-- C7: when the per-placement faculty choice returns without raising, a
non-empty survivor set yields the least-loaded surviving candidate, ties
broken by candidate-list order (`possible_faculty` in declared order, then
expertise matches in master order); an empty survivor set yields the first
available, un-booked, under-cap faculty in master order. -/
theorem faculty_choice_rule (data : MasterData) (load : List (String × Int))
    (ftt : List (String × List (String × String))) (s code : String)
    (r : Option String)
    (h : chooseFaculty (facultyMap data) (courseMap data) load ftt s code =
      .ok r) :
    let cands := candidateList (facultyMap data)
      ((pyGet? (courseMap data) code).getD defaultCourse) code
    let surv := survivors (facultyMap data) load ftt s cands
    (surv ≠ [] → r = pickSpec load surv ∧ r.isSome = true) ∧
    (surv = [] → r = fallbackPick (facultyMap data) load ftt s) := by
  intro cands surv
  simp only [chooseFaculty] at h
  split at h
  · cases h
  · rename_i f hpl
    injection h with h
    subst h
    have hchar : some f = pickSpec load surv :=
      pickLoop_ok_characterization (facultyMap data) load ftt s
        cands none none (some f) (Or.inl ⟨rfl, rfl⟩) hpl
    constructor
    · intro _
      exact ⟨hchar, rfl⟩
    · intro hsurv
      rw [hsurv] at hchar
      simp [pickSpec] at hchar
  · rename_i hpl
    injection h with h
    subst h
    have hchar : (none : Option String) = pickSpec load surv :=
      pickLoop_ok_characterization (facultyMap data) load ftt s
        cands none none none (Or.inl ⟨rfl, rfl⟩) hpl
    constructor
    · intro hsurv
      have hs := pickSpec_isSome_of_ne_nil load surv hsurv
      rw [← hchar] at hs
      simp at hs
    · intro _
      rfl

/-- C7 (witness): the choice rule applied to a concrete two-expert scenario
where the second expert has the lower current load. -/
theorem faculty_choice_rule_witness :
    (chooseFaculty (facultyMap dataPick) (courseMap dataPick)
        [("F1", 5), ("F2", 3)] [("F1", []), ("F2", [])] "Mon_09" "C1" =
      .ok (some "F2")) ∧
    (let cands := candidateList (facultyMap dataPick)
        ((pyGet? (courseMap dataPick) "C1").getD defaultCourse) "C1"
     let surv := survivors (facultyMap dataPick) [("F1", 5), ("F2", 3)]
        [("F1", []), ("F2", [])] "Mon_09" cands
     (surv ≠ [] → some "F2" = pickSpec [("F1", 5), ("F2", 3)] surv ∧
        (some "F2" : Option String).isSome = true) ∧
     (surv = [] → some "F2" = fallbackPick (facultyMap dataPick)
        [("F1", 5), ("F2", 3)] [("F1", []), ("F2", [])] "Mon_09")) :=
  ⟨rfl, faculty_choice_rule dataPick [("F1", 5), ("F2", 3)]
    [("F1", []), ("F2", [])] "Mon_09" "C1" (some "F2") rfl⟩

/-! ### pyDict lookup lemmas -/

theorem pyDict_foldl_eq {β : Type} (key : β → String) :
    ∀ (l : List β) (acc : List (String × β)),
      ((acc.map Prod.fst) ++ l.map key).Nodup →
      l.foldl (fun m x => pyDictInsert m (key x) x) acc =
        acc ++ l.map (fun x => (key x, x)) := by
  intro l
  induction l with
  | nil => intro acc _; simp
  | cons x l ih =>
    intro acc h
    simp only [List.foldl_cons]
    have hfresh : ∀ p ∈ acc, p.1 ≠ key x := by
      intro p hp he
      have h1 : (acc.map Prod.fst).Disjoint (List.map key (x :: l)) :=
        (List.nodup_append.mp h).2.2
      exact h1 (he ▸ List.mem_map_of_mem Prod.fst hp) (by simp)
    rw [pyDictInsert_fresh acc (key x) x hfresh]
    rw [ih (acc ++ [(key x, x)]) ?_]
    · simp
    · have heq : acc.map Prod.fst ++ List.map key (x :: l) =
          (acc ++ [(key x, x)]).map Prod.fst ++ l.map key := by
        simp
      exact heq ▸ h

theorem pyDict_eq_of_nodup {β : Type} (key : β → String) (l : List β)
    (h : (l.map key).Nodup) :
    pyDict key l = l.map (fun x => (key x, x)) := by
  have := pyDict_foldl_eq key l [] (by simpa using h)
  simpa [pyDict] using this

theorem pyGet?_map_key {β : Type} (key : β → String) :
    ∀ l : List β, (l.map key).Nodup → ∀ x ∈ l,
      pyGet? (l.map (fun y => (key y, y))) (key x) = some x := by
  intro l
  induction l with
  | nil => intro _ x hx; cases hx
  | cons y l ih =>
    intro h x hx
    simp only [List.map_cons]
    by_cases hk : key y = key x
    · rcases List.mem_cons.mp hx with rfl | hxl
      · unfold pyGet?
        rw [List.find?_cons_of_pos _ (by simp)]
        rfl
      · exfalso
        have : key x ∈ l.map key := List.mem_map_of_mem key hxl
        exact (List.nodup_cons.mp h).1 (hk ▸ this)
    · rcases List.mem_cons.mp hx with rfl | hxl
      · exact absurd rfl hk
      · have hstep : pyGet? ((key y, y) :: l.map (fun z => (key z, z))) (key x) =
            pyGet? (l.map (fun z => (key z, z))) (key x) := by
          unfold pyGet?
          rw [List.find?_cons_of_neg _ (by simp [hk])]
        rw [hstep]
        exact ih (List.nodup_cons.mp h).2 x hxl

theorem pyGet?_pyDict {β : Type} (key : β → String) (l : List β)
    (h : (l.map key).Nodup) (x : β) (hx : x ∈ l) :
    pyGet? (pyDict key l) (key x) = some x := by
  rw [pyDict_eq_of_nodup key l h]
  exact pyGet?_map_key key l h x hx

theorem pyDict_entries {β : Type} (key : β → String) :
    ∀ (l : List β) (acc : List (String × β)) (p : String × β),
      p ∈ l.foldl (fun m x => pyDictInsert m (key x) x) acc →
      p ∈ acc ∨ (p.2 ∈ l ∧ key p.2 = p.1) := by
  intro l
  induction l with
  | nil => intro acc p hp; exact Or.inl hp
  | cons x l ih =>
    intro acc p hp
    simp only [List.foldl_cons] at hp
    rcases ih _ p hp with hacc | ⟨h1, h2⟩
    · unfold pyDictInsert at hacc
      split at hacc
      · rcases List.mem_map.mp hacc with ⟨q, hq, hqe⟩
        by_cases hqk : q.1 = key x
        · right
          rw [← hqe]
          simp [hqk]
        · left
          rw [← hqe]
          simp [hqk]
          exact hq
      · rcases List.mem_append.mp hacc with hq | hq
        · exact Or.inl hq
        · right
          rw [List.mem_singleton.mp hq]
          exact ⟨List.mem_cons_self _ _, rfl⟩
    · exact Or.inr ⟨List.mem_cons_of_mem _ h1, h2⟩

theorem pyGet?_pyDict_some {β : Type} (key : β → String) (l : List β)
    (k : String) (v : β) (h : pyGet? (pyDict key l) k = some v) :
    v ∈ l ∧ key v = k := by
  unfold pyGet? at h
  cases hf : (pyDict key l).find? (fun p => p.1 == k) with
  | none => rw [hf] at h; cases h
  | some p =>
    rw [hf] at h
    injection h with h
    have hp := List.mem_of_find?_eq_some hf
    have hpk : p.1 = k := by simpa using List.find?_some hf
    rcases pyDict_entries key l [] p (by simpa [pyDict] using hp) with hc | ⟨h1, h2⟩
    · cases hc
    · exact ⟨h ▸ h1, by rw [← hpk, ← h2, h]⟩

/-! ### Validator phase shape lemmas -/

theorem slotExistence_shape (tt : Timetable) (slots : List String) :
    ∀ v ∈ slotExistenceChecks tt slots, vKind v = 0 := by
  intro v hv
  rcases List.mem_filterMap.mp hv with ⟨s, _, hs⟩
  split at hs
  · cases hs
  · injection hs with hs
    subst hs
    rfl

theorem roomChecksAssign_shape (data : MasterData) (s : String)
    (seen : List (String × String)) (a : Placement) :
    ∀ v ∈ roomChecksAssign data s seen a, 1 ≤ vKind v ∧ vKind v ≤ 4 := by
  intro v hv
  simp only [roomChecksAssign] at hv
  split at hv
  · rw [List.mem_singleton] at hv
    subst hv
    simp [vKind]
  · rcases List.mem_append.mp hv with hv | hv
    · rcases List.mem_append.mp hv with hv | hv
      · split at hv
        · cases hv
        · rw [List.mem_singleton] at hv
          subst hv
          simp [vKind]
      · split at hv
        · rw [List.mem_singleton] at hv
          subst hv
          simp [vKind]
        · cases hv
    · split at hv
      · split at hv
        · rw [List.mem_singleton] at hv
          subst hv
          simp [vKind]
        · cases hv
      · cases hv

theorem roomChecksList_shape (data : MasterData) (s : String) :
    ∀ (ps : List Placement) (seen : List (String × String)),
      ∀ v ∈ roomChecksList data s ps seen, 1 ≤ vKind v ∧ vKind v ≤ 4 := by
  intro ps
  induction ps with
  | nil => intro seen v hv; cases hv
  | cons a rest ih =>
    intro seen v hv
    simp only [roomChecksList] at hv
    rcases List.mem_append.mp hv with hv | hv
    · exact roomChecksAssign_shape data s seen a v hv
    · exact ih _ v hv

theorem roomPhase_shape (data : MasterData) (tt : Timetable) :
    ∀ v ∈ roomPhase data tt, 1 ≤ vKind v ∧ vKind v ≤ 4 := by
  intro v hv
  rcases List.mem_flatMap.mp hv with ⟨sp, _, hv⟩
  exact roomChecksList_shape data sp.1 sp.2 [] v hv

theorem facChecksAssign_shape (data : MasterData) (s : String)
    (seen : List (String × String)) (a : Placement) :
    ∀ v ∈ facChecksAssign data s seen a, 5 ≤ vKind v ∧ vKind v ≤ 8 := by
  intro v hv
  simp only [facChecksAssign] at hv
  split at hv
  · rw [List.mem_singleton] at hv
    subst hv
    simp [vKind]
  · split at hv
    · rw [List.mem_singleton] at hv
      subst hv
      simp [vKind]
    · split at hv
      · rw [List.mem_singleton] at hv
        subst hv
        simp [vKind]
      · rcases List.mem_append.mp hv with hv | hv
        · split at hv
          · cases hv
          · rw [List.mem_singleton] at hv
            subst hv
            simp [vKind]
        · split at hv
          · rw [List.mem_singleton] at hv
            subst hv
            simp [vKind]
          · cases hv

theorem facChecksList_shape (data : MasterData) (s : String) :
    ∀ (ps : List Placement) (seen : List (String × String)),
      ∀ v ∈ facChecksList data s ps seen, 5 ≤ vKind v ∧ vKind v ≤ 8 := by
  intro ps
  induction ps with
  | nil => intro seen v hv; cases hv
  | cons a rest ih =>
    intro seen v hv
    simp only [facChecksList] at hv
    rcases List.mem_append.mp hv with hv | hv
    · exact facChecksAssign_shape data s seen a v hv
    · exact ih _ v hv

theorem facPhaseViol_shape (data : MasterData) (tt : Timetable) :
    ∀ v ∈ facPhaseViol data tt, 5 ≤ vKind v ∧ vKind v ≤ 8 := by
  intro v hv
  rcases List.mem_flatMap.mp hv with ⟨sp, _, hv⟩
  exact facChecksList_shape data sp.1 sp.2 [] v hv

theorem loadPhase_shape (data : MasterData) (loadD : List (String × Int)) :
    ∀ v ∈ loadPhase data loadD, vKind v = 9 := by
  intro v hv
  rcases List.mem_filterMap.mp hv with ⟨p, _, hp⟩
  split at hp
  · split at hp
    · injection hp with hp
      subst hp
      rfl
    · cases hp
  · cases hp

theorem groupViolGroups_shape (s code : String) :
    ∀ (gs : List String) (gseen : List (String × String)),
      ∀ v ∈ groupViolGroups s code gs gseen, vKind v = 10 := by
  intro gs
  induction gs with
  | nil => intro gseen v hv; cases hv
  | cons g rest ih =>
    intro gseen v hv
    simp only [groupViolGroups] at hv
    rcases List.mem_append.mp hv with hv | hv
    · split at hv
      · rw [List.mem_singleton] at hv
        subst hv
        rfl
      · cases hv
    · exact ih _ v hv

theorem groupChecksList_shape (data : MasterData) (s : String) :
    ∀ (ps : List Placement) (gseen : List (String × String)),
      ∀ v ∈ groupChecksList data s ps gseen, vKind v = 10 := by
  intro ps
  induction ps with
  | nil => intro gseen v hv; cases hv
  | cons a rest ih =>
    intro gseen v hv
    simp only [groupChecksList] at hv
    rcases List.mem_append.mp hv with hv | hv
    · exact groupViolGroups_shape s a.course_code _ gseen v hv
    · exact ih _ v hv

theorem groupPhaseViol_shape (data : MasterData) (tt : Timetable) :
    ∀ v ∈ groupPhaseViol data tt, vKind v = 10 := by
  intro v hv
  rcases List.mem_flatMap.mp hv with ⟨sp, _, hv⟩
  exact groupChecksList_shape data sp.1 sp.2 [] v hv

theorem sessionsPhase_shape (data : MasterData) (tt : Timetable) :
    ∀ v ∈ sessionsPhase data tt, vKind v = 11 := by
  intro v hv
  rcases List.mem_filterMap.mp hv with ⟨p, _, hp⟩
  split at hp
  · split at hp
    · injection hp with hp
      subst hp
      rfl
    · cases hp
  · cases hp

theorem creditChecksGroup_shape (data : MasterData)
    (gca : List (String × List String)) (gid : String) (group : StudentGroup) :
    ∀ v ∈ creditChecksGroup data gca gid group,
      12 ≤ vKind v ∧ vKind v ≤ 17 := by
  intro v hv
  simp only [creditChecksGroup] at hv
  split at hv
  · cases hv
  · rcases List.mem_append.mp hv with hv | hv
    · rcases List.mem_append.mp hv with hv | hv
      · rcases List.mem_append.mp hv with hv | hv
        · rcases List.mem_append.mp hv with hv | hv
          · rcases List.mem_append.mp hv with hv | hv
            · split at hv
              · rw [List.mem_singleton] at hv; subst hv; simp [vKind]
              · cases hv
            · split at hv
              · rw [List.mem_singleton] at hv; subst hv; simp [vKind]
              · cases hv
          · split at hv
            · rw [List.mem_singleton] at hv; subst hv; simp [vKind]
            · cases hv
        · split at hv
          · rw [List.mem_singleton] at hv; subst hv; simp [vKind]
          · cases hv
      · split at hv
        · rw [List.mem_singleton] at hv; subst hv; simp [vKind]
        · cases hv
    · split at hv
      · rcases List.mem_filterMap.mp hv with ⟨c, _, hc⟩
        split at hc
        · injection hc with hc; subst hc; simp [vKind]
        · cases hc
      · cases hv

theorem creditPhase_shape (data : MasterData)
    (gca : List (String × List String)) :
    ∀ v ∈ creditPhase data gca, 12 ≤ vKind v ∧ vKind v ≤ 17 := by
  intro v hv
  rcases List.mem_flatMap.mp hv with ⟨p, _, hv⟩
  exact creditChecksGroup_shape data gca p.1 p.2 v hv

theorem practiceChecksAssign_shape (data : MasterData) (s : String)
    (a : Placement) :
    ∀ v ∈ practiceChecksAssign data s a, vKind v = 18 := by
  intro v hv
  simp only [practiceChecksAssign] at hv
  split at hv
  · cases hv
  · rcases List.mem_filterMap.mp hv with ⟨gid, _, hg⟩
    split at hg
    · cases hg
    · split at hg
      · injection hg with hg
        subst hg
        rfl
      · cases hg

theorem practicePhase_shape (data : MasterData) (tt : Timetable) :
    ∀ v ∈ practicePhase data tt, vKind v = 18 := by
  intro v hv
  simp only [practicePhase] at hv
  split at hv
  · cases hv
  · rcases List.mem_flatMap.mp hv with ⟨sp, _, hv⟩
    rcases List.mem_flatMap.mp hv with ⟨a, _, hv⟩
    exact practiceChecksAssign_shape data sp.1 a v hv

theorem validate_mem_cases (tt : Timetable) (data : MasterData)
    (v : Violation) (hv : v ∈ validateTimetable tt data) :
    v ∈ slotExistenceChecks tt data.time_slots ∨
    v ∈ roomPhase data tt ∨
    v ∈ facPhaseViol data tt ∨
    v ∈ loadPhase data (facLoadDict data tt) ∨
    v ∈ groupPhaseViol data tt ∨
    v ∈ sessionsPhase data tt ∨
    v ∈ creditPhase data (gcaDict data tt) ∨
    v ∈ practicePhase data tt := by
  simp only [validateTimetable, List.mem_append] at hv
  tauto

/-! ### C10: the weekly-load check needs a truthy cap -/

theorem loadPhase_mem (data : MasterData) (loadD : List (String × Int))
    (fid : String) (l m : Int)
    (h : Violation.facultyOverload fid l m ∈ loadPhase data loadD) :
    ∃ p ∈ loadD, p.1 = fid ∧ p.2 = l ∧
      (match pyGet? (facultyMap data) fid with
       | some f => f.max_hours_per_week
       | none => none) = some m ∧ m ≠ 0 ∧ l > m := by
  rcases List.mem_filterMap.mp h with ⟨p, hp, heq⟩
  split at heq
  · rename_i m' hm'
    split at heq
    · rename_i hcond
      injection heq with heq
      cases heq
      exact ⟨p, hp, rfl, rfl, hm', hcond.1, hcond.2⟩
    · cases heq
  · cases heq

/-- C10: a master faculty whose `max_hours_per_week` is absent or zero is
never reported for exceeding its weekly load, regardless of the timetable. -/
theorem no_overload_for_capless_faculty (data : MasterData) (tt : Timetable)
    (f : Faculty) (hf : f ∈ data.faculty)
    (hnd : (data.faculty.map (fun x => x.faculty_id)).Nodup)
    (hcap : f.max_hours_per_week = none ∨ f.max_hours_per_week = some 0)
    (l m : Int) :
    Violation.facultyOverload f.faculty_id l m ∉ validateTimetable tt data := by
  intro hv
  rcases validate_mem_cases tt data _ hv with h | h | h | h | h | h | h | h
  · have := slotExistence_shape tt data.time_slots _ h
    simp [vKind] at this
  · have := roomPhase_shape data tt _ h
    simp [vKind] at this
  · have := facPhaseViol_shape data tt _ h
    simp [vKind] at this
  · rcases loadPhase_mem data _ f.faculty_id l m h with
      ⟨p, _, _, _, hmh, hm0, _⟩
    have hlook : pyGet? (facultyMap data) f.faculty_id = some f := by
      have := pyGet?_pyDict (fun x => x.faculty_id) data.faculty hnd f hf
      simpa [facultyMap] using this
    rw [hlook] at hmh
    have hmh' : f.max_hours_per_week = some m := hmh
    rcases hcap with hc | hc <;> rw [hc] at hmh'
    · cases hmh'
    · injection hmh' with hmh'
      exact hm0 hmh'.symm
  · have := groupPhaseViol_shape data tt _ h
    simp [vKind] at this
  · have := sessionsPhase_shape data tt _ h
    simp [vKind] at this
  · have := creditPhase_shape data _ _ h
    simp [vKind] at this
  · have := practicePhase_shape data tt _ h
    simp [vKind] at this

/-- Master data and timetable for the capless-faculty scenario: F0 has no
`max_hours_per_week` and teaches two placements. -/
def dataCapless : MasterData :=
  { time_slots := ["Mon_09", "Tue_09"],
    courses := [{ course_code := "C1", sessions_per_week := some 2 }],
    rooms := [{ room_id := "R1", available_slots := ["Mon_09", "Tue_09"] }],
    faculty := [{ faculty_id := "F0",
                  available_slots := ["Mon_09", "Tue_09"] }],
    student_groups := [] }

def ttCapless : Timetable :=
  [("Mon_09", [{ course_code := "C1", room_id := "R1",
                 faculty_id := some "F0" }]),
   ("Tue_09", [{ course_code := "C1", room_id := "R1",
                 faculty_id := some "F0" }])]

/-- C10 (witness): the capless theorem applied to a concrete faculty with
two assigned placements and no cap field. -/
theorem no_overload_for_capless_faculty_witness :
    ((dataCapless.faculty.headD { faculty_id := "" }) ∈ dataCapless.faculty ∧
      (dataCapless.faculty.headD { faculty_id := "" }).max_hours_per_week =
        none) ∧
    Violation.facultyOverload
        (dataCapless.faculty.headD { faculty_id := "" }).faculty_id 2 40 ∉
      validateTimetable ttCapless dataCapless :=
  ⟨⟨by decide, by decide⟩,
    no_overload_for_capless_faculty dataCapless ttCapless
      (dataCapless.faculty.headD { faculty_id := "" }) (by decide) (by decide)
      (Or.inl (by decide)) 2 40⟩

/-! ### C9: which checks are and are not short-circuited -/

theorem pyGet?_eq_none_forall {β : Type} (m : List (String × β)) (k : String)
    (h : pyGet? m k = none) : ∀ p ∈ m, p.1 ≠ k := by
  unfold pyGet? at h
  cases hf : m.find? (fun p => p.1 == k) with
  | some p => rw [hf] at h; cases h
  | none =>
    intro p hp
    have := List.find?_eq_none.mp hf p hp
    simpa using this

theorem pyGet?_append_one {β : Type} (m : List (String × β)) (k k' : String)
    (v : β) (h : k' ≠ k) :
    pyGet? (m ++ [(k, v)]) k' = pyGet? m k' := by
  unfold pyGet?
  rw [List.find?_append]
  have h1 : ([(k, v)].find? (fun p => p.1 == k')) = none := by
    rw [List.find?_cons_of_neg _ (by simp [Ne.symm h])]
    rfl
  rw [h1]
  cases m.find? (fun p => p.1 == k') <;> rfl

theorem roomAvail_mem_assign (data : MasterData) (s : String)
    (seen : List (String × String)) (a : Placement) (room : Room)
    (hlk : pyGet? (roomMap data) a.room_id = some room)
    (hna : s ∉ room.available_slots) :
    Violation.roomNotAvailable a.room_id s a.course_code ∈
      roomChecksAssign data s seen a := by
  simp [roomChecksAssign, hlk, hna]

theorem roomCap_mem_assign (data : MasterData) (s : String)
    (seen : List (String × String)) (a : Placement) (room : Room) (cap : Int)
    (hlk : pyGet? (roomMap data) a.room_id = some room)
    (hcap : room.capacity = some cap)
    (hgt : roomNeeds data a.course_code > cap) :
    Violation.roomCapacity a.room_id cap a.course_code
        (roomNeeds data a.course_code) ∈ roomChecksAssign data s seen a := by
  simp [roomChecksAssign, hlk, hcap, hgt]

theorem mem_roomChecksList_of_assign_all_seen (data : MasterData) (s : String)
    (v : Violation) (a : Placement)
    (hall : ∀ seen, v ∈ roomChecksAssign data s seen a) :
    ∀ (ps : List Placement) (seen : List (String × String)),
      a ∈ ps → v ∈ roomChecksList data s ps seen := by
  intro ps
  induction ps with
  | nil => intro seen h; cases h
  | cons b rest ih =>
    intro seen h
    simp only [roomChecksList, List.mem_append]
    rcases List.mem_cons.mp h with rfl | h
    · exact Or.inl (hall seen)
    · exact Or.inr (ih _ h)

theorem roomDbl_mem_list (data : MasterData) (s rid : String) :
    ∀ (ps : List Placement) (seen : List (String × String)),
      (pyGet? (roomMap data) rid).isSome = true →
      (2 ≤ ps.countP (fun b => b.room_id == rid) ∨
        (1 ≤ ps.countP (fun b => b.room_id == rid) ∧
          (pyGet? seen rid).isSome = true)) →
      ∃ first code, Violation.roomDoubleBooked rid s first code ∈
        roomChecksList data s ps seen := by
  intro ps
  induction ps with
  | nil =>
    intro seen _ h
    simp [List.countP_nil] at h
  | cons a rest ih =>
    intro seen hk h
    by_cases ha : a.room_id = rid
    · obtain ⟨room, hroom⟩ : ∃ room, pyGet? (roomMap data) a.room_id = some room := by
        rw [ha]
        cases hx : pyGet? (roomMap data) rid
        · rw [hx] at hk; cases hk
        · exact ⟨_, rfl⟩
      cases hseen : pyGet? seen rid with
      | some first =>
        refine ⟨first, a.course_code, ?_⟩
        simp only [roomChecksList, List.mem_append]
        refine Or.inl ?_
        rw [← ha]
        have hseen2 : pyGet? seen a.room_id = some first := by rw [ha]; exact hseen
        simp [roomChecksAssign, hroom, hseen2]
      | none =>
        have hca : (fun b : Placement => b.room_id == rid) a = true := by simp [ha]
        have hcnt : 2 ≤ (a :: rest).countP (fun b => b.room_id == rid) := by
          rcases h with h | ⟨_, h2⟩
          · exact h
          · rw [hseen] at h2; cases h2
        have hrest : 1 ≤ rest.countP (fun b => b.room_id == rid) := by
          have hstep : (a :: rest).countP (fun b => b.room_id == rid) =
              rest.countP (fun b => b.room_id == rid) + 1 := by
            simp [List.countP_cons, ha]
          omega
        have hseen' : (pyGet? (roomSeenNext data seen a) rid).isSome = true := by
          simp only [roomSeenNext, hroom]
          have hseen2 : pyGet? seen a.room_id = none := by rw [ha]; exact hseen
          rw [hseen2]
          rw [ha, pyGet?_append_single seen rid a.course_code
            (pyGet?_eq_none_forall seen rid hseen)]
          rfl
        rcases ih (roomSeenNext data seen a) hk (Or.inr ⟨hrest, hseen'⟩) with
          ⟨f1, c1, hm⟩
        exact ⟨f1, c1, by simp only [roomChecksList, List.mem_append]; exact Or.inr hm⟩
    · have hcnt : (a :: rest).countP (fun b => b.room_id == rid) =
          rest.countP (fun b => b.room_id == rid) := by
        simp [List.countP_cons, ha]
      have hseen' : pyGet? (roomSeenNext data seen a) rid = pyGet? seen rid := by
        unfold roomSeenNext
        cases pyGet? (roomMap data) a.room_id
        · rfl
        · cases pyGet? seen a.room_id
          · exact pyGet?_append_one seen a.room_id rid a.course_code
              (fun he => ha he.symm)
          · rfl
      rcases ih (roomSeenNext data seen a) hk
        (by rw [hseen']; rw [hcnt] at h; exact h) with ⟨f1, c1, hm⟩
      exact ⟨f1, c1, by simp only [roomChecksList, List.mem_append]; exact Or.inr hm⟩

theorem facAvail_mem_assign (data : MasterData) (s : String)
    (seen : List (String × String)) (a : Placement) (fid : String)
    (fobj : Faculty) (hfid : a.faculty_id = some fid) (hne : fid ≠ "")
    (hlk : pyGet? (facultyMap data) fid = some fobj)
    (hna : s ∉ fobj.available_slots) :
    Violation.facultyNotAvailable fid s a.course_code ∈
      facChecksAssign data s seen a := by
  simp [facChecksAssign, hfid, hne, hlk, hna]

theorem mem_facChecksList_of_assign_all_seen (data : MasterData) (s : String)
    (v : Violation) (a : Placement)
    (hall : ∀ seen, v ∈ facChecksAssign data s seen a) :
    ∀ (ps : List Placement) (seen : List (String × String)),
      a ∈ ps → v ∈ facChecksList data s ps seen := by
  intro ps
  induction ps with
  | nil => intro seen h; cases h
  | cons b rest ih =>
    intro seen h
    simp only [facChecksList, List.mem_append]
    rcases List.mem_cons.mp h with rfl | h
    · exact Or.inl (hall seen)
    · exact Or.inr (ih _ h)

theorem facDbl_mem_list (data : MasterData) (s fid : String) (hne : fid ≠ "") :
    ∀ (ps : List Placement) (seen : List (String × String)),
      (pyGet? (facultyMap data) fid).isSome = true →
      (2 ≤ ps.countP (fun b => b.faculty_id == some fid) ∨
        (1 ≤ ps.countP (fun b => b.faculty_id == some fid) ∧
          (pyGet? seen fid).isSome = true)) →
      ∃ first code, Violation.facultyDoubleBooked fid s first code ∈
        facChecksList data s ps seen := by
  intro ps
  induction ps with
  | nil =>
    intro seen _ h
    simp [List.countP_nil] at h
  | cons a rest ih =>
    intro seen hk h
    by_cases ha : a.faculty_id = some fid
    · obtain ⟨fobj, hfobj⟩ : ∃ fobj, pyGet? (facultyMap data) fid = some fobj := by
        cases hx : pyGet? (facultyMap data) fid
        · rw [hx] at hk; cases hk
        · exact ⟨_, rfl⟩
      cases hseen : pyGet? seen fid with
      | some first =>
        refine ⟨first, a.course_code, ?_⟩
        simp only [facChecksList, List.mem_append]
        refine Or.inl ?_
        simp [facChecksAssign, ha, hne, hfobj, hseen]
      | none =>
        have hca : (fun b : Placement => b.faculty_id == some fid) a = true := by
          simp [ha]
        have hcnt : 2 ≤ (a :: rest).countP (fun b => b.faculty_id == some fid) := by
          rcases h with h | ⟨_, h2⟩
          · exact h
          · rw [hseen] at h2; cases h2
        have hrest : 1 ≤ rest.countP (fun b => b.faculty_id == some fid) := by
          have hstep : (a :: rest).countP (fun b => b.faculty_id == some fid) =
              rest.countP (fun b => b.faculty_id == some fid) + 1 := by
            simp [List.countP_cons, ha]
          omega
        have hseen' : (pyGet? (facSeenNext data seen a) fid).isSome = true := by
          simp only [facSeenNext, ha]
          rw [if_neg hne, hfobj, hseen,
            pyGet?_append_single seen fid a.course_code
              (pyGet?_eq_none_forall seen fid hseen)]
          rfl
        rcases ih (facSeenNext data seen a) hk (Or.inr ⟨hrest, hseen'⟩) with
          ⟨f1, c1, hm⟩
        exact ⟨f1, c1, by simp only [facChecksList, List.mem_append]; exact Or.inr hm⟩
    · have hcnt : (a :: rest).countP (fun b => b.faculty_id == some fid) =
          rest.countP (fun b => b.faculty_id == some fid) := by
        simp [List.countP_cons, ha]
      have hseen' : pyGet? (facSeenNext data seen a) fid = pyGet? seen fid := by
        cases hb : a.faculty_id with
        | none => simp [facSeenNext, hb]
        | some fid2 =>
          simp only [facSeenNext, hb]
          by_cases h2 : fid2 = ""
          · rw [if_pos h2]
          · rw [if_neg h2]
            cases pyGet? (facultyMap data) fid2
            · rfl
            · cases pyGet? seen fid2
              · exact pyGet?_append_one seen fid2 fid a.course_code
                  (fun he => ha (by rw [hb, he]))
              · rfl
      rcases ih (facSeenNext data seen a) hk
        (by rw [hseen']; rw [hcnt] at h; exact h) with ⟨f1, c1, hm⟩
      exact ⟨f1, c1, by simp only [facChecksList, List.mem_append]; exact Or.inr hm⟩

theorem mem_validate_of_roomPhase (data : MasterData) (tt : Timetable)
    (v : Violation) (h : v ∈ roomPhase data tt) :
    v ∈ validateTimetable tt data := by
  simp only [validateTimetable, List.mem_append]
  tauto

theorem mem_validate_of_facPhase (data : MasterData) (tt : Timetable)
    (v : Violation) (h : v ∈ facPhaseViol data tt) :
    v ∈ validateTimetable tt data := by
  simp only [validateTimetable, List.mem_append]
  tauto

/-- C9 (amended): for a placement whose room is in the master list, the
availability, double-booking and capacity checks each report whenever their
condition holds (none is suppressed by another), and likewise the
availability and double-booking checks for a truthy, master-listed faculty;
only a missing room, a falsy faculty, or a missing faculty short-circuits
that entity's remaining checks. -/
theorem validator_checks_unconditional (data : MasterData) (tt : Timetable) :
    (∀ s ps, (s, ps) ∈ tt → ∀ a ∈ ps, ∀ room,
      pyGet? (roomMap data) a.room_id = some room →
      (s ∉ room.available_slots →
        Violation.roomNotAvailable a.room_id s a.course_code ∈
          validateTimetable tt data) ∧
      (∀ cap, room.capacity = some cap →
        roomNeeds data a.course_code > cap →
        Violation.roomCapacity a.room_id cap a.course_code
          (roomNeeds data a.course_code) ∈ validateTimetable tt data) ∧
      (2 ≤ ps.countP (fun b => b.room_id == a.room_id) →
        ∃ first code, Violation.roomDoubleBooked a.room_id s first code ∈
          validateTimetable tt data)) ∧
    (∀ s ps, (s, ps) ∈ tt → ∀ a ∈ ps, ∀ fid fobj,
      a.faculty_id = some fid → fid ≠ "" →
      pyGet? (facultyMap data) fid = some fobj →
      (s ∉ fobj.available_slots →
        Violation.facultyNotAvailable fid s a.course_code ∈
          validateTimetable tt data) ∧
      (2 ≤ ps.countP (fun b => b.faculty_id == some fid) →
        ∃ first code, Violation.facultyDoubleBooked fid s first code ∈
          validateTimetable tt data)) := by
  constructor
  · intro s ps hsp a ha room hlk
    refine ⟨?_, ?_, ?_⟩
    · intro hna
      refine mem_validate_of_roomPhase data tt _ ?_
      exact List.mem_flatMap.mpr ⟨(s, ps), hsp,
        mem_roomChecksList_of_assign_all_seen data s _ a
          (fun seen => roomAvail_mem_assign data s seen a room hlk hna) ps [] ha⟩
    · intro cap hcap hgt
      refine mem_validate_of_roomPhase data tt _ ?_
      exact List.mem_flatMap.mpr ⟨(s, ps), hsp,
        mem_roomChecksList_of_assign_all_seen data s _ a
          (fun seen => roomCap_mem_assign data s seen a room cap hlk hcap hgt) ps [] ha⟩
    · intro hcnt
      rcases roomDbl_mem_list data s a.room_id ps [] (by rw [hlk]; rfl)
        (Or.inl hcnt) with ⟨f1, c1, hm⟩
      exact ⟨f1, c1, mem_validate_of_roomPhase data tt _
        (List.mem_flatMap.mpr ⟨(s, ps), hsp, hm⟩)⟩
  · intro s ps hsp a ha fid fobj hfid hne hlk
    refine ⟨?_, ?_⟩
    · intro hna
      refine mem_validate_of_facPhase data tt _ ?_
      exact List.mem_flatMap.mpr ⟨(s, ps), hsp,
        mem_facChecksList_of_assign_all_seen data s _ a
          (fun seen => facAvail_mem_assign data s seen a fid fobj hfid hne hlk hna)
          ps [] ha⟩
    · intro hcnt
      rcases facDbl_mem_list data s fid hne ps [] (by rw [hlk]; rfl)
        (Or.inl hcnt) with ⟨f1, c1, hm⟩
      exact ⟨f1, c1, mem_validate_of_facPhase data tt _
        (List.mem_flatMap.mpr ⟨(s, ps), hsp, hm⟩)⟩

/-- C9 (counterexample): a room used twice in one slot but absent from the
master list yields two not-found reports and no double-booking report: the
not-found `continue` skips the double-booking bookkeeping, so not every
applicable check is evaluated once an earlier check has fired. -/
theorem validator_skips_checks_after_room_not_found :
    ((ttC9.headD ("", [])).2.countP (fun a => a.room_id == "RX") = 2) ∧
    Violation.roomNotFound "RX" "Mon_09" ∈ validateTimetable ttC9 dataC9 ∧
    ∀ v ∈ validateTimetable ttC9 dataC9, vKind v ≠ 3 := by
  decide

/-- C9 (witness): the unconditional-checks theorem applied to a slot whose
single room and faculty are master-listed, unavailable, double-booked and
over capacity: all the corresponding reports are present at once. -/
theorem validator_checks_unconditional_witness :
    Violation.roomNotAvailable "R1" "Mon_09" "C1" ∈
      validateTimetable ttW9 dataW9 ∧
    Violation.roomCapacity "R1" 1 "C1" 2 ∈ validateTimetable ttW9 dataW9 ∧
    (∃ first code, Violation.roomDoubleBooked "R1" "Mon_09" first code ∈
      validateTimetable ttW9 dataW9) ∧
    Violation.facultyNotAvailable "F1" "Mon_09" "C1" ∈
      validateTimetable ttW9 dataW9 ∧
    (∃ first code, Violation.facultyDoubleBooked "F1" "Mon_09" first code ∈
      validateTimetable ttW9 dataW9) := by
  have h := validator_checks_unconditional dataW9 ttW9
  have h1 := h.1 "Mon_09" (ttW9.headD ("", [])).2 (by decide)
    ((ttW9.headD ("", [])).2.headD { course_code := "", room_id := "" })
    (by decide) { room_id := "R1", capacity := some 1, available_slots := [] }
    (by decide)
  have h2 := h.2 "Mon_09" (ttW9.headD ("", [])).2 (by decide)
    ((ttW9.headD ("", [])).2.headD { course_code := "", room_id := "" })
    (by decide) "F1" { faculty_id := "F1", available_slots := [] }
    (by decide) (by decide) (by decide)
  exact ⟨h1.1 (by decide), h1.2.1 1 (by decide) (by decide), h1.2.2 (by decide),
    h2.1 (by decide), h2.2 (by decide)⟩

/-! ### C3: optimizer book-keeping lemmas -/

theorem find?_map_update_self {β : Type} (m : List (String × β)) (k : String)
    (v : β) (h : m.any (fun p => p.1 == k) = true) :
    (m.map (fun p => if p.1 == k then (p.1, v) else p)).find?
        (fun p => p.1 == k) = some (k, v) := by
  induction m with
  | nil => cases h
  | cons p m ih =>
    simp only [List.map_cons]
    by_cases hb : (p.1 == k) = true
    · have hpk : p.1 = k := by simpa using hb
      have e1 : (if (p.1 == k) = true then (p.1, v) else p) = (p.1, v) := by
        simp [hb]
      rw [e1, List.find?_cons_of_pos _ (by simpa using hb), hpk]
    · have e1 : (if (p.1 == k) = true then (p.1, v) else p) = p := by simp [hb]
      rw [e1]
      have hstep : List.find? (fun q : String × β => q.1 == k)
          (p :: List.map (fun q => if (q.1 == k) = true then (q.1, v) else q) m) =
          List.find? (fun q : String × β => q.1 == k)
            (List.map (fun q => if (q.1 == k) = true then (q.1, v) else q) m) :=
        List.find?_cons_of_neg _ hb
      rw [hstep]
      refine ih ?_
      simpa [List.any_cons, hb] using h

theorem pyGet?_pyDictInsert_self {β : Type} (m : List (String × β))
    (k : String) (v : β) : pyGet? (pyDictInsert m k v) k = some v := by
  unfold pyDictInsert pyGet?
  by_cases h : m.any (fun p => p.1 == k) = true
  · rw [if_pos h, find?_map_update_self m k v h]
    rfl
  · rw [if_neg h]
    have h1 : m.find? (fun p => p.1 == k) = none := by
      rw [List.find?_eq_none]
      intro p hp hpk
      exact h (List.any_eq_true.mpr ⟨p, hp, hpk⟩)
    have h2 : ([(k, v)].find? (fun p => p.1 == k)) = some (k, v) :=
      List.find?_cons_of_pos _ (by simp)
    rw [List.find?_append, h1, h2]
    rfl

theorem loadOf_loadBump_self (load : List (String × Int)) (k : String) :
    loadOf (loadBump load k) k = loadOf load k + 1 := by
  unfold loadBump loadOf
  rw [pyGet?_pyDictInsert_self]
  rfl

theorem loadOf_loadBump_ne (load : List (String × Int)) (k f : String)
    (h : f ≠ k) : loadOf (loadBump load k) f = loadOf load f := by
  unfold loadBump loadOf
  rw [pyGet?_pyDictInsert_ne _ _ _ _ h]

theorem any_of_pyGet?_some {β : Type} (m : List (String × β)) (k : String)
    (v : β) (h : pyGet? m k = some v) :
    m.any (fun p => p.1 == k) = true := by
  unfold pyGet? at h
  cases hf : m.find? (fun p => p.1 == k) with
  | none => rw [hf] at h; cases h
  | some p =>
    have h2 : (p.1 == k) = true := by simpa using List.find?_some hf
    exact List.any_eq_true.mpr ⟨p, List.mem_of_find?_eq_some hf, h2⟩

theorem hasSlot_fttSet_self (ftt : List (String × List (String × String)))
    (f s code : String) : hasSlot (fttSet ftt f s code) f s = true := by
  unfold hasSlot fttSet
  rw [pyGet?_pyDictInsert_self]
  exact any_of_pyGet?_some _ s code (pyGet?_pyDictInsert_self _ s code)

theorem hasSlot_fttSet_ne (ftt : List (String × List (String × String)))
    (f g s code : String) (h : f ≠ g) :
    hasSlot (fttSet ftt g s code) f s = hasSlot ftt f s := by
  unfold hasSlot fttSet
  rw [pyGet?_pyDictInsert_ne _ _ _ _ h]

theorem keys_nodup_pyDictInsert {β : Type} (m : List (String × β))
    (k : String) (v : β) (h : (m.map Prod.fst).Nodup) :
    ((pyDictInsert m k v).map Prod.fst).Nodup := by
  unfold pyDictInsert
  by_cases hany : m.any (fun p => p.1 == k) = true
  · rw [if_pos hany, List.map_map]
    have e1 : (Prod.fst ∘ fun p : String × β =>
        if (p.1 == k) = true then (p.1, v) else p) = Prod.fst := by
      funext p
      show (if (p.1 == k) = true then (p.1, v) else p).1 = p.1
      split <;> rfl
    rw [e1]
    exact h
  · rw [if_neg hany, List.map_append, List.nodup_append]
    refine ⟨h, by simp, ?_⟩
    intro x hx hx2
    rw [show x = k by simpa using hx2] at hx
    rcases List.mem_map.mp hx with ⟨p, hp, hpk⟩
    exact hany (List.any_eq_true.mpr ⟨p, hp, by simp [hpk]⟩)

theorem pyDict_keys_nodup {β : Type} (key : β → String) (l : List β) :
    ((pyDict key l).map Prod.fst).Nodup := by
  have haux : ∀ (l2 : List β) (acc : List (String × β)),
      (acc.map Prod.fst).Nodup →
      ((l2.foldl (fun m x => pyDictInsert m (key x) x) acc).map Prod.fst).Nodup := by
    intro l2
    induction l2 with
    | nil => intro acc h; exact h
    | cons x l2 ih =>
      intro acc h
      exact ih _ (keys_nodup_pyDictInsert acc (key x) x h)
  exact haux l [] (by simp)

theorem assoc_get_of_mem_nodup {β : Type} (m : List (String × β))
    (p : String × β) (hp : p ∈ m) (h : (m.map Prod.fst).Nodup) :
    pyGet? m p.1 = some p.2 := by
  induction m with
  | nil => cases hp
  | cons q m ih =>
    rcases List.mem_cons.mp hp with rfl | hp2
    · unfold pyGet?
      rw [List.find?_cons_of_pos _ (by simp)]
      rfl
    · have hq : q.1 ≠ p.1 := by
        intro he
        have hm : p.1 ∈ m.map Prod.fst := List.mem_map_of_mem Prod.fst hp2
        exact (List.nodup_cons.mp h).1 (he ▸ hm)
      have hstep : pyGet? (q :: m) p.1 = pyGet? m p.1 := by
        unfold pyGet?
        rw [List.find?_cons_of_neg _ (by simp [hq])]
      rw [hstep]
      exact ih hp2 (List.nodup_cons.mp h).2

theorem pickLoop_some_props (facDict : List (String × Faculty))
    (load : List (String × Int))
    (ftt : List (String × List (String × String))) (s : String) :
    ∀ (cands : List String) (chosen : Option String) (bestLoad : Option Int)
      (f : String),
      (∀ g, chosen = some g → ∃ fobj, pyGet? facDict g = some fobj ∧
        s ∈ fobj.available_slots ∧ hasSlot ftt g s = false ∧
        loadOf load g < maxHoursOf fobj) →
      pickLoop facDict load ftt s cands chosen bestLoad = .ok (some f) →
      ∃ fobj, pyGet? facDict f = some fobj ∧ s ∈ fobj.available_slots ∧
        hasSlot ftt f s = false ∧ loadOf load f < maxHoursOf fobj := by
  intro cands
  induction cands with
  | nil =>
    intro chosen bestLoad f hinv h
    simp only [pickLoop] at h
    injection h with h
    exact hinv f h
  | cons fid rest ih =>
    intro chosen bestLoad f hinv h
    simp only [pickLoop] at h
    split at h
    · cases h
    · rename_i fobj hlk
      by_cases h1 : s ∈ fobj.available_slots
      case neg =>
        rw [if_pos h1] at h
        exact ih _ _ f hinv h
      case pos =>
        rw [if_neg (by simpa using h1)] at h
        by_cases h2 : hasSlot ftt fid s = true
        · rw [if_pos h2] at h
          exact ih _ _ f hinv h
        · rw [if_neg h2] at h
          by_cases h3 : maxHoursOf fobj ≤ loadOf load fid
          · rw [if_pos h3] at h
            exact ih _ _ f hinv h
          · rw [if_neg h3] at h
            cases bestLoad with
            | none =>
              refine ih _ _ f ?_ h
              intro g hg
              injection hg with hg
              subst hg
              exact ⟨fobj, hlk, h1, by simpa using h2, by omega⟩
            | some b =>
              have h' : (if loadOf load fid < b then
                  pickLoop facDict load ftt s rest (some fid)
                    (some (loadOf load fid))
                else pickLoop facDict load ftt s rest chosen (some b)) =
                  .ok (some f) := h
              by_cases h4 : loadOf load fid < b
              · rw [if_pos h4] at h'
                refine ih _ _ f ?_ h'
                intro g hg
                injection hg with hg
                subst hg
                exact ⟨fobj, hlk, h1, by simpa using h2, by omega⟩
              · rw [if_neg h4] at h'
                exact ih _ _ f hinv h'

theorem chooseFaculty_some_props (facDict : List (String × Faculty))
    (coursesDict : List (String × Course)) (load : List (String × Int))
    (ftt : List (String × List (String × String))) (s code f : String)
    (hkeys : (facDict.map Prod.fst).Nodup)
    (h : chooseFaculty facDict coursesDict load ftt s code = .ok (some f)) :
    ∃ fobj, pyGet? facDict f = some fobj ∧ s ∈ fobj.available_slots ∧
      hasSlot ftt f s = false ∧ loadOf load f < maxHoursOf fobj := by
  simp only [chooseFaculty] at h
  split at h
  · cases h
  · rename_i g hpl
    injection h with h
    injection h with h
    rw [h] at hpl
    exact pickLoop_some_props facDict load ftt s _ none none f
      (fun g2 hg2 => by cases hg2) hpl
  · rename_i hpl
    injection h with h
    unfold fallbackPick at h
    cases hf : facDict.find? (fun p =>
        decide (s ∈ p.2.available_slots) && !(hasSlot ftt p.1 s) &&
          decide (loadOf load p.1 < maxHoursOf p.2)) with
    | none => rw [hf] at h; cases h
    | some p =>
      rw [hf] at h
      injection h with h
      have hmem := List.mem_of_find?_eq_some hf
      have hpred := List.find?_some hf
      simp only [Bool.and_eq_true, decide_eq_true_eq, Bool.not_eq_true'] at hpred
      obtain ⟨⟨hav, hbook⟩, hload⟩ := hpred
      have hget : pyGet? facDict p.1 = some p.2 :=
        assoc_get_of_mem_nodup facDict p hmem hkeys
      subst h
      exact ⟨p.2, hget, hav, hbook, hload⟩

theorem assignPlacements_invariant (facDict : List (String × Faculty))
    (coursesDict : List (String × Course)) (s f : String) (hne : f ≠ "")
    (hkeys : (facDict.map Prod.fst).Nodup) :
    ∀ (ps : List Placement) (st : OptState) (acc out : List Placement)
      (st' : OptState) (B : Int),
      assignPlacements facDict coursesDict s ps st acc = .ok (out, st') →
      acc.countP (fun p => p.faculty_id == some f) ≤ 1 →
      (1 ≤ acc.countP (fun p => p.faculty_id == some f) →
        hasSlot st.ftt f s = true) →
      (∀ p ∈ acc, p.faculty_id = some f →
        ∃ fobj, pyGet? facDict f = some fobj ∧ s ∈ fobj.available_slots) →
      loadOf st.load f =
        B + (acc.countP (fun p => p.faculty_id == some f) : Int) →
      (∀ fobj, pyGet? facDict f = some fobj →
        loadOf st.load f ≤ max (maxHoursOf fobj) 0) →
      out.countP (fun p => p.faculty_id == some f) ≤ 1 ∧
      (∀ p ∈ out, p.faculty_id = some f →
        ∃ fobj, pyGet? facDict f = some fobj ∧ s ∈ fobj.available_slots) ∧
      loadOf st'.load f =
        B + (out.countP (fun p => p.faculty_id == some f) : Int) ∧
      (∀ fobj, pyGet? facDict f = some fobj →
        loadOf st'.load f ≤ max (maxHoursOf fobj) 0) := by
  intro ps
  induction ps with
  | nil =>
    intro st acc out st' B h h1 h2 h3 h4 h5
    simp only [assignPlacements] at h
    injection h with h
    injection h with ho hst
    subst ho
    subst hst
    exact ⟨h1, h3, h4, h5⟩
  | cons a rest ih =>
    intro st acc out st' B h h1 h2 h3 h4 h5
    simp only [assignPlacements] at h
    split at h
    · cases h
    · rename_i chosen hch
      by_cases hcf : chosen = some f
      · subst hcf
        rcases chooseFaculty_some_props facDict coursesDict st.load st.ftt s
          a.course_code f hkeys hch with ⟨fobj, hget, hav, hbook, hload⟩
        have hc0 : acc.countP (fun p => p.faculty_id == some f) = 0 := by
          by_contra hc
          rw [h2 (Nat.one_le_iff_ne_zero.mpr hc)] at hbook
          cases hbook
        have hbook_eq : bookChoice st (some f) s a.course_code =
            { load := loadBump st.load f,
              ftt := fttSet st.ftt f s a.course_code } := by
          simp [bookChoice, hne]
        rw [hbook_eq] at h
        have hcnt' : (acc ++ [({ a with faculty_id := some f } : Placement)]).countP
            (fun p : Placement => p.faculty_id == some f) = 1 := by
          rw [List.countP_append, hc0]
          simp [List.countP_cons]
        refine ih _ _ _ _ _ h ?_ ?_ ?_ ?_ ?_
        · rw [hcnt']
        · intro _
          exact hasSlot_fttSet_self st.ftt f s a.course_code
        · intro p hp hpf
          rcases List.mem_append.mp hp with hp | hp
          · exact h3 p hp hpf
          · exact ⟨fobj, hget, hav⟩
        · show loadOf (loadBump st.load f) f = _
          rw [loadOf_loadBump_self, h4, hc0, hcnt']
          push_cast
          ring
        · intro fobj2 hget2
          have he : fobj2 = fobj := by
            rw [hget2] at hget
            injection hget
          rw [he]
          show loadOf (loadBump st.load f) f ≤ _
          rw [loadOf_loadBump_self]
          have hl := le_max_left (maxHoursOf fobj) 0
          omega
      · have hcount : (fun p : Placement => p.faculty_id == some f)
            { a with faculty_id := chosen } = false := by
          simp [hcf]
        have hacc' : (acc ++ [({ a with faculty_id := chosen } : Placement)]).countP
            (fun p : Placement => p.faculty_id == some f) =
            acc.countP (fun p : Placement => p.faculty_id == some f) := by
          rw [List.countP_append]
          simp [List.countP_cons, hcf]
        have hload_eq :
            loadOf (bookChoice st chosen s a.course_code).load f =
              loadOf st.load f := by
          cases chosen with
          | none => rfl
          | some g =>
            by_cases hg : g = ""
            · simp [bookChoice, hg]
            · have hgf : f ≠ g := fun he => hcf (by rw [he])
              simp [bookChoice, hg, loadOf_loadBump_ne st.load g f hgf]
        have hftt_eq :
            hasSlot (bookChoice st chosen s a.course_code).ftt f s =
              hasSlot st.ftt f s := by
          cases chosen with
          | none => rfl
          | some g =>
            by_cases hg : g = ""
            · simp [bookChoice, hg]
            · have hgf : f ≠ g := fun he => hcf (by rw [he])
              simp [bookChoice, hg, hasSlot_fttSet_ne st.ftt f g s a.course_code hgf]
        refine ih _ _ _ _ _ h ?_ ?_ ?_ ?_ ?_
        · rw [hacc']
          exact h1
        · rw [hacc', hftt_eq]
          exact h2
        · intro p hp hpf
          rcases List.mem_append.mp hp with hp | hp
          · exact h3 p hp hpf
          · rw [List.mem_singleton.mp hp] at hpf
            exact absurd hpf hcf
        · rw [hacc', hload_eq]
          exact h4
        · intro fobj2 hget2
          rw [hload_eq]
          exact h5 fobj2 hget2

theorem assignSlots_invariant (facDict : List (String × Faculty))
    (coursesDict : List (String × Course)) (f : String) (hne : f ≠ "")
    (hkeys : (facDict.map Prod.fst).Nodup) :
    ∀ (bl : Timetable) (st : OptState) (acc out : Timetable) (st' : OptState),
      assignSlots facDict coursesDict bl st acc = .ok (out, st') →
      loadOf st.load f =
        ((acc.map (fun sp =>
          sp.2.countP (fun p => p.faculty_id == some f))).sum : Int) →
      (∀ fobj, pyGet? facDict f = some fobj →
        loadOf st.load f ≤ max (maxHoursOf fobj) 0) →
      (∀ sp ∈ acc, sp.2.countP (fun p => p.faculty_id == some f) ≤ 1) →
      (∀ sp ∈ acc, ∀ p ∈ sp.2, p.faculty_id = some f →
        ∃ fobj, pyGet? facDict f = some fobj ∧ sp.1 ∈ fobj.available_slots) →
      (∀ sp ∈ out, sp.2.countP (fun p => p.faculty_id == some f) ≤ 1) ∧
      (∀ sp ∈ out, ∀ p ∈ sp.2, p.faculty_id = some f →
        ∃ fobj, pyGet? facDict f = some fobj ∧ sp.1 ∈ fobj.available_slots) ∧
      loadOf st'.load f =
        ((out.map (fun sp =>
          sp.2.countP (fun p => p.faculty_id == some f))).sum : Int) ∧
      (∀ fobj, pyGet? facDict f = some fobj →
        loadOf st'.load f ≤ max (maxHoursOf fobj) 0) := by
  intro bl
  induction bl with
  | nil =>
    intro st acc out st' h h1 h2 h3 h4
    simp only [assignSlots] at h
    injection h with h
    injection h with ho hst
    subst ho
    subst hst
    exact ⟨h3, h4, h1, h2⟩
  | cons sp rest ih =>
    intro st acc out st' h h1 h2 h3 h4
    simp only [assignSlots] at h
    split at h
    · cases h
    · rename_i ps st2 heq
      have hin := assignPlacements_invariant facDict coursesDict sp.1 f hne
        hkeys sp.2 st [] ps st2
        ((acc.map (fun sq =>
          sq.2.countP (fun p => p.faculty_id == some f))).sum : Int)
        heq (by simp) (by simp) (by simp) (by simpa using h1) h2
      rcases hin with ⟨hc1, hc2, hc3, hc4⟩
      refine ih st2 (acc ++ [(sp.1, ps)]) out st' h ?_ hc4 ?_ ?_
      · rw [List.map_append, List.sum_append]
        simpa using hc3
      · intro sq hsq
        rcases List.mem_append.mp hsq with hsq | hsq
        · exact h3 sq hsq
        · rw [List.mem_singleton.mp hsq]
          exact hc1
      · intro sq hsq p hp hpf
        rcases List.mem_append.mp hsq with hsq | hsq
        · exact h4 sq hsq p hp hpf
        · rw [List.mem_singleton.mp hsq] at hp ⊢
          exact hc2 p hp hpf

theorem loadOf_init (m : List (String × Faculty)) (f : String) :
    loadOf (m.map (fun p => (p.1, (0 : Int)))) f = 0 := by
  unfold loadOf pyGet?
  cases hf : (m.map (fun p => (p.1, (0 : Int)))).find? (fun p => p.1 == f) with
  | none => rfl
  | some p =>
    have hm := List.mem_of_find?_eq_some hf
    rcases List.mem_map.mp hm with ⟨q, _, hq⟩
    rw [← hq]
    rfl

/-- Invariants of a successful `assign_faculty` run for a truthy faculty id
(shared derivation). -/
theorem assignFaculty_ok_invariants (data : MasterData)
    (baseline out : Timetable)
    (ftt : List (String × List (String × String)))
    (h : assignFaculty data baseline = .ok (out, ftt)) (f : String)
    (hne : f ≠ "") :
    (∀ sp ∈ out, ∀ p ∈ sp.2, p.faculty_id = some f →
      ∃ fobj, pyGet? (facultyMap data) f = some fobj ∧
        sp.1 ∈ fobj.available_slots) ∧
    (∀ sp ∈ out, sp.2.countP (fun p => p.faculty_id == some f) ≤ 1) ∧
    (∀ fobj, pyGet? (facultyMap data) f = some fobj →
      ((out.map (fun sp =>
        sp.2.countP (fun p => p.faculty_id == some f))).sum : Int) ≤
          max (maxHoursOf fobj) 0) := by
  simp only [assignFaculty] at h
  split at h
  · cases h
  · rename_i o st heq
    injection h with h
    injection h with h1 h2
    subst h1
    have hkeys : ((facultyMap data).map Prod.fst).Nodup := by
      unfold facultyMap
      exact pyDict_keys_nodup _ _
    have hout := assignSlots_invariant (facultyMap data) (courseMap data) f
      hne hkeys baseline _ [] o st heq
      (by rw [loadOf_init]; simp)
      (by intro fobj _; rw [loadOf_init]; exact le_max_right _ _)
      (by simp) (by simp)
    rcases hout with ⟨hc1, hc2, hc3, hc4⟩
    refine ⟨hc2, hc1, ?_⟩
    intro fobj hget
    have := hc4 fobj hget
    rw [hc3] at this
    omega

/-- C3 (amended): after a successful `assign_faculty` run, every placement
carrying a truthy (non-null, non-empty) faculty id names a master faculty
available in that slot, each such faculty teaches at most one placement per
slot, and its total assigned count never exceeds its `max_hours_per_week`
(default 40) whenever that cap is non-negative. -/
theorem assigned_faculty_invariants (data : MasterData)
    (baseline out : Timetable)
    (ftt : List (String × List (String × String)))
    (h : assignFaculty data baseline = .ok (out, ftt)) (f : String)
    (hne : f ≠ "") :
    (∀ sp ∈ out, ∀ p ∈ sp.2, p.faculty_id = some f →
      ∃ fobj, pyGet? (facultyMap data) f = some fobj ∧
        sp.1 ∈ fobj.available_slots) ∧
    (∀ sp ∈ out, sp.2.countP (fun p => p.faculty_id == some f) ≤ 1) ∧
    (∀ fobj, pyGet? (facultyMap data) f = some fobj → 0 ≤ maxHoursOf fobj →
      ((out.map (fun sp =>
        sp.2.countP (fun p => p.faculty_id == some f))).sum : Int) ≤
          maxHoursOf fobj) := by
  rcases assignFaculty_ok_invariants data baseline out ftt h f hne with
    ⟨hc1, hc2, hc3⟩
  refine ⟨hc1, hc2, ?_⟩
  intro fobj hget hnn
  have := hc3 fobj hget
  omega

/-- C3 (counterexample): with a master faculty whose id is the empty string,
`assign_faculty` succeeds and attaches that non-null id to two placements in
the same slot — the `if chosen:` guard is falsy for `""`, so the
double-booking and load book-keeping is skipped. -/
theorem assign_faculty_empty_id_double_books :
    ∃ out ftt, assignFaculty dataEmptyId baselineEmptyId = .ok (out, ftt) ∧
      2 ≤ (out.headD ("", [])).2.countP (fun p => p.faculty_id == some "") ∧
      ∀ p ∈ (out.headD ("", [])).2, p.faculty_id = some "" := by
  refine ⟨_, _, rfl, ?_, ?_⟩ <;> decide

/-- C3 (witness): the invariants applied to a successful concrete run. -/
theorem assigned_faculty_invariants_witness :
    ∃ out ftt, assignFaculty dataLab baselineLab = .ok (out, ftt) ∧
      ((∀ sp ∈ out, ∀ p ∈ sp.2, p.faculty_id = some "F1" →
        ∃ fobj, pyGet? (facultyMap dataLab) "F1" = some fobj ∧
          sp.1 ∈ fobj.available_slots) ∧
      (∀ sp ∈ out, sp.2.countP (fun p => p.faculty_id == some "F1") ≤ 1) ∧
      (∀ fobj, pyGet? (facultyMap dataLab) "F1" = some fobj →
        0 ≤ maxHoursOf fobj →
        ((out.map (fun sp =>
          sp.2.countP (fun p => p.faculty_id == some "F1"))).sum : Int) ≤
            maxHoursOf fobj)) :=
  ⟨_, _, rfl,
    assigned_faculty_invariants dataLab baselineLab _ _ rfl "F1" (by decide)⟩

/-! ### Counting helpers for the feasibility-to-validator bridge -/

theorem countP_congr_mem {α : Type} (p q : α → Bool) :
    ∀ l : List α, (∀ a ∈ l, p a = q a) → l.countP p = l.countP q := by
  intro l
  induction l with
  | nil => intro _; rfl
  | cons a l ih =>
    intro h
    rw [List.countP_cons, List.countP_cons, h a (List.mem_cons_self a l),
      ih (fun b hb => h b (List.mem_cons_of_mem _ hb))]

theorem countP_and_split {α : Type} (p q : α → Bool) :
    ∀ l : List α,
      l.countP p =
        l.countP (fun a => q a && p a) + l.countP (fun a => !(q a) && p a) := by
  intro l
  induction l with
  | nil => rfl
  | cons a l ih =>
    simp only [List.countP_cons]
    cases hq : q a <;> cases hp : p a <;> simp [hq, hp] <;> omega

theorem sum_map_le_countP {α : Type} (h : α → Nat) :
    ∀ l : List α, (∀ a ∈ l, h a ≤ 1) →
      (l.map h).sum ≤ l.countP (fun a => decide (1 ≤ h a)) := by
  intro l
  induction l with
  | nil => intro _; exact Nat.le_refl 0
  | cons a l ih =>
    intro hb
    have ha := hb a (List.mem_cons_self a l)
    have htail := ih (fun b hbm => hb b (List.mem_cons_of_mem _ hbm))
    rw [List.map_cons, List.sum_cons, List.countP_cons]
    rcases Nat.le_one_iff_eq_zero_or_eq_one.mp ha with h0 | h0
    · rw [h0]
      simpa using htail
    · rw [h0]
      have he : (if decide (1 ≤ 1) = true then 1 else 0) = 1 := rfl
      rw [he]
      omega

theorem pyGet?_some_mem {β : Type} (m : List (String × β)) (k : String)
    (v : β) (h : pyGet? m k = some v) : (k, v) ∈ m := by
  unfold pyGet? at h
  cases hf : m.find? (fun p => p.1 == k) with
  | none => rw [hf] at h; cases h
  | some p =>
    rw [hf] at h
    injection h with h
    have hp := List.mem_of_find?_eq_some hf
    have hpk : p.1 = k := by simpa using List.find?_some hf
    have : p = (k, v) := by
      cases p
      simp_all
    rw [← this]
    exact hp

theorem pyGet?_pyDictInsert_isSome {β : Type} (m : List (String × β))
    (k : String) (v : β) (k' : String) (h : (pyGet? m k').isSome) :
    (pyGet? (pyDictInsert m k v) k').isSome := by
  by_cases hk : k' = k
  · subst hk
    rw [pyGet?_pyDictInsert_self]
    rfl
  · rw [pyGet?_pyDictInsert_ne m k v k' hk]
    exact h

theorem pyGet?_pyDict_isSome {β : Type} (key : β → String) (l : List β)
    (x : β) (hx : x ∈ l) : (pyGet? (pyDict key l) (key x)).isSome := by
  have haux : ∀ (l2 : List β) (acc : List (String × β)),
      (x ∈ l2 ∨ (pyGet? acc (key x)).isSome) →
      (pyGet? (l2.foldl (fun m y => pyDictInsert m (key y) y) acc)
        (key x)).isSome := by
    intro l2
    induction l2 with
    | nil =>
      intro acc hc
      rcases hc with hc | hc
      · cases hc
      · exact hc
    | cons y l2 ih =>
      intro acc hc
      simp only [List.foldl_cons]
      rcases hc with hc | hc
      · rcases List.mem_cons.mp hc with rfl | hc2
        · exact ih _ (Or.inr (by rw [pyGet?_pyDictInsert_self]; rfl))
        · exact ih _ (Or.inl hc2)
      · exact ih _ (Or.inr (pyGet?_pyDictInsert_isSome _ _ _ _ hc))
  exact haux l [] (Or.inl hx)

theorem pyDictInsert_entry_cases {β : Type} (m : List (String × β))
    (k : String) (v : β) :
    ∀ p ∈ pyDictInsert m k v, p ∈ m ∨ p = (k, v) := by
  intro p hp
  unfold pyDictInsert at hp
  split at hp
  · rcases List.mem_map.mp hp with ⟨q, hq, hqe⟩
    by_cases hqk : q.1 = k
    · right
      rw [← hqe]
      simp [hqk]
    · left
      rw [← hqe]
      simp only [show (q.1 == k) = false by simp [hqk], Bool.false_eq_true,
        if_false]
      exact hq
  · rcases List.mem_append.mp hp with hq | hq
    · exact Or.inl hq
    · exact Or.inr (List.mem_singleton.mp hq)

/-- The validator's required-sessions value, when defined, agrees with the
scheduler's (same computation up to the final fallback). -/
theorem requiredSessions_some (c : Course) (v : Int)
    (h : requiredSessions c = some v) : sessionsRequired c = v := by
  have hd : requiredSessions c = some (sessionsRequired c) ∨
      (requiredSessions c = none ∧ sessionsRequired c = 1) := by
    unfold requiredSessions sessionsRequired
    cases hs : c.sessions_per_week with
    | some n => left; rfl
    | none =>
      by_cases hc : c.components.getD [] ≠ []
      · left; simp [hc]
      · simp only [hc, if_neg, ite_not]
        cases hp : pyOrInt c.credit_hours c.hours_per_week with
        | some ch =>
          by_cases hch : ch = 0
          · right; simp [hch, hc]
          · left; simp [hch, hc]
        | none => right; simp [hc]
  rcases hd with hd | ⟨hd, _⟩
  · rw [hd] at h
    exact Option.some_injective _ h
  · rw [hd] at h
    cases h

/-- A predicate that ignores `faculty_id` counts equally before and after the
optimizer rewrites that field. -/
theorem forall₂_countP_eq (q : Placement → Bool)
    (hq : ∀ (a : Placement) (ch : Option String),
      q { a with faculty_id := ch } = q a) :
    ∀ {l l' : List Placement},
      List.Forall₂ (fun a b => ∃ ch, b = { a with faculty_id := ch }) l l' →
      l'.countP q = l.countP q := by
  intro l l' h
  induction h with
  | nil => rfl
  | cons hab _ ih =>
    rcases hab with ⟨ch, rfl⟩
    rw [List.countP_cons, List.countP_cons, ih, hq]

theorem forall₂_sum_countP_eq (q : Placement → Bool)
    (hq : ∀ (a : Placement) (ch : Option String),
      q { a with faculty_id := ch } = q a) :
    ∀ {l l' : Timetable},
      List.Forall₂ (fun sp sq => sq.1 = sp.1 ∧
        List.Forall₂ (fun a b => ∃ ch, b = { a with faculty_id := ch })
          sp.2 sq.2) l l' →
      (l'.map (fun sp => sp.2.countP q)).sum =
        (l.map (fun sp => sp.2.countP q)).sum := by
  intro l l' h
  induction h with
  | nil => rfl
  | cons hab _ ih =>
    rw [List.map_cons, List.map_cons, List.sum_cons, List.sum_cons, ih,
      forall₂_countP_eq q hq hab.2]

/-! ### Per-slot and total counts of the emitted schedule -/

theorem sum_countP_slots (p : VarKey → Bool) :
    ∀ (keys : List String), keys.Nodup → ∀ (tv : List VarKey),
      (∀ k ∈ tv, k.2.1 ∈ keys) →
      (keys.map (fun s => tv.countP (fun k => (k.2.1 == s) && p k))).sum =
        tv.countP p := by
  intro keys
  induction keys with
  | nil =>
    intro _ tv htv
    have h0 : tv = [] := List.eq_nil_iff_forall_not_mem.mpr
      (fun k hk => by cases htv k hk)
    subst h0
    rfl
  | cons s keys ih =>
    intro hnd tv htv
    rcases List.nodup_cons.mp hnd with ⟨hs, hnd'⟩
    rw [List.map_cons, List.sum_cons]
    have hres := ih hnd' (tv.filter (fun k => !(k.2.1 == s))) (fun k hk => by
      rcases List.mem_filter.mp hk with ⟨hk1, hk2⟩
      rcases List.mem_cons.mp (htv k hk1) with he | he
      · rw [he] at hk2
        simp at hk2
      · exact he)
    have hmap : ∀ s' ∈ keys,
        (tv.filter (fun k => !(k.2.1 == s))).countP
          (fun k => (k.2.1 == s') && p k) =
        tv.countP (fun k => (k.2.1 == s') && p k) := by
      intro s' hs'
      rw [List.countP_filter]
      refine countP_congr_mem _ _ tv (fun k _ => ?_)
      cases hk1 : (k.2.1 == s') with
      | false => simp [hk1]
      | true =>
        have he : k.2.1 = s' := by simpa using hk1
        have hne : k.2.1 ≠ s := by
          rw [he]
          intro he2
          exact hs (he2 ▸ hs')
        simp [hk1, hne]
    have hmaps : keys.map (fun s' => tv.countP (fun k => (k.2.1 == s') && p k)) =
        keys.map (fun s' => (tv.filter (fun k => !(k.2.1 == s))).countP
          (fun k => (k.2.1 == s') && p k)) :=
      List.map_congr_left (fun s' hs' => (hmap s' hs').symm)
    have hsplit := countP_and_split p (fun k => k.2.1 == s) tv
    have hcomm : tv.countP (fun k => p k && !(k.2.1 == s)) =
        tv.countP (fun k => !(k.2.1 == s) && p k) :=
      countP_congr_mem _ _ tv (fun k _ => Bool.and_comm _ _)
    rw [hmaps, hres, List.countP_filter, hcomm]
    omega

theorem orderedAssignments_mem_perm (data : MasterData) (val : VarKey → Bool)
    {sp : String × List Placement} (hsp : sp ∈ orderedAssignments data val) :
    sp.2.Perm (entriesAt data (trueVars data val) sp.1) ∧
      sp.1 ∈ data.time_slots := by
  simp only [orderedAssignments] at hsp
  rcases List.mem_map.mp hsp with ⟨s, hs, rfl⟩
  refine ⟨List.perm_insertionSort placeLE _, ?_⟩
  have hs2 : s ∈ slotKeysOf (trueVars data val) :=
    (List.mem_insertionSort _).mp hs
  rcases (mem_slotKeysOf _ s).mp hs2 with ⟨k, hk, hks⟩
  have hkv := trueVars_subset_varKeys data val hk
  rcases (mem_buildVars data k).mp ((mem_varKeys data k).mp hkv) with
    ⟨c, _, s2, hs2m, r, _, _, hke⟩
  show s ∈ data.time_slots
  rw [← hks, hke]
  exact hs2m

theorem countP_entriesAt (data : MasterData) (tv : List VarKey) (s : String)
    (q : Placement → Bool) :
    (entriesAt data tv s).countP q =
      tv.countP (fun k => (k.2.1 == s) && q (mkPlacement data k)) := by
  unfold entriesAt
  rw [List.countP_map, List.countP_filter]
  refine countP_congr_mem _ _ tv (fun k _ => ?_)
  cases hk : (k.2.1 == s) <;>
    cases hq : q (mkPlacement data k) <;>
      simp [Function.comp, hk, hq]

theorem out_pair_bridge (data : MasterData) (val : VarKey → Bool)
    (out : Timetable) (ftt : List (String × List (String × String)))
    (hok : assignFaculty data (orderedAssignments data val) = .ok (out, ftt)) :
    ∀ sp ∈ out, ∃ sp' ∈ orderedAssignments data val, sp.1 = sp'.1 ∧
      List.Forall₂ (fun a b => ∃ ch, b = { a with faculty_id := ch })
        sp'.2 sp.2 := by
  intro sp hsp
  have hsh := assignFaculty_ok_shape data _ out ftt hok
  rcases forall₂_mem_exists hsh sp hsp with ⟨sp', hsp', h1, h2⟩
  exact ⟨sp', hsp', h1, h2⟩

theorem out_slot_count (data : MasterData) (val : VarKey → Bool)
    (out : Timetable) (ftt : List (String × List (String × String)))
    (hok : assignFaculty data (orderedAssignments data val) = .ok (out, ftt))
    (q : Placement → Bool)
    (hq : ∀ (a : Placement) (ch : Option String),
      q { a with faculty_id := ch } = q a) :
    ∀ sp ∈ out, sp.1 ∈ data.time_slots ∧
      sp.2.countP q = (trueVars data val).countP
        (fun k => (k.2.1 == sp.1) && q (mkPlacement data k)) := by
  intro sp hsp
  rcases out_pair_bridge data val out ftt hok sp hsp with ⟨sp', hsp', he, hfa⟩
  rcases orderedAssignments_mem_perm data val hsp' with ⟨hperm, hslot⟩
  refine ⟨by rw [he]; exact hslot, ?_⟩
  rw [forall₂_countP_eq q hq hfa, hperm.countP_eq, countP_entriesAt, ← he]

theorem out_mem_bridge (data : MasterData) (val : VarKey → Bool)
    (out : Timetable) (ftt : List (String × List (String × String)))
    (hok : assignFaculty data (orderedAssignments data val) = .ok (out, ftt)) :
    ∀ sp ∈ out, ∀ p ∈ sp.2, ∃ k ∈ trueVars data val, k.2.1 = sp.1 ∧
      p.course_code = k.1 ∧ p.room_id = k.2.2 := by
  intro sp hsp p hp
  rcases out_pair_bridge data val out ftt hok sp hsp with ⟨sp', hsp', he, hfa⟩
  rcases forall₂_mem_exists hfa p hp with ⟨a, ha, ch, rfl⟩
  rcases mem_orderedAssignments data val hsp' ha with ⟨k, hk, hks, hmk⟩
  refine ⟨k, hk, by rw [he]; exact hks, ?_, ?_⟩
  · rw [hmk]
    rfl
  · rw [hmk]
    rfl

theorem sum_countP_ordered (data : MasterData) (val : VarKey → Bool)
    (q : Placement → Bool) :
    ((orderedAssignments data val).map (fun sp => sp.2.countP q)).sum =
      (trueVars data val).countP (fun k => q (mkPlacement data k)) := by
  simp only [orderedAssignments, List.map_map]
  have hmc : ∀ s ∈ (slotKeysOf (trueVars data val)).insertionSort
      (fun a b => slotIdx data.time_slots a ≤ slotIdx data.time_slots b),
      ((fun sp : String × List Placement => sp.2.countP q) ∘
        (fun s => (s, (entriesAt data (trueVars data val) s).insertionSort
          placeLE))) s =
      (trueVars data val).countP
        (fun k => (k.2.1 == s) && q (mkPlacement data k)) := by
    intro s _
    show ((entriesAt data (trueVars data val) s).insertionSort
      placeLE).countP q = _
    rw [(List.perm_insertionSort placeLE _).countP_eq, countP_entriesAt]
  rw [List.map_congr_left hmc]
  have hperm : ((slotKeysOf (trueVars data val)).insertionSort
      (fun a b => slotIdx data.time_slots a ≤ slotIdx data.time_slots b)).Perm
      (slotKeysOf (trueVars data val)) := List.perm_insertionSort _ _
  rw [(hperm.map _).sum_eq]
  exact sum_countP_slots (fun k => q (mkPlacement data k)) _
    (by unfold slotKeysOf; exact nodup_dedupFirst _)
    (trueVars data val)
    (fun k hk => (mem_slotKeysOf _ _).mpr ⟨k, hk, rfl⟩)

theorem total_count_bridge (data : MasterData) (val : VarKey → Bool)
    (out : Timetable) (ftt : List (String × List (String × String)))
    (hok : assignFaculty data (orderedAssignments data val) = .ok (out, ftt))
    (q : Placement → Bool)
    (hq : ∀ (a : Placement) (ch : Option String),
      q { a with faculty_id := ch } = q a) :
    (out.map (fun sp => sp.2.countP q)).sum =
      (trueVars data val).countP (fun k => q (mkPlacement data k)) := by
  have hsh := assignFaculty_ok_shape data _ out ftt hok
  rw [forall₂_sum_countP_eq q hq hsh]
  exact sum_countP_ordered data val q

theorem out_keys_in_slots (data : MasterData) (val : VarKey → Bool)
    (out : Timetable) (ftt : List (String × List (String × String)))
    (hok : assignFaculty data (orderedAssignments data val) = .ok (out, ftt)) :
    ∀ s ∈ out.map Prod.fst, s ∈ data.time_slots := by
  intro s hs
  rcases List.mem_map.mp hs with ⟨sp, hsp, rfl⟩
  rcases out_pair_bridge data val out ftt hok sp hsp with ⟨sp', hsp', he, _⟩
  rw [he]
  exact (orderedAssignments_mem_perm data val hsp').2

/-! ### What each validator emission says about the timetable -/

theorem mkPlacement_course_code (data : MasterData) (k : VarKey) :
    (mkPlacement data k).course_code = k.1 := rfl

theorem mkPlacement_room_id (data : MasterData) (k : VarKey) :
    (mkPlacement data k).room_id = k.2.2 := rfl

theorem list_sum_natCast {α : Type} (f : α → Nat) :
    ∀ l : List α,
      (l.map (fun x => ((f x : Nat) : Int))).sum = ((l.map f).sum : Int) := by
  intro l
  induction l with
  | nil => rfl
  | cons a l ih =>
    rw [List.map_cons, List.map_cons, List.sum_cons, List.sum_cons, ih]
    push_cast
    ring

theorem slotExistence_mem (tt : Timetable) (slots : List String) (v : Violation)
    (h : v ∈ slotExistenceChecks tt slots) :
    ∃ s ∈ tt.map Prod.fst, s ∉ slots := by
  rcases List.mem_filterMap.mp h with ⟨s, hs, hse⟩
  split at hse
  · cases hse
  · rename_i hns
    exact ⟨s, hs, hns⟩

theorem roomNotFound_mem_list (data : MasterData) (s rid s' : String) :
    ∀ (ps : List Placement) (seen : List (String × String)),
      Violation.roomNotFound rid s' ∈ roomChecksList data s ps seen →
      ∃ a ∈ ps, a.room_id = rid ∧ pyGet? (roomMap data) rid = none := by
  intro ps
  induction ps with
  | nil => intro seen h; cases h
  | cons a rest ih =>
    intro seen h
    simp only [roomChecksList] at h
    rcases List.mem_append.mp h with h | h
    · simp only [roomChecksAssign] at h
      split at h
      · rename_i hnone
        rw [List.mem_singleton] at h
        injection h with h1 h2
        refine ⟨a, List.mem_cons_self a rest, h1.symm, ?_⟩
        rw [h1]
        exact hnone
      · exfalso
        rcases List.mem_append.mp h with h | h
        · rcases List.mem_append.mp h with h | h
          · split at h
            · cases h
            · rw [List.mem_singleton] at h
              cases h
          · split at h
            · rw [List.mem_singleton] at h
              cases h
            · cases h
        · split at h
          · split at h
            · rw [List.mem_singleton] at h
              cases h
            · cases h
          · cases h
    · rcases ih _ h with ⟨a2, ha2, hr1, hr2⟩
      exact ⟨a2, List.mem_cons_of_mem _ ha2, hr1, hr2⟩

theorem roomNotAvailable_mem_list (data : MasterData) (s rid s' code : String) :
    ∀ (ps : List Placement) (seen : List (String × String)),
      Violation.roomNotAvailable rid s' code ∈ roomChecksList data s ps seen →
      ∃ a ∈ ps, a.room_id = rid ∧
        ∃ room, pyGet? (roomMap data) rid = some room ∧
          s ∉ room.available_slots := by
  intro ps
  induction ps with
  | nil => intro seen h; cases h
  | cons a rest ih =>
    intro seen h
    simp only [roomChecksList] at h
    rcases List.mem_append.mp h with h | h
    · simp only [roomChecksAssign] at h
      split at h
      · rw [List.mem_singleton] at h
        cases h
      · rename_i room hsome
        rcases List.mem_append.mp h with h | h
        · rcases List.mem_append.mp h with h | h
          · split at h
            · cases h
            · rename_i hnav
              rw [List.mem_singleton] at h
              injection h with h1 h2 h3
              refine ⟨a, List.mem_cons_self a rest, h1.symm, room, ?_, hnav⟩
              rw [h1]
              exact hsome
          · exfalso
            split at h
            · rw [List.mem_singleton] at h
              cases h
            · cases h
        · exfalso
          split at h
          · split at h
            · rw [List.mem_singleton] at h
              cases h
            · cases h
          · cases h
    · rcases ih _ h with ⟨a2, ha2, hr1, hr2⟩
      exact ⟨a2, List.mem_cons_of_mem _ ha2, hr1, hr2⟩

theorem roomSeenNext_lookup (data : MasterData) (seen : List (String × String))
    (a : Placement) (rid : String)
    (h : (pyGet? (roomSeenNext data seen a) rid).isSome) :
    (pyGet? seen rid).isSome ∨ a.room_id = rid := by
  unfold roomSeenNext at h
  split at h
  · exact Or.inl h
  · split at h
    · exact Or.inl h
    · by_cases he : a.room_id = rid
      · exact Or.inr he
      · rw [pyGet?_append_one seen a.room_id rid _ (fun hh => he hh.symm)] at h
        exact Or.inl h

theorem roomDoubleBooked_mem_list (data : MasterData) (s rid s' f c : String) :
    ∀ (ps : List Placement) (seen : List (String × String)),
      Violation.roomDoubleBooked rid s' f c ∈ roomChecksList data s ps seen →
      (1 ≤ ps.countP (fun b => b.room_id == rid) ∧
        (pyGet? seen rid).isSome) ∨
      2 ≤ ps.countP (fun b => b.room_id == rid) := by
  intro ps
  induction ps with
  | nil => intro seen h; cases h
  | cons a rest ih =>
    intro seen h
    simp only [roomChecksList] at h
    rcases List.mem_append.mp h with h | h
    · simp only [roomChecksAssign] at h
      split at h
      · rw [List.mem_singleton] at h
        cases h
      · rename_i room hsome
        rcases List.mem_append.mp h with h | h
        · rcases List.mem_append.mp h with h | h
          · exfalso
            split at h
            · cases h
            · rw [List.mem_singleton] at h
              cases h
          · split at h
            · rename_i first hseen
              rw [List.mem_singleton] at h
              injection h with h1 h2 h3 h4
              left
              constructor
              · rw [List.countP_cons]
                have hpa : ((a.room_id == rid) : Bool) = true := by simp [h1]
                rw [hpa, if_pos rfl]
                omega
              · rw [h1, hseen]
                rfl
            · cases h
        · exfalso
          split at h
          · split at h
            · rw [List.mem_singleton] at h
              cases h
            · cases h
          · cases h
    · rcases ih _ h with ⟨h1, h2⟩ | h2
      · rcases roomSeenNext_lookup data seen a rid h2 with hs | he
        · left
          refine ⟨?_, hs⟩
          rw [List.countP_cons]
          omega
        · right
          rw [List.countP_cons]
          have hpa : ((a.room_id == rid) : Bool) = true := by simp [he]
          rw [hpa, if_pos rfl]
          omega
      · right
        rw [List.countP_cons]
        omega

theorem facNotInMaster_mem_list (data : MasterData) (s fid s' : String) :
    ∀ (ps : List Placement) (seen : List (String × String)),
      Violation.facultyNotInMaster fid s' ∈ facChecksList data s ps seen →
      fid ≠ "" ∧ ∃ a ∈ ps, a.faculty_id = some fid ∧
        pyGet? (facultyMap data) fid = none := by
  intro ps
  induction ps with
  | nil => intro seen h; cases h
  | cons a rest ih =>
    intro seen h
    simp only [facChecksList] at h
    rcases List.mem_append.mp h with h | h
    · simp only [facChecksAssign] at h
      split at h
      · rw [List.mem_singleton] at h
        cases h
      · rename_i fid0 hfid
        split at h
        · rw [List.mem_singleton] at h
          cases h
        · rename_i hne0
          split at h
          · rename_i hnone
            rw [List.mem_singleton] at h
            injection h with h1 h2
            subst h1
            refine ⟨hne0, a, List.mem_cons_self a rest, hfid, hnone⟩
          · exfalso
            rcases List.mem_append.mp h with h | h
            · split at h
              · cases h
              · rw [List.mem_singleton] at h
                cases h
            · split at h
              · rw [List.mem_singleton] at h
                cases h
              · cases h
    · rcases ih _ h with ⟨hne, a2, ha2, hr1, hr2⟩
      exact ⟨hne, a2, List.mem_cons_of_mem _ ha2, hr1, hr2⟩

theorem facNotAvailable_mem_list (data : MasterData) (s fid s' code : String) :
    ∀ (ps : List Placement) (seen : List (String × String)),
      Violation.facultyNotAvailable fid s' code ∈ facChecksList data s ps seen →
      fid ≠ "" ∧ ∃ a ∈ ps, a.faculty_id = some fid ∧
        ∃ fobj, pyGet? (facultyMap data) fid = some fobj ∧
          s ∉ fobj.available_slots := by
  intro ps
  induction ps with
  | nil => intro seen h; cases h
  | cons a rest ih =>
    intro seen h
    simp only [facChecksList] at h
    rcases List.mem_append.mp h with h | h
    · simp only [facChecksAssign] at h
      split at h
      · rw [List.mem_singleton] at h
        cases h
      · rename_i fid0 hfid
        split at h
        · rw [List.mem_singleton] at h
          cases h
        · rename_i hne0
          split at h
          · rw [List.mem_singleton] at h
            cases h
          · rename_i fobj hsome
            rcases List.mem_append.mp h with h | h
            · split at h
              · cases h
              · rename_i hnav
                rw [List.mem_singleton] at h
                injection h with h1 h2 h3
                subst h1
                exact ⟨hne0, a, List.mem_cons_self a rest, hfid, fobj,
                  hsome, hnav⟩
            · exfalso
              split at h
              · rw [List.mem_singleton] at h
                cases h
              · cases h
    · rcases ih _ h with ⟨hne, a2, ha2, hr1, hr2⟩
      exact ⟨hne, a2, List.mem_cons_of_mem _ ha2, hr1, hr2⟩

theorem facSeenNext_lookup (data : MasterData) (seen : List (String × String))
    (a : Placement) (fid : String)
    (h : (pyGet? (facSeenNext data seen a) fid).isSome) :
    (pyGet? seen fid).isSome ∨ a.faculty_id = some fid := by
  unfold facSeenNext at h
  split at h
  · exact Or.inl h
  · rename_i fid0 hf0
    split at h
    · exact Or.inl h
    · split at h
      · exact Or.inl h
      · split at h
        · exact Or.inl h
        · by_cases he : fid0 = fid
          · right
            rw [hf0, he]
          · rw [pyGet?_append_one seen fid0 fid _ (fun hh => he hh.symm)] at h
            exact Or.inl h

theorem facDoubleBooked_mem_list (data : MasterData) (s fid s' f c : String) :
    ∀ (ps : List Placement) (seen : List (String × String)),
      Violation.facultyDoubleBooked fid s' f c ∈ facChecksList data s ps seen →
      fid ≠ "" ∧
        ((1 ≤ ps.countP (fun b => b.faculty_id == some fid) ∧
          (pyGet? seen fid).isSome) ∨
        2 ≤ ps.countP (fun b => b.faculty_id == some fid)) := by
  intro ps
  induction ps with
  | nil => intro seen h; cases h
  | cons a rest ih =>
    intro seen h
    simp only [facChecksList] at h
    rcases List.mem_append.mp h with h | h
    · simp only [facChecksAssign] at h
      split at h
      · rw [List.mem_singleton] at h
        cases h
      · rename_i fid0 hfid
        split at h
        · rw [List.mem_singleton] at h
          cases h
        · rename_i hne0
          split at h
          · rw [List.mem_singleton] at h
            cases h
          · rename_i fobj hsome
            rcases List.mem_append.mp h with h | h
            · exfalso
              split at h
              · cases h
              · rw [List.mem_singleton] at h
                cases h
            · split at h
              · rename_i first hseen
                rw [List.mem_singleton] at h
                injection h with h1 h2 h3 h4
                subst h1
                refine ⟨hne0, Or.inl ⟨?_, ?_⟩⟩
                · rw [List.countP_cons]
                  have hpa : ((a.faculty_id == some fid) : Bool) = true := by
                    simp [hfid]
                  rw [hpa, if_pos rfl]
                  omega
                · rw [hseen]
                  rfl
              · cases h
    · rcases ih _ h with ⟨hne, hd⟩
      refine ⟨hne, ?_⟩
      rcases hd with ⟨h1, h2⟩ | h2
      · rcases facSeenNext_lookup data seen a fid h2 with hs | he
        · left
          refine ⟨?_, hs⟩
          rw [List.countP_cons]
          omega
        · right
          rw [List.countP_cons]
          have hpa : ((a.faculty_id == some fid) : Bool) = true := by
            simp [he]
          rw [hpa, if_pos rfl]
          omega
      · right
        rw [List.countP_cons]
        omega

theorem gseenNext_lookup (gseen : List (String × String)) (g code g' : String)
    (h : (pyGet? (gseenNext gseen g code) g').isSome) :
    (pyGet? gseen g').isSome ∨ g = g' := by
  unfold gseenNext at h
  split at h
  · exact Or.inl h
  · by_cases he : g = g'
    · exact Or.inr he
    · rw [pyGet?_append_one gseen g g' _ (fun hh => he hh.symm)] at h
      exact Or.inl h

theorem gseenNextGroups_lookup (code : String) :
    ∀ (gs : List String) (gseen : List (String × String)) (g' : String),
      (pyGet? (gseenNextGroups code gs gseen) g').isSome →
      (pyGet? gseen g').isSome ∨ g' ∈ gs := by
  intro gs
  induction gs with
  | nil => intro gseen g' h; exact Or.inl h
  | cons g rest ih =>
    intro gseen g' h
    simp only [gseenNextGroups] at h
    rcases ih _ _ h with h2 | h2
    · rcases gseenNext_lookup gseen g code g' h2 with h3 | h3
      · exact Or.inl h3
      · right
        rw [← h3]
        exact List.mem_cons_self g rest
    · exact Or.inr (List.mem_cons_of_mem _ h2)

theorem groupViolGroups_count (s code g s' f c : String) :
    ∀ (gs : List String) (gseen : List (String × String)),
      Violation.groupMultipleClasses g s' f c ∈ groupViolGroups s code gs gseen →
      ((pyGet? gseen g).isSome ∧ 1 ≤ gs.count g) ∨ 2 ≤ gs.count g := by
  intro gs
  induction gs with
  | nil => intro gseen h; cases h
  | cons g0 rest ih =>
    intro gseen h
    simp only [groupViolGroups] at h
    rcases List.mem_append.mp h with h | h
    · split at h
      · rename_i first hseen
        rw [List.mem_singleton] at h
        injection h with h1 h2 h3 h4
        subst h1
        left
        constructor
        · rw [hseen]
          rfl
        · rw [List.count_cons_self]
          omega
      · cases h
    · rcases ih _ h with ⟨h1, h2⟩ | h2
      · rcases gseenNext_lookup gseen g0 code g h1 with h3 | h3
        · left
          refine ⟨h3, ?_⟩
          rw [List.count_cons]
          omega
        · right
          rw [List.count_cons, if_pos (by simp [h3])]
          omega
      · right
        rw [List.count_cons]
        omega

theorem groupMultiple_mem_list (data : MasterData) (s g s' f c : String) :
    ∀ (ps : List Placement) (gseen : List (String × String)),
      Violation.groupMultipleClasses g s' f c ∈ groupChecksList data s ps gseen →
      ((pyGet? gseen g).isSome ∧
        1 ≤ (ps.map (fun a =>
          (courseGroupsOf data a.course_code).count g)).sum) ∨
      2 ≤ (ps.map (fun a =>
        (courseGroupsOf data a.course_code).count g)).sum := by
  intro ps
  induction ps with
  | nil => intro gseen h; cases h
  | cons a rest ih =>
    intro gseen h
    simp only [groupChecksList] at h
    rw [List.map_cons, List.sum_cons]
    rcases List.mem_append.mp h with h | h
    · rcases groupViolGroups_count s a.course_code g s' f c _ gseen h with
        ⟨h1, h2⟩ | h2
      · left
        exact ⟨h1, by omega⟩
      · right
        omega
    · rcases ih _ h with ⟨h1, h2⟩ | h2
      · rcases gseenNextGroups_lookup a.course_code _ gseen g h1 with h3 | h3
        · left
          exact ⟨h3, by omega⟩
        · right
          have hc : 0 < (courseGroupsOf data a.course_code).count g :=
            List.count_pos_iff.mpr h3
          omega
      · right
        omega

theorem courseGroupsOf_nodup (data : MasterData)
    (hgnodup : ∀ c ∈ data.courses, c.student_groups.Nodup) (code : String) :
    (courseGroupsOf data code).Nodup := by
  unfold courseGroupsOf
  cases hget : pyGet? (courseMap data) code with
  | none => simp
  | some c =>
    have hget2 : pyGet? (pyDict (fun c => c.course_code) data.courses) code =
        some c := hget
    have hc := pyGet?_pyDict_some (fun c => c.course_code) data.courses
      code c hget2
    simpa using hgnodup c hc.1

theorem sessionMismatch_mem (data : MasterData) (tt : Timetable)
    (code : String) (req sched : Int)
    (h : Violation.sessionMismatch code req sched ∈ sessionsPhase data tt) :
    ∃ p ∈ courseMap data, p.1 = code ∧ requiredSessions p.2 = some req ∧
      (pyGet? (scheduledCounts tt) code).getD 0 ≠ req := by
  simp only [sessionsPhase] at h
  rcases List.mem_filterMap.mp h with ⟨p, hp, hpe⟩
  split at hpe
  · rename_i r hr
    split at hpe
    · rename_i hne
      injection hpe with hpe
      injection hpe with h1 h2 h3
      subst h1
      subst h2
      exact ⟨p, hp, rfl, hr, hne⟩
    · cases hpe
  · cases hpe

theorem bumpFold_get (code : String) :
    ∀ (l : List Placement) (m : List (String × Int)),
      (pyGet? (l.foldl (fun m a =>
        pyDictInsert m a.course_code ((pyGet? m a.course_code).getD 0 + 1)) m)
          code).getD 0 =
        (pyGet? m code).getD 0 +
          (l.countP (fun a => a.course_code == code) : Int) := by
  intro l
  induction l with
  | nil =>
    intro m
    simp
  | cons a l ih =>
    intro m
    rw [List.foldl_cons, ih, List.countP_cons]
    by_cases he : a.course_code = code
    · rw [he, pyGet?_pyDictInsert_self]
      have hp : ((code == code) : Bool) = true := by simp
      rw [hp, if_pos rfl]
      simp only [Option.getD_some]
      push_cast
      ring
    · rw [pyGet?_pyDictInsert_ne m a.course_code _ code (fun hh => he hh.symm)]
      have hp : ((a.course_code == code) : Bool) = false := by simp [he]
      rw [hp]
      simp

theorem scheduledCounts_get (code : String) (tt : Timetable) :
    (pyGet? (scheduledCounts tt) code).getD 0 =
      (tt.map (fun sp =>
        (sp.2.countP (fun a => a.course_code == code) : Int))).sum := by
  have haux : ∀ (l : Timetable) (m : List (String × Int)),
      (pyGet? (l.foldl (fun m sp =>
        sp.2.foldl (fun m a =>
          pyDictInsert m a.course_code ((pyGet? m a.course_code).getD 0 + 1)) m)
        m) code).getD 0 =
      (pyGet? m code).getD 0 +
        (l.map (fun sp =>
          (sp.2.countP (fun a => a.course_code == code) : Int))).sum := by
    intro l
    induction l with
    | nil => intro m; simp
    | cons sp l ih =>
      intro m
      rw [List.foldl_cons, ih, bumpFold_get, List.map_cons, List.sum_cons]
      ring
  have h0 := haux tt []
  unfold scheduledCounts
  rw [h0]
  simp [pyGet?]

/-! ### The accumulated faculty-load dict -/

theorem facLoadNext_keys (data : MasterData) (loadD : List (String × Int))
    (a : Placement) (h : (loadD.map Prod.fst).Nodup) :
    ((facLoadNext data loadD a).map Prod.fst).Nodup := by
  unfold facLoadNext
  split
  · exact h
  · split
    · exact h
    · split
      · exact h
      · unfold loadBump
        exact keys_nodup_pyDictInsert _ _ _ h

theorem facLoadList_keys (data : MasterData) :
    ∀ (ps : List Placement) (loadD : List (String × Int)),
      (loadD.map Prod.fst).Nodup →
      ((facLoadList data ps loadD).map Prod.fst).Nodup := by
  intro ps
  induction ps with
  | nil => intro loadD h; exact h
  | cons a rest ih =>
    intro loadD h
    simp only [facLoadList]
    exact ih _ (facLoadNext_keys data loadD a h)

theorem facLoadDict_keys (data : MasterData) (tt : Timetable) :
    ((facLoadDict data tt).map Prod.fst).Nodup := by
  have haux : ∀ (l : Timetable) (acc : List (String × Int)),
      (acc.map Prod.fst).Nodup →
      ((l.foldl (fun loadD sp => facLoadList data sp.2 loadD) acc).map
        Prod.fst).Nodup := by
    intro l
    induction l with
    | nil => intro acc h; exact h
    | cons sp l ih =>
      intro acc h
      exact ih _ (facLoadList_keys data sp.2 acc h)
  exact haux tt [] (by simp)

theorem facLoadNext_entries (data : MasterData) (loadD : List (String × Int))
    (a : Placement)
    (h : ∀ p ∈ loadD,
      p.1 ≠ "" ∧ (pyGet? (facultyMap data) p.1).isSome ∧ 1 ≤ p.2) :
    ∀ p ∈ facLoadNext data loadD a,
      p.1 ≠ "" ∧ (pyGet? (facultyMap data) p.1).isSome ∧ 1 ≤ p.2 := by
  intro p hp
  unfold facLoadNext at hp
  split at hp
  · exact h p hp
  · rename_i fid hfid
    split at hp
    · exact h p hp
    · rename_i hne
      split at hp
      · exact h p hp
      · rename_i fobj hget
        unfold loadBump at hp
        rcases pyDictInsert_entry_cases _ _ _ p hp with hp2 | hp2
        · exact h p hp2
        · have h0 : 0 ≤ loadOf loadD fid := by
            unfold loadOf
            cases hq : pyGet? loadD fid with
            | none => simp
            | some v =>
              have hv := (h (fid, v) (pyGet?_some_mem loadD fid v hq)).2.2
              simp only [Option.getD_some]
              omega
          rw [hp2]
          refine ⟨hne, ?_, ?_⟩
          · rw [hget]
            rfl
          · show 1 ≤ loadOf loadD fid + 1
            omega

theorem facLoadList_entries (data : MasterData) :
    ∀ (ps : List Placement) (loadD : List (String × Int)),
      (∀ p ∈ loadD,
        p.1 ≠ "" ∧ (pyGet? (facultyMap data) p.1).isSome ∧ 1 ≤ p.2) →
      ∀ p ∈ facLoadList data ps loadD,
        p.1 ≠ "" ∧ (pyGet? (facultyMap data) p.1).isSome ∧ 1 ≤ p.2 := by
  intro ps
  induction ps with
  | nil => intro loadD h; exact h
  | cons a rest ih =>
    intro loadD h
    simp only [facLoadList]
    exact ih _ (facLoadNext_entries data loadD a h)

theorem facLoadDict_entries (data : MasterData) (tt : Timetable) :
    ∀ p ∈ facLoadDict data tt,
      p.1 ≠ "" ∧ (pyGet? (facultyMap data) p.1).isSome ∧ 1 ≤ p.2 := by
  have haux : ∀ (l : Timetable) (acc : List (String × Int)),
      (∀ p ∈ acc,
        p.1 ≠ "" ∧ (pyGet? (facultyMap data) p.1).isSome ∧ 1 ≤ p.2) →
      ∀ p ∈ l.foldl (fun loadD sp => facLoadList data sp.2 loadD) acc,
        p.1 ≠ "" ∧ (pyGet? (facultyMap data) p.1).isSome ∧ 1 ≤ p.2 := by
    intro l
    induction l with
    | nil => intro acc h; exact h
    | cons sp l ih =>
      intro acc h
      exact ih _ (facLoadList_entries data sp.2 acc h)
  exact haux tt [] (by intro p hp; cases hp)

theorem facLoadNext_loadOf (data : MasterData) (fid : String) (hne : fid ≠ "")
    (hsome : (pyGet? (facultyMap data) fid).isSome)
    (loadD : List (String × Int)) (a : Placement) :
    loadOf (facLoadNext data loadD a) fid =
      loadOf loadD fid + (if a.faculty_id = some fid then 1 else 0) := by
  cases hf : a.faculty_id with
  | none => simp [facLoadNext, hf]
  | some g =>
    by_cases hg : g = ""
    · have hgf : ¬ (some g = some fid) := by
        intro he
        injection he with he
        exact hne (by rw [← he, hg])
      simp [facLoadNext, hf, hg, hgf]
      exact fun he => hne he.symm
    · cases hget : pyGet? (facultyMap data) g with
      | none =>
        have hgf : ¬ (some g = some fid) := by
          intro he
          injection he with he
          rw [he] at hget
          rw [hget] at hsome
          simp at hsome
        simp [facLoadNext, hf, hg, hget, hgf]
      | some fobj =>
        by_cases hgf : g = fid
        · subst hgf
          simp [facLoadNext, hf, hg, hget, loadOf_loadBump_self]
        · have hgf2 : ¬ (some g = some fid) := by
            intro he
            injection he with he
            exact hgf he
          simp [facLoadNext, hf, hg, hget, hgf2,
            loadOf_loadBump_ne loadD g fid (fun he => hgf he.symm)]

theorem facLoadList_loadOf (data : MasterData) (fid : String) (hne : fid ≠ "")
    (hsome : (pyGet? (facultyMap data) fid).isSome) :
    ∀ (ps : List Placement) (loadD : List (String × Int)),
      loadOf (facLoadList data ps loadD) fid =
        loadOf loadD fid +
          (ps.countP (fun a => a.faculty_id == some fid) : Int) := by
  intro ps
  induction ps with
  | nil => intro loadD; simp [facLoadList]
  | cons a rest ih =>
    intro loadD
    simp only [facLoadList]
    rw [ih, facLoadNext_loadOf data fid hne hsome, List.countP_cons]
    by_cases he : a.faculty_id = some fid
    · have hb : ((a.faculty_id == some fid) : Bool) = true := by simp [he]
      rw [if_pos he, hb, if_pos rfl]
      push_cast
      ring
    · have hb : ((a.faculty_id == some fid) : Bool) = false := by simp [he]
      rw [if_neg he, hb]
      simp

theorem facLoadDict_loadOf (data : MasterData) (fid : String) (hne : fid ≠ "")
    (hsome : (pyGet? (facultyMap data) fid).isSome) (tt : Timetable) :
    loadOf (facLoadDict data tt) fid =
      (tt.map (fun sp =>
        (sp.2.countP (fun a => a.faculty_id == some fid) : Int))).sum := by
  have haux : ∀ (l : Timetable) (acc : List (String × Int)),
      loadOf (l.foldl (fun loadD sp => facLoadList data sp.2 loadD) acc) fid =
        loadOf acc fid + (l.map (fun sp =>
          (sp.2.countP (fun a => a.faculty_id == some fid) : Int))).sum := by
    intro l
    induction l with
    | nil => intro acc; simp
    | cons sp l ih =>
      intro acc
      rw [List.foldl_cons, ih, facLoadList_loadOf data fid hne hsome,
        List.map_cons, List.sum_cons]
      ring
  unfold facLoadDict
  rw [haux tt []]
  simp [loadOf, pyGet?]

/-- C2 (amended): for master data with unique course codes, duplicate-free
per-course group lists and group references that resolve in the master group
list, take any solver valuation satisfying the hard constraints the scheduler
posts, and run it through the faculty optimizer (succeeding) and then the
validator. No slot-existence, room-not-found, room-availability,
room-double-booking, faculty-not-in-master, faculty-availability,
faculty-double-booking, faculty-overload, group-conflict or session-count
violation is reported: every violation is a room-capacity report (the CP
model has no capacity constraint), a no-faculty-assigned report (the
optimizer may find no eligible faculty), or belongs to the credit /
teaching-practice categories. -/
theorem feasible_schedule_validates_cleanly (data : MasterData)
    (val : VarKey → Bool) (out : Timetable)
    (ftt : List (String × List (String × String)))
    (hcodes : (data.courses.map (fun c => c.course_code)).Nodup)
    (hgnodup : ∀ c ∈ data.courses, c.student_groups.Nodup)
    (hgroups : ∀ c ∈ data.courses, ∀ g ∈ c.student_groups,
      ∃ G ∈ data.student_groups, G.group_id = g)
    (hsat : SatisfiesHard data val)
    (hok : assignFaculty data (orderedAssignments data val) = .ok (out, ftt)) :
    ∀ v ∈ validateTimetable out data,
      vKind v = 4 ∨ vKind v = 5 ∨ 12 ≤ vKind v := by
  obtain ⟨hses, hrooms, hgrp, _⟩ := hsat
  intro v hv
  rcases validate_mem_cases out data v hv with h | h | h | h | h | h | h | h
  · -- slot existence: every emitted slot key is a master slot
    exfalso
    rcases slotExistence_mem out data.time_slots v h with ⟨s, hs, hns⟩
    exact hns (out_keys_in_slots data val out ftt hok s hs)
  · -- room phase
    rcases List.mem_flatMap.mp h with ⟨sp, hsp, hvl⟩
    have hk := roomChecksList_shape data sp.1 sp.2 [] v hvl
    cases v <;> try simp [vKind] at hk
    case roomCapacity rid cap code needs => exact Or.inl rfl
    case roomNotFound rid s' =>
      exfalso
      rcases roomNotFound_mem_list data sp.1 rid s' sp.2 [] hvl with
        ⟨a, ha, hrid, hnone⟩
      rcases out_mem_bridge data val out ftt hok sp hsp a ha with
        ⟨k, hk2, hks, hcc, hrm⟩
      rcases (mem_buildVars data k).mp
        ((mem_varKeys data k).mp (trueVars_subset_varKeys data val hk2)) with
        ⟨c0, hc0, s0, hs0, r0, hr0, _, hke⟩
      have hr2 : rid = r0.room_id := by
        rw [← hrid, hrm, hke]
      have hsome : (pyGet? (roomMap data) rid).isSome := by
        rw [hr2]
        exact pyGet?_pyDict_isSome (fun r => r.room_id) data.rooms r0 hr0
      rw [hnone] at hsome
      simp at hsome
    case roomNotAvailable rid s' code =>
      exfalso
      rcases roomNotAvailable_mem_list data sp.1 rid s' code sp.2 [] hvl with
        ⟨a, ha, hrid, room, hsome, hnav⟩
      rcases out_mem_bridge data val out ftt hok sp hsp a ha with
        ⟨k, hk2, hks, hcc, hrm⟩
      have hsome2 : pyGet? (pyDict (fun r => r.room_id) data.rooms) rid =
          some room := hsome
      have hroom := pyGet?_pyDict_some (fun r => r.room_id) data.rooms rid
        room hsome2
      rcases (mem_buildVars data k).mp
        ((mem_varKeys data k).mp (trueVars_subset_varKeys data val hk2)) with
        ⟨c0, hc0, s0, hs0, r0, hr0, _, hke⟩
      have hslot2 : sp.1 ∈ data.time_slots := by
        rw [← hks, hke]
        exact hs0
      have hroomid : room.room_id = rid := hroom.2
      have hkrid : k.2.2 = room.room_id := by
        rw [← hrm, hrid, hroomid]
      have hfalse := (hrooms room hroom.1 sp.1 hslot2).2 hnav k
        (trueVars_subset_varKeys data val hk2) hks hkrid
      have htrue : val k = true := (List.mem_filter.mp hk2).2
      rw [htrue] at hfalse
      cases hfalse
    case roomDoubleBooked rid s' f c =>
      exfalso
      rcases roomDoubleBooked_mem_list data sp.1 rid s' f c sp.2 [] hvl with
        ⟨_, habs⟩ | hcnt
      · simp [pyGet?] at habs
      · have hbr := (out_slot_count data val out ftt hok
          (fun b => b.room_id == rid) (fun a ch => rfl) sp hsp).2
        rw [hbr] at hcnt
        have hsimp : (trueVars data val).countP (fun k => (k.2.1 == sp.1) &&
            ((mkPlacement data k).room_id == rid)) =
          (trueVars data val).countP (fun k => (k.2.1 == sp.1) &&
            (k.2.2 == rid)) :=
          countP_congr_mem _ _ _ (fun k _ => by rw [mkPlacement_room_id])
        rw [hsimp] at hcnt
        have hpos : 0 < (trueVars data val).countP
            (fun k => (k.2.1 == sp.1) && (k.2.2 == rid)) := by omega
        rcases List.countP_pos_iff.mp hpos with ⟨k0, hk0, hp0⟩
        rw [Bool.and_eq_true] at hp0
        obtain ⟨hp1, hp2⟩ := hp0
        have hp1e : k0.2.1 = sp.1 := by simpa using hp1
        have hp2e : k0.2.2 = rid := by simpa using hp2
        rcases (mem_buildVars data k0).mp
          ((mem_varKeys data k0).mp (trueVars_subset_varKeys data val hk0)) with
          ⟨c0, hc0, s0, hs0, r0, hr0, _, hke⟩
        have hr0id : r0.room_id = rid := by
          rw [← hp2e, hke]
        have hslot2 : sp.1 ∈ data.time_slots := by
          rw [← hp1e, hke]
          exact hs0
        by_cases hav : sp.1 ∈ r0.available_slots
        · have hle := (hrooms r0 hr0 sp.1 hslot2).1 hav
          unfold countTrue at hle
          have heq2 : (trueVars data val).countP (fun k => (k.2.1 == sp.1) &&
              (k.2.2 == r0.room_id)) = (trueVars data val).countP
              (fun k => (k.2.1 == sp.1) && (k.2.2 == rid)) := by
            rw [hr0id]
          rw [heq2] at hle
          omega
        · have hfalse := (hrooms r0 hr0 sp.1 hslot2).2 hav k0
            (trueVars_subset_varKeys data val hk0) hp1e
            (by rw [hp2e, hr0id])
          have htrue : val k0 = true := (List.mem_filter.mp hk0).2
          rw [htrue] at hfalse
          cases hfalse
  · -- faculty availability / double-book phase
    rcases List.mem_flatMap.mp h with ⟨sp, hsp, hvl⟩
    have hk := facChecksList_shape data sp.1 sp.2 [] v hvl
    cases v <;> try simp [vKind] at hk
    case noFacultyAssigned code s' => exact Or.inr (Or.inl rfl)
    case facultyNotInMaster fid s' =>
      exfalso
      rcases facNotInMaster_mem_list data sp.1 fid s' sp.2 [] hvl with
        ⟨hne, a, ha, hfid, hnone⟩
      rcases (assignFaculty_ok_invariants data _ out ftt hok fid hne).1
        sp hsp a ha hfid with ⟨fobj, hget, _⟩
      rw [hnone] at hget
      cases hget
    case facultyNotAvailable fid s' code =>
      exfalso
      rcases facNotAvailable_mem_list data sp.1 fid s' code sp.2 [] hvl with
        ⟨hne, a, ha, hfid, fobj, hget, hnav⟩
      rcases (assignFaculty_ok_invariants data _ out ftt hok fid hne).1
        sp hsp a ha hfid with ⟨fobj2, hget2, hav⟩
      rw [hget] at hget2
      injection hget2 with hget2
      rw [← hget2] at hav
      exact hnav hav
    case facultyDoubleBooked fid s' f c =>
      exfalso
      rcases facDoubleBooked_mem_list data sp.1 fid s' f c sp.2 [] hvl with
        ⟨hne, hd⟩
      rcases hd with ⟨_, habs⟩ | hcnt
      · simp [pyGet?] at habs
      · have hle := (assignFaculty_ok_invariants data _ out ftt hok
          fid hne).2.1 sp hsp
        omega
  · -- weekly load phase
    have hk := loadPhase_shape data (facLoadDict data out) v h
    cases v <;> try simp [vKind] at hk
    case facultyOverload fid l m =>
      exfalso
      rcases loadPhase_mem data (facLoadDict data out) fid l m h with
        ⟨p, hp, hp1, hp2, hmm, hm0, hlm⟩
      have hent := facLoadDict_entries data out p hp
      rw [hp1, hp2] at hent
      obtain ⟨hne, hsome, hpos⟩ := hent
      cases hget : pyGet? (facultyMap data) fid with
      | none =>
        rw [hget] at hmm
        exact Option.noConfusion hmm
      | some fobj =>
        rw [hget] at hmm
        have hmm2 : fobj.max_hours_per_week = some m := hmm
        have hload : loadOf (facLoadDict data out) fid = l := by
          have hassoc := assoc_get_of_mem_nodup (facLoadDict data out) p hp
            (facLoadDict_keys data out)
          rw [hp1] at hassoc
          unfold loadOf
          rw [hassoc, hp2]
          rfl
        have hval := facLoadDict_loadOf data fid hne hsome out
        have hinv := (assignFaculty_ok_invariants data _ out ftt hok
          fid hne).2.2 fobj hget
        have hmax : maxHoursOf fobj = m := by
          unfold maxHoursOf
          rw [hmm2]
          rfl
        have hle : l ≤ max m 0 := by
          rw [← hload, hval, ← hmax]
          exact hinv
        rcases max_choice m 0 with hc | hc <;> rw [hc] at hle <;> omega
  · -- group-conflict phase
    rcases List.mem_flatMap.mp h with ⟨sp, hsp, hvl⟩
    have hk := groupChecksList_shape data sp.1 sp.2 [] v hvl
    cases v <;> try simp [vKind] at hk
    case groupMultipleClasses g s' f c =>
      exfalso
      rcases groupMultiple_mem_list data sp.1 g s' f c sp.2 [] hvl with
        ⟨habs, _⟩ | hsum
      · simp [pyGet?] at habs
      · have hcnt := sum_map_le_countP
          (fun a : Placement => (courseGroupsOf data a.course_code).count g)
          sp.2 (fun a _ =>
            List.nodup_iff_count_le_one.mp
              (courseGroupsOf_nodup data hgnodup a.course_code) g)
        have h2 : 2 ≤ sp.2.countP (fun a =>
            decide (1 ≤ (courseGroupsOf data a.course_code).count g)) :=
          le_trans hsum hcnt
        have hmemP : sp.2.countP (fun a =>
            decide (1 ≤ (courseGroupsOf data a.course_code).count g)) =
          sp.2.countP (fun a =>
            decide (g ∈ courseGroupsOf data a.course_code)) :=
          countP_congr_mem _ _ _ (fun a _ => by
            by_cases hm : g ∈ courseGroupsOf data a.course_code
            · simp [hm, List.count_pos_iff.mpr hm]
            · simp [hm, List.count_eq_zero.mpr hm])
        rw [hmemP] at h2
        rcases out_slot_count data val out ftt hok
          (fun a => decide (g ∈ courseGroupsOf data a.course_code))
          (fun a ch => rfl) sp hsp with ⟨hslot, hbr2⟩
        rw [hbr2] at h2
        have hsimp : (trueVars data val).countP (fun k => (k.2.1 == sp.1) &&
            decide (g ∈ courseGroupsOf data
              (mkPlacement data k).course_code)) =
          (trueVars data val).countP (fun k => (k.2.1 == sp.1) &&
            decide (g ∈ courseGroupsOf data k.1)) :=
          countP_congr_mem _ _ _ (fun k _ => by rw [mkPlacement_course_code])
        rw [hsimp] at h2
        have hpos : 0 < (trueVars data val).countP (fun k =>
            (k.2.1 == sp.1) && decide (g ∈ courseGroupsOf data k.1)) := by
          omega
        rcases List.countP_pos_iff.mp hpos with ⟨k0, hk0, hp0⟩
        rw [Bool.and_eq_true] at hp0
        obtain ⟨hp1, hp2⟩ := hp0
        have hg0 : g ∈ courseGroupsOf data k0.1 := of_decide_eq_true hp2
        unfold courseGroupsOf at hg0
        cases hget0 : pyGet? (courseMap data) k0.1 with
        | none =>
          rw [hget0] at hg0
          exact absurd hg0 (by simp)
        | some c1 =>
          rw [hget0] at hg0
          have hg0b : g ∈ c1.student_groups := hg0
          have hget02 : pyGet? (pyDict (fun c => c.course_code) data.courses)
              k0.1 = some c1 := hget0
          have hc1 := pyGet?_pyDict_some (fun c => c.course_code) data.courses
            k0.1 c1 hget02
          rcases hgroups c1 hc1.1 g hg0b with ⟨G, hG, hGid⟩
          have hmono : ∀ k ∈ trueVars data val,
              ((k.2.1 == sp.1) &&
                decide (g ∈ courseGroupsOf data k.1)) = true →
              (decide (k.1 ∈ groupCourses data G) && (k.2.1 == sp.1)) =
                true := by
            intro k hkm hpk
            rw [Bool.and_eq_true] at hpk
            obtain ⟨hk1, hk2m⟩ := hpk
            rw [Bool.and_eq_true]
            refine ⟨?_, hk1⟩
            have hg2 := of_decide_eq_true hk2m
            unfold courseGroupsOf at hg2
            cases hget2 : pyGet? (courseMap data) k.1 with
            | none =>
              rw [hget2] at hg2
              exact absurd hg2 (by simp)
            | some c2 =>
              rw [hget2] at hg2
              have hg2b : g ∈ c2.student_groups := hg2
              have hget22 : pyGet? (pyDict (fun c => c.course_code)
                  data.courses) k.1 = some c2 := hget2
              have hc2 := pyGet?_pyDict_some (fun c => c.course_code)
                data.courses k.1 c2 hget22
              apply decide_eq_true
              unfold groupCourses
              rw [List.mem_map]
              refine ⟨c2, ?_, hc2.2⟩
              rw [List.mem_filter]
              refine ⟨hc2.1, ?_⟩
              rw [hGid]
              exact decide_eq_true hg2b
          have hle := hgrp G hG sp.1 hslot
          unfold countTrue at hle
          have hm2 := List.countP_mono_left hmono
          omega
  · -- session-count phase
    have hk := sessionsPhase_shape data out v h
    cases v <;> try simp [vKind] at hk
    case sessionMismatch code req sched =>
      exfalso
      rcases sessionMismatch_mem data out code req sched h with
        ⟨p, hp, hp1, hreq, hneq⟩
      unfold courseMap at hp
      rw [pyDict_eq_of_nodup (fun c => c.course_code) data.courses hcodes]
        at hp
      rcases List.mem_map.mp hp with ⟨c, hc, hpe⟩
      have hcc : c.course_code = code := by
        rw [← hp1, ← hpe]
      have hreq2 : requiredSessions c = some req := by
        rw [← hpe] at hreq
        exact hreq
      have hs2 := hses c hc
      rw [requiredSessions_some c req hreq2, hcc] at hs2
      have hsg := scheduledCounts_get code out
      have hcast := list_sum_natCast
        (fun sp : String × List Placement =>
          sp.2.countP (fun a => a.course_code == code)) out
      have hbr := total_count_bridge data val out ftt hok
        (fun a => a.course_code == code) (fun a ch => rfl)
      have hcg : (trueVars data val).countP
          (fun k => (mkPlacement data k).course_code == code) =
        (trueVars data val).countP (fun k => k.1 == code) :=
        countP_congr_mem _ _ _ (fun k _ => by rw [mkPlacement_course_code])
      apply hneq
      rw [hsg, hcast, hbr, hcg]
      exact hs2
  · -- credit phase: allowed category
    exact Or.inr (Or.inr (creditPhase_shape data _ v h).1)
  · -- teaching-practice phase: allowed category
    have hk := practicePhase_shape data out v h
    rw [hk]
    norm_num

/-- The unique sensible valuation for `dataCap` satisfies every hard
constraint the scheduler posts (the adjacency family is bounded by the
single true variable). -/
theorem satisfiesHard_dataCap : SatisfiesHard dataCap valCap := by
  refine ⟨by decide, by decide, by decide, ?_⟩
  intro k1 hk1 k2 hk2 h1 h2 h3 h4
  unfold countTrue
  exact le_trans (List.countP_le_length _)
    (by decide : (trueVars dataCap valCap).length ≤ 1)

/-- C2 counterexample: a hard-constraint-satisfying valuation on `dataCap`
runs through the whole pipeline without error, yet the validator reports a
room-capacity violation (a room-category report): the CP model never
encodes room capacity. -/
theorem capacity_violation_survives_feasible_run :
    SatisfiesHard dataCap valCap ∧
    ∃ res : GenResult,
      generate dataCap .optimal valCap = .ok (some res, none) ∧
        Violation.roomCapacity "R1" 1 "C1" 2 ∈ res.violations := by
  refine ⟨satisfiesHard_dataCap, ⟨_, rfl, ?_⟩⟩
  decide

/-- C2 witness: the amended theorem applied to the concrete capacity
scenario. -/
theorem feasible_schedule_validates_cleanly_witness :
    ∃ (out : Timetable) (ftt : List (String × List (String × String))),
      assignFaculty dataCap (orderedAssignments dataCap valCap) =
        .ok (out, ftt) ∧
      ∀ v ∈ validateTimetable out dataCap,
        vKind v = 4 ∨ vKind v = 5 ∨ 12 ≤ vKind v :=
  ⟨_, _, rfl, feasible_schedule_validates_cleanly dataCap valCap _ _
    (by decide) (by decide) (by decide) satisfiesHard_dataCap rfl⟩
